import Mathlib

/-!
# YACCLAB benchmark driver (`main.cpp`): label normalisation, the correctness checker and
the tests

A shallow embedding of `normalizeLabels`, `compareMat`, `getBinaryImage`,
`deleteCarriageReturn`, `checkAlgorithms`, `ctoi`, `eraseDoubleEscape`, `averages_test`,
`density_size_test`, `memory_test` and `main`, followed by the properties proved about
them.

Conventions of the embedding
* a `cv::Mat1i` / `cv::Mat1b` is the list of its rows (row-major order);
* `int` labels are mathematical integers.  The only arithmetic performed on them is the
  counter `++iMaxNewLabel`, which counts distinct positive `int` keys and therefore never
  exceeds `INT_MAX`, so no wrap-around can occur;
* strings are lists of characters;
* `mata != matb` is OpenCV's comparison of two arrays: it is defined for operands of the
  same size and raises `cv::Exception` otherwise, and `main.cpp` has no handler, so the
  exception ends the run.  An operand that OpenCV may read as a scalar rather than as an
  array (a matrix of one element, or of none) is not set apart from the other arrays;
* the collaborators that are not part of `main.cpp` (`imread`, the file system, the labeling
  algorithms, the reference `SAUF_OPT`) are parameters.
-/

namespace YACCLAB

/-! ## Data model -/

/-- Matrix of `int` labels (`cv::Mat1i`), given by its rows. -/
abbrev Mat1i := List (List Int)

/-- Matrix of bytes (`cv::Mat1b`), given by its rows. -/
abbrev Mat1b := List (List Nat)

/-- Strings (`std::string`) as character lists. -/
abbrev Str := List Char

/-- Local variables of `normalizeLabels`: the `std::map<int,int>` (an association list,
newest binding first) and the counter `iMaxNewLabel`. -/
structure NormState where
  mapNewLabels : List (Int × Int)
  iMaxNewLabel : Int

/-! ## `normalizeLabels` (main.cpp 87-104) -/

/-- Body of the inner loop of `normalizeLabels` for one pixel holding `iCurLabel`:
returns the updated locals and the value left in the pixel.  `mapNewLabels.at` cannot
throw, because the key is inserted just before whenever it is absent. -/
def normalizePixel (st : NormState) (iCurLabel : Int) : NormState × Int :=
  if 0 < iCurLabel then
    let st1 : NormState :=
      if (st.mapNewLabels.lookup iCurLabel).isNone then
        { mapNewLabels := (iCurLabel, st.iMaxNewLabel + 1) :: st.mapNewLabels,
          iMaxNewLabel := st.iMaxNewLabel + 1 }
      else st
    (st1, (st1.mapNewLabels.lookup iCurLabel).getD 0)
  else (st, iCurLabel)

/-- Inner loop `for c` of `normalizeLabels` over one row. -/
def normalizeRow (st : NormState) : List Int → NormState × List Int
  | [] => (st, [])
  | x :: xs =>
    let p := normalizePixel st x
    let q := normalizeRow p.1 xs
    (q.1, p.2 :: q.2)

/-- Outer loop `for r` of `normalizeLabels` over the rows. -/
def normalizeRows (st : NormState) : List (List Int) → NormState × List (List Int)
  | [] => (st, [])
  | row :: rows =>
    let p := normalizeRow st row
    let q := normalizeRows p.1 rows
    (q.1, p.2 :: q.2)

/-- The function `normalizeLabels`: the matrix it leaves in `imgLabels`. -/
def normalizeLabels (imgLabels : Mat1i) : Mat1i :=
  (normalizeRows { mapNewLabels := [], iMaxNewLabel := 0 } imgLabels).2

/-! ## Specification vocabulary for label maps -/

/-- The set of distinct positive labels occurring in a scan `l`. -/
def distinctPositive (l : List Int) : Finset Int :=
  l.toFinset.filter (fun y => 0 < y)

/-- Specification side: the 1-based rank of `x` among the distinct positive labels of the
scan `l`, ordered by the position of their first appearance: the number of distinct
positive labels that first appear no later than `x` does. -/
def firstAppearanceRank (l : List Int) (x : Int) : Int :=
  (((distinctPositive l).filter (fun y => l.indexOf y ≤ l.indexOf x)).card : Int)

/-- Specification side: replace a positive label by its first-appearance rank and leave
every other value alone. -/
def rankRelabel (l : List Int) (x : Int) : Int :=
  if 0 < x then firstAppearanceRank l x else x

/-- Pixel `(r, c)` of a matrix, if it exists. -/
def pixel (M : Mat1i) (r c : Nat) : Option Int :=
  (M[r]?).bind (fun row => row[c]?)

/-- The dimensions of a matrix: the length of every row. -/
def dims {α : Type} (M : List (List α)) : List Nat :=
  M.map List.length

/-- Replace every positive label `x` of `L` by `p x`. -/
def relabel (p : Int → Int) (L : Mat1i) : Mat1i :=
  L.map (List.map (fun x => if 0 < x then p x else x))

/-- Two label maps describe the same partition: they have the same background (zero)
pixels, and two foreground pixels share a label in one exactly when they do in the other. -/
def samePartition (A B : Mat1i) : Prop :=
  (∀ r c a b, pixel A r c = some a → pixel B r c = some b → (a = 0 ↔ b = 0)) ∧
  (∀ r c r2 c2 a b a2 b2,
    pixel A r c = some a → pixel B r c = some b →
    pixel A r2 c2 = some a2 → pixel B r2 c2 = some b2 →
    a ≠ 0 → a2 ≠ 0 → (a = a2 ↔ b = b2))

/-- All entries of a matrix are non-negative. -/
def nonNegative (A : Mat1i) : Prop :=
  ∀ x ∈ A.flatten, 0 ≤ x

instance instDecidableNonNegative (A : Mat1i) : Decidable (nonNegative A) :=
  inferInstanceAs (Decidable (∀ x ∈ A.flatten, 0 ≤ x))

/-- Loop invariant of `normalizeLabels` once the pixels `p` have been scanned: the map
binds exactly the positive labels seen, each to its first-appearance rank, and the counter
is the number of distinct positive labels seen. -/
def NormInv (p : List Int) (st : NormState) : Prop :=
  (∀ x, st.mapNewLabels.lookup x
      = if 0 < x ∧ x ∈ p then some (firstAppearanceRank p x) else none) ∧
  st.iMaxNewLabel = (distinctPositive p).card

/-! ## `getBinaryImage`, `compareMat`, `deleteCarriageReturn` (main.cpp 107-145) -/

/-- The path separator `kPathSeparator` (the branch taken when `_WIN32` is not defined). -/
def kPathSeparator : Char := '/'

/-- OpenCV `threshold(src, dst, thresh, maxval, CV_THRESH_BINARY)`:
`maxval` where the source exceeds `thresh`, `0` elsewhere. -/
def threshold (image : Mat1b) (thresh maxval : Nat) : Mat1b :=
  image.map (List.map (fun v => if thresh < v then maxval else 0))

/-- The function `getBinaryImage`: `none` is the `false` return (the image read is empty),
`some binaryMat` the `true` return.  `imread` is the external image reader. -/
def getBinaryImage (imread : Str → Mat1b) (FileName : Str) : Option Mat1b :=
  let image := imread FileName
  if image.flatten.isEmpty then none
  else some (threshold image 100 1)

/-- The matrix expression `mata != matb` (`cv::compare` of two arrays): 255 where the
operands differ and 0 where they agree.  OpenCV compares two arrays of the same size and
raises `cv::Exception` on arrays of different sizes: `none` is the exception. -/
def matNotEqual (mata matb : Mat1i) : Option Mat1b :=
  if dims mata = dims matb then
    some (List.zipWith (List.zipWith (fun x y => if x ≠ y then 255 else 0)) mata matb)
  else none

/-- OpenCV `countNonZero`. -/
def countNonZero (m : Mat1b) : Nat :=
  (m.flatten.filter (fun v => v ≠ 0)).length

/-- The function `compareMat`.  It has no handler: `none` is the exception of the
comparison, which leaves the function. -/
def compareMat (mata matb : Mat1i) : Option Bool :=
  match matNotEqual mata matb with
  | none => none
  | some diff => some (countNonZero diff == 0)

/-- The function `deleteCarriageReturn`: the loop erases the first carriage return found
until none is left, so exactly the carriage returns are removed. -/
def deleteCarriageReturn (s : Str) : Str :=
  s.filter (fun ch => ch ≠ '\r')

/-! ## `checkAlgorithms` (main.cpp 149-239) -/

/-- A labeling algorithm (`CCLPointer`): from the binary image to the number of labels it
returns and the label image it writes. -/
abbrev CCLPointer := Mat1b → Nat × Mat1i

/-- The collaborators of `checkAlgorithms` outside `main.cpp`: the image reader, the file
system (`openFile p` is the content of `p` when an `ifstream` on `p` opens) and the
reference algorithm `SAUF_OPT`. -/
structure World where
  imread : Str → Mat1b
  openFile : Str → Option Str
  SAUF_OPT : CCLPointer

/-- Observable steps of a run of `checkAlgorithms`, in the order they happen. -/
inductive Event where
  | load (path : Str)
  | reference (path : Str)
  | run (j : Nat) (path : Str)
  | fail (j : Nat) (path : Str)
  | stop
  deriving DecidableEq

/-- Variables of `checkAlgorithms`.  `aborted` records that the run ended abnormally: in
the integer division by zero of the progress display, or in the exception that
`compareMat` raises on label images of different sizes, which nothing in `main.cpp`
catches; `trace` is the list of events so far:
`load` for each call of `getBinaryImage`, `reference` for each call of `SAUF_OPT`,
`run j` for each call of algorithm `j`, `fail j p` for the assignments
`stats[j] = false; firstFail[j] = p`, and `stop` for `stop = true`. -/
structure CheckState where
  stats : List Bool
  firstFail : List Str
  stop : Bool
  checkPerform : Bool
  aborted : Bool
  trace : List Event
  deriving DecidableEq

/-- `std::adjacent_find(first, last, not_equal_to)`: the position of the first element
that differs from its successor; `none` stands for `last`. -/
def adjacentFind : List Bool → Option Nat
  | a :: b :: rest =>
    if a ≠ b then some 0 else (adjacentFind (b :: rest)).map (fun i => i + 1)
  | _ => none

/-- Lines 204 and 210-212 for one candidate `alg`: the reference and the candidate are
run, the candidate's label image is normalised, and the result is the condition of the
`if` of line 212 (`some true` when the candidate is found to differ from the reference).
The operator `||` does not evaluate `compareMat` when the numbers of labels differ; when
they are equal `compareMat` is evaluated, and `none` is the exception it raises on label
images of different sizes. -/
def mismatchB (w : World) (alg : CCLPointer) (binaryImg : Mat1b) : Option Bool :=
  let nLabelsCorrect := (w.SAUF_OPT binaryImg).1
  let labeledImgCorrect := (w.SAUF_OPT binaryImg).2
  let nLabelsToControl := (alg binaryImg).1
  let labeledImgToControl := normalizeLabels (alg binaryImg).2
  if nLabelsCorrect != nLabelsToControl then some true
  else
    match compareMat labeledImgCorrect labeledImgToControl with
    | none => none
    | some equal => some (!equal)

/-- The loop over the algorithms (lines 206-221) from position `j` on, for one loaded
image `binaryImg` read from `path`.  When the test of line 212 raises the exception the
run ends there, after the call of the candidate. -/
def algLoop (w : World) (binaryImg : Mat1b) (path : Str) :
    List (CCLPointer × Str) → Nat → CheckState → CheckState
  | [], _, st => st
  | it :: rest, j, st =>
    let st1 := { st with checkPerform := true }
    if st1.stats.getD j false then
      let st2 := { st1 with trace := st1.trace ++ [Event.run j path] }
      match mismatchB w it.1 binaryImg with
      | none => { st2 with aborted := true }
      | some differs =>
        if differs then
          let st3 := { st2 with
            stats := st2.stats.set j false
            firstFail := st2.firstFail.set j path
            trace := st2.trace ++ [Event.fail j path] }
          if adjacentFind st3.stats = none then
            { st3 with stop := true, trace := st3.trace ++ [Event.stop] }
          else algLoop w binaryImg path rest (j + 1) st3
        else algLoop w binaryImg path rest (j + 1) st2
    else algLoop w binaryImg path rest (j + 1) st1

/-- The `(int)` conversion of a count to a 32-bit `int`. -/
def toInt32 (n : Nat) : Int :=
  ((n : Int) + 2 ^ 31) % 2 ^ 32 - 2 ^ 31

/-- The variable `fileNumber` computed at line 169: the number of newline characters of
the list file, converted to `int`. -/
def fileNumberOf (content : Str) : Int :=
  toInt32 (content.count '\n')

/-- The condition of the progress display (line 187) in `unsigned` arithmetic;
`none` when the divisor is zero, where the division is undefined. -/
def progressChanged (currentNumber : Nat) (fileNumber : Int) : Option Bool :=
  let d := (fileNumber % 2 ^ 32).toNat
  if d = 0 then none
  else some (decide ((currentNumber * 100 % 2 ^ 32) / d
    ≠ ((currentNumber + 2 ^ 32 - 1) % 2 ^ 32 * 100 % 2 ^ 32) / d))

/-- The path `input_path + kPathSeparator + dataset + kPathSeparator + name`. -/
def pathOf (input_path dataset name : Str) : Str :=
  input_path ++ [kPathSeparator] ++ dataset ++ [kPathSeparator] ++ name

/-- Body of the `while` loop (lines 184-221) for one line read from the list file. -/
def fileStep (w : World) (CCLAlgorithms : List (CCLPointer × Str))
    (input_path dataset : Str) (fileNumber : Int) (currentNumber : Nat) (line : Str)
    (st : CheckState) : CheckState :=
  let filename := deleteCarriageReturn line
  match progressChanged currentNumber fileNumber with
  | none => { st with aborted := true }
  | some _ =>
    let path := pathOf input_path dataset filename
    let st1 := { st with trace := st.trace ++ [Event.load path] }
    match getBinaryImage w.imread path with
    | none => st1
    | some binaryImg =>
      let st2 := { st1 with trace := st1.trace ++ [Event.reference path] }
      algLoop w binaryImg path CCLAlgorithms 0 st2

/-- The `while (getline(is, filename) && !stop)` loop over the remaining lines. -/
def fileLoop (w : World) (CCLAlgorithms : List (CCLPointer × Str))
    (input_path dataset : Str) (fileNumber : Int) :
    List Str → Nat → CheckState → CheckState
  | [], _, st => st
  | line :: rest, currentNumber, st =>
    if st.stop || st.aborted then st
    else fileLoop w CCLAlgorithms input_path dataset fileNumber rest
      ((currentNumber + 1) % 2 ^ 32)
      (fileStep w CCLAlgorithms input_path dataset fileNumber currentNumber line st)

/-- Successive results of `getline` on the rest of a stream; `cur` holds the characters of
the line being read.  At the end of the stream a last line without newline is returned
only if it is not empty. -/
def getlinesAux : Str → Str → List Str
  | [], cur => if cur = [] then [] else [cur]
  | ch :: rest, cur =>
    if ch = '\n' then cur :: getlinesAux rest [] else getlinesAux rest (cur ++ [ch])

/-- The lines `getline` yields for a file content. -/
def getlines (content : Str) : List Str :=
  getlinesAux content []

/-- Body of the `for` loop over the datasets (lines 159-224) for one dataset. -/
def datasetStep (w : World) (CCLAlgorithms : List (CCLPointer × Str))
    (input_path input_txt : Str) (dataset : Str) (st : CheckState) : CheckState :=
  let is_path := pathOf input_path dataset input_txt
  match w.openFile is_path with
  | none => st
  | some content =>
    fileLoop w CCLAlgorithms input_path dataset (fileNumberOf content)
      (getlines content) 0 st

/-- The `for` loop over the datasets.  Nothing runs once the program has aborted. -/
def datasetLoop (w : World) (CCLAlgorithms : List (CCLPointer × Str))
    (input_path input_txt : Str) : List Str → CheckState → CheckState
  | [], st => st
  | dataset :: rest, st =>
    if st.aborted then st
    else datasetLoop w CCLAlgorithms input_path input_txt rest
      (datasetStep w CCLAlgorithms input_path input_txt dataset st)

/-- The initial values of the variables of `checkAlgorithms` (lines 151-154). -/
def initState (CCLAlgorithms : List (CCLPointer × Str)) : CheckState :=
  { stats := List.replicate CCLAlgorithms.length true
    firstFail := List.replicate CCLAlgorithms.length []
    stop := false
    checkPerform := false
    aborted := false
    trace := [] }

/-- The state of `checkAlgorithms` when the loop over the datasets ends. -/
def checkAlgorithms (w : World) (CCLAlgorithms : List (CCLPointer × Str))
    (datasets : List Str) (input_path input_txt : Str) : CheckState :=
  datasetLoop w CCLAlgorithms input_path input_txt datasets (initState CCLAlgorithms)

/-- One line of the final report. -/
inductive Verdict where
  | correct (name : Str)
  | notCorrect (name : Str) (firstFail : Str)
  deriving DecidableEq

/-- What `checkAlgorithms` prints at the end (lines 227-238): nothing when the run
ended abnormally, the message that the check was skipped, or one verdict per algorithm. -/
inductive Report where
  | aborted
  | skipped
  | verdicts (lines : List Verdict)
  deriving DecidableEq

/-- The loop of lines 229-234. -/
def verdictLoop (st : CheckState) : List (CCLPointer × Str) → Nat → List Verdict
  | [], _ => []
  | it :: rest, j =>
    (if st.stats.getD j false then Verdict.correct it.2
      else Verdict.notCorrect it.2 (st.firstFail.getD j [])) :: verdictLoop st rest (j + 1)

/-- The report printed for a final state. -/
def reportOf (CCLAlgorithms : List (CCLPointer × Str)) (st : CheckState) : Report :=
  if st.aborted then Report.aborted
  else if st.checkPerform then Report.verdicts (verdictLoop st CCLAlgorithms 0)
  else Report.skipped

/-- The report of a run of `checkAlgorithms`. -/
def checkReport (w : World) (CCLAlgorithms : List (CCLPointer × Str))
    (datasets : List Str) (input_path input_txt : Str) : Report :=
  reportOf CCLAlgorithms (checkAlgorithms w CCLAlgorithms datasets input_path input_txt)

/-! ## Specification vocabulary for runs of `checkAlgorithms` -/

/-- There is at least one algorithm and every algorithm is marked incorrect. -/
def allFailed (stats : List Bool) : Bool :=
  !stats.isEmpty && stats.all (fun b => !b)

/-- Specification side: the discipline a run must obey, as a monitor that reads one event
in a state `(stats, stopped)`.  An image may be loaded and the reference run only while
some algorithm is still marked correct; algorithm `j` may be run or marked incorrect only
while it is marked correct; the early stop may only be raised when every algorithm is
marked incorrect; nothing may happen after the early stop.  `none` is a violation. -/
def monitorStep (s : List Bool × Bool) : Event → Option (List Bool × Bool)
  | Event.load _ => if s.2 = false ∧ allFailed s.1 = false then some s else none
  | Event.reference _ => if s.2 = false ∧ allFailed s.1 = false then some s else none
  | Event.run j _ => if s.2 = false ∧ s.1[j]? = some true then some s else none
  | Event.fail j _ =>
    if s.2 = false ∧ s.1[j]? = some true then some (s.1.set j false, s.2) else none
  | Event.stop => if s.2 = false ∧ allFailed s.1 = true then some (s.1, true) else none

/-- Specification side: the monitor run over a list of events. -/
def monitor : List Bool × Bool → List Event → Option (List Bool × Bool)
  | s, [] => some s
  | s, e :: es => (monitorStep s e).bind (fun s2 => monitor s2 es)

/-- The early-stop flag is set exactly when every algorithm is marked incorrect. -/
def Good (st : CheckState) : Prop :=
  st.stop = true ↔ allFailed st.stats = true

/-- The state `st2` is reached from `st` by events that the monitor accepts and that lead
the monitor from the flags of `st` to the flags of `st2`. -/
def Accepts (st st2 : CheckState) : Prop :=
  ∃ ext, st2.trace = st.trace ++ ext ∧
    monitor (st.stats, st.stop) ext = some (st2.stats, st2.stop)

/-- In `st2`, reached from `st`, algorithm `j` is (still) marked incorrect and no
invocation of `j` happened on the way. -/
def Frozen (j : Nat) (st st2 : CheckState) : Prop :=
  st2.stats[j]? = some false ∧
    ∃ ext, st2.trace = st.trace ++ ext ∧ ∀ q, Event.run j q ∉ ext

/-! ## A small concrete run, used to exercise the definitions

One dataset `d` under `in`, whose list names `a.png` (with a carriage return), the
unreadable `c.png` and `b.png`. -/

/-- The collaborators of the example: two readable 2x2 images and one list file. -/
def demoWorld : World :=
  { imread := fun p =>
      if p = "in/d/a.png".toList then [[200, 0], [0, 200]]
      else if p = "in/d/b.png".toList then [[200, 200], [0, 200]]
      else []
    openFile := fun p =>
      if p = "in/d/files.txt".toList then some "a.png\r\nc.png\nb.png\n".toList else none
    SAUF_OPT := fun img => (1, img.map (List.map Int.ofNat)) }

/-- A candidate that names the component 7 instead of 1. -/
def demoGood : CCLPointer :=
  fun img => (1, img.map (List.map (fun v => 7 * Int.ofNat v)))

/-- A candidate that splits the component of `b.png` in two. -/
def demoBad : CCLPointer :=
  fun img => (1, if img = [[1, 1], [0, 1]] then [[1, 2], [0, 2]]
    else img.map (List.map Int.ofNat))

/-- A candidate that always returns a wrong number of labels. -/
def demoWorse : CCLPointer :=
  fun img => (2, img.map (List.map Int.ofNat))

/-- A candidate that returns a wrong number of labels and a 1x3 label image, whatever
the size of the input. -/
def demoShort : CCLPointer :=
  fun _ => (2, [[1, 1, 1]])

/-- A candidate that returns the reference's number of labels and a 1x3 label image,
whatever the size of the input. -/
def demoWide : CCLPointer :=
  fun _ => (1, [[1, 1, 1]])

/-- The paths of the three images of the example. -/
def demoA : Str := "in/d/a.png".toList

def demoB : Str := "in/d/b.png".toList

def demoC : Str := "in/d/c.png".toList

/-- A correct candidate followed by one that fails on `b.png`. -/
def demoAlgs : List (CCLPointer × Str) :=
  [(demoGood, "good".toList), (demoBad, "bad".toList)]

/-- Two incorrect candidates: the first fails on `a.png`, the second on `b.png`. -/
def demoAlgsBad : List (CCLPointer × Str) :=
  [(demoWorse, "worse".toList), (demoBad, "bad".toList)]

/-- A candidate with the right number of labels and a label image of the wrong size,
followed by one that fails on `b.png`. -/
def demoAlgsWide : List (CCLPointer × Str) :=
  [(demoWide, "wide".toList), (demoBad, "bad".toList)]

/-- Specification side: the images of one dataset that load, with their paths, in the
order of the lines of its list. -/
def loadedOf (w : World) (input_path dataset : Str) (lines : List Str) :
    List (Str × Mat1b) :=
  lines.filterMap (fun line =>
    (getBinaryImage w.imread (pathOf input_path dataset (deleteCarriageReturn line))).map
      (fun img => (pathOf input_path dataset (deleteCarriageReturn line), img)))

/-- Specification side: every image that loads, in every dataset whose list file opens,
in dataset order and then file order. -/
def loadedImages (w : World) (datasets : List Str) (input_path input_txt : Str) :
    List (Str × Mat1b) :=
  datasets.flatMap (fun d =>
    match w.openFile (pathOf input_path d input_txt) with
    | none => []
    | some content => loadedOf w input_path d (getlines content))

/-- Specification side: on `img` the candidate returns the reference's number of labels
and its normalised label image equals the label image the reference returns. -/
def agrees (w : World) (alg : CCLPointer) (img : Mat1b) : Prop :=
  (alg img).1 = (w.SAUF_OPT img).1 ∧ normalizeLabels (alg img).2 = (w.SAUF_OPT img).2

instance instDecidableAgrees (w : World) (alg : CCLPointer) (img : Mat1b) :
    Decidable (agrees w alg img) :=
  inferInstanceAs (Decidable (_ ∧ _))

/-- The contract of the labeling algorithms on one image: every candidate writes a label
image of the dimensions of the reference's. -/
def sizeOk (w : World) (algs : List (CCLPointer × Str)) (img : Mat1b) : Prop :=
  ∀ it ∈ algs, dims (it.1 img).2 = dims (w.SAUF_OPT img).2

instance instDecidableSizeOk (w : World) (algs : List (CCLPointer × Str)) (img : Mat1b) :
    Decidable (sizeOk w algs img) :=
  List.decidableBAll
    (fun (it : CCLPointer × Str) => dims (it.1 img).2 = dims (w.SAUF_OPT img).2) algs

/-- The contract of the labeling algorithms on the images `imgs`. -/
def SizeContract (w : World) (algs : List (CCLPointer × Str))
    (imgs : List (Str × Mat1b)) : Prop :=
  ∀ p ∈ imgs, sizeOk w algs p.2

instance instDecidableSizeContract (w : World) (algs : List (CCLPointer × Str))
    (imgs : List (Str × Mat1b)) : Decidable (SizeContract w algs imgs) :=
  List.decidableBAll (fun (p : Str × Mat1b) => sizeOk w algs p.2) imgs

/-- The division of the progress display is defined for a list file with this content:
it has no line, or its `fileNumber`, taken as `unsigned`, is not zero. -/
def divisionDefinedFor (content : Str) : Prop :=
  getlines content ≠ [] → (fileNumberOf content % 2 ^ 32).toNat ≠ 0

instance instDecidableDivisionDefinedFor (content : Str) :
    Decidable (divisionDefinedFor content) :=
  inferInstanceAs (Decidable (_ → _))

/-- The division of the progress display is defined for every list file that opens. -/
def DivisionDefined (w : World) (datasets : List Str) (input_path input_txt : Str) : Prop :=
  ∀ d ∈ datasets, ∀ content ∈ w.openFile (pathOf input_path d input_txt),
    divisionDefinedFor content

instance instDecidableDivisionDefined (w : World) (datasets : List Str)
    (input_path input_txt : Str) : Decidable (DivisionDefined w datasets input_path input_txt) :=
  List.decidableBAll (fun (d : Str) =>
    ∀ content ∈ w.openFile (pathOf input_path d input_txt), divisionDefinedFor content)
    datasets

/-- The operations on `double` used by the tests.  `dblMax` is
`numeric_limits<double>::max()`, `ofCount` the conversion of an unsigned integer (a
`uint16_t` count, a `uint` count or an `unsigned long` counter) to `double`. -/
structure DoubleOps (D : Type) where
  zero : D
  dblMax : D
  add : D → D → D
  div : D → D → D
  ofCount : Nat → D
  lt : D → D → Bool

/-- The collaborators of the timing tests: `imread test` is the image reader as it
behaves during trial `test`; `perfLast test file i` is the value of
`perf.last((*it).second)` for algorithm `i` on file `file` in trial `test`;
`nullLast test file` is `perf.last("NULL_reference")`. -/
structure TimingWorld (D : Type) where
  imread : Nat → Str → Mat1b
  perfLast : Nat → Nat → Nat → D
  nullLast : Nat → Nat → D

/-- Observable steps of the trial loops: the call of `getBinaryImage` for a file, the
message that the file does not exist, the call of `labelingNULL`, and the call of
algorithm `i`. -/
inductive TEvent where
  | load (test file : Nat)
  | missing (test file : Nat)
  | null (test file : Nat)
  | run (test file i : Nat)
  deriving DecidableEq

/-- Variables of the trial loops.  `NULL_labeling` exists in `density_size_test` only;
`averages_test` never touches it. -/
structure TrialState (D : Type) where
  present : Nat → Bool
  min_res : Nat → Nat → D
  current_res : Nat → Nat → D
  NULL_labeling : Nat → D
  trace : List TEvent

/-- The assignment `M(r, c) = v`. -/
def setCell {D : Type} (M : Nat → Nat → D) (r c : Nat) (v : D) : Nat → Nat → D :=
  fun r2 c2 => if r2 = r ∧ c2 = c then v else M r2 c2

/-- The assignment `V[k] = v`. -/
def setAt {α : Type} (V : Nat → α) (k : Nat) (v : α) : Nat → α :=
  fun k2 => if k2 = k then v else V k2

/-- The lines read from the list of images (lines 334-345 and 594-604): each line without
its carriage returns. -/
def readFileNames (content : Str) : List Str :=
  (getlines content).map deleteCarriageReturn

/-- The values of the variables before the first trial (lines 352-355, 611-617). -/
def initTrialState {D : Type} (ops : DoubleOps D) : TrialState D :=
  { present := fun _ => true
    min_res := fun _ _ => ops.dblMax
    current_res := fun _ _ => ops.dblMax
    NULL_labeling := fun _ => ops.dblMax
    trace := [] }

/-- Body of the loop over the algorithms (lines 395-406 and 719-729) for algorithm `i`:
the algorithm is run, its time is stored in `current_res` and, if smaller, in `min_res`. -/
def timeAlgorithm {D : Type} (ops : DoubleOps D) (w : TimingWorld D) (test file i : Nat)
    (st : TrialState D) : TrialState D :=
  let st1 := { st with
    trace := st.trace ++ [TEvent.run test file i]
    current_res := setCell st.current_res file i (w.perfLast test file i) }
  if ops.lt (w.perfLast test file i) (st1.min_res file i) then
    { st1 with min_res := setCell st1.min_res file i (w.perfLast test file i) }
  else st1

/-- The loop over the algorithms (lines 387-420 and 710-741); the iterator and the
counter `i` advance together over the `nAlgs` algorithms. -/
def timeAlgorithms {D : Type} (ops : DoubleOps D) (w : TimingWorld D) (nAlgs : Nat)
    (test file : Nat) (st : TrialState D) : TrialState D :=
  (List.range nAlgs).foldl (fun s i => timeAlgorithm ops w test file i s) st

/-- The call of `getBinaryImage` for file `file` during trial `test`. -/
def loadOf {D : Type} (w : TimingWorld D) (input_path input_folder : Str)
    (names : List Str) (test file : Nat) : Option Mat1b :=
  getBinaryImage (w.imread test) (pathOf input_path input_folder (names.getD file []))

/-- Lines 378-383 and 692-697: the load failed; the message is printed if the flag is
still set, and the flag is cleared. -/
def markMissing {D : Type} (test file : Nat) (st : TrialState D) : TrialState D :=
  let st1 := if st.present file then
      { st with trace := st.trace ++ [TEvent.missing test file] }
    else st
  { st1 with present := setAt st1.present file false }

/-- Body of the loop over the files of `averages_test` (lines 367-420). -/
def avgFileStep {D : Type} (ops : DoubleOps D) (w : TimingWorld D) (nAlgs : Nat)
    (input_path input_folder : Str) (names : List Str) (test file : Nat)
    (st : TrialState D) : TrialState D :=
  let st1 := { st with trace := st.trace ++ [TEvent.load test file] }
  match loadOf w input_path input_folder names test file with
  | none => markMissing test file st1
  | some _ => timeAlgorithms ops w nAlgs test file st1

/-- One trial of `averages_test`: the loop over the files (lines 365-421). -/
def avgTrial {D : Type} (ops : DoubleOps D) (w : TimingWorld D) (nAlgs : Nat)
    (input_path input_folder : Str) (names : List Str) (test : Nat)
    (st : TrialState D) : TrialState D :=
  (List.range names.length).foldl
    (fun s file => avgFileStep ops w nAlgs input_path input_folder names test file s) st

/-- The loop over the trials of `averages_test` (lines 358-431), from the initial values. -/
def avgTrials {D : Type} (ops : DoubleOps D) (w : TimingWorld D) (nAlgs : Nat)
    (input_path input_folder : Str) (names : List Str) (nTest : Nat) : TrialState D :=
  (List.range nTest).foldl
    (fun s test => avgTrial ops w nAlgs input_path input_folder names test s)
    (initTrialState ops)

/-- Lines 699-706: the null labeling is run and its time kept if smaller. -/
def timeNull {D : Type} (ops : DoubleOps D) (w : TimingWorld D) (test file : Nat)
    (st : TrialState D) : TrialState D :=
  let st1 := { st with trace := st.trace ++ [TEvent.null test file] }
  if ops.lt (w.nullLast test file) (st1.NULL_labeling file) then
    { st1 with NULL_labeling := setAt st1.NULL_labeling file (w.nullLast test file) }
  else st1

/-- Body of the loop over the files of `density_size_test` (lines 680-741). -/
def dsFileStep {D : Type} (ops : DoubleOps D) (w : TimingWorld D) (nAlgs : Nat)
    (input_path input_folder : Str) (names : List Str) (test file : Nat)
    (st : TrialState D) : TrialState D :=
  let st1 := { st with trace := st.trace ++ [TEvent.load test file] }
  match loadOf w input_path input_folder names test file with
  | none => markMissing test file st1
  | some _ => timeAlgorithms ops w nAlgs test file (timeNull ops w test file st1)

/-- One trial of `density_size_test`: the loop over the files (lines 679-742). -/
def dsTrial {D : Type} (ops : DoubleOps D) (w : TimingWorld D) (nAlgs : Nat)
    (input_path input_folder : Str) (names : List Str) (test : Nat)
    (st : TrialState D) : TrialState D :=
  (List.range names.length).foldl
    (fun s file => dsFileStep ops w nAlgs input_path input_folder names test file s) st

/-- The loop over the trials of `density_size_test` (lines 672-752). -/
def dsTrials {D : Type} (ops : DoubleOps D) (w : TimingWorld D) (nAlgs : Nat)
    (input_path input_folder : Str) (names : List Str) (nTest : Nat) : TrialState D :=
  (List.range nTest).foldl
    (fun s test => dsTrial ops w nAlgs input_path input_folder names test s)
    (initTrialState ops)

/-! ### The averages of `averages_test` (lines 436-452) -/

/-- Lines 439-442 for one cell: an available cell is added to the sum of its column and
counted, in `uint16_t` arithmetic. -/
def addCell {D : Type} [DecidableEq D] (ops : DoubleOps D) (v : D) (s : D × Nat) : D × Nat :=
  if v ≠ ops.dblMax then (ops.add s.1 v, (s.2 + 1) % 65536) else s

/-- Lines 437-444: the loops over the rows and the columns of `min_res`. -/
def suppAverages {D : Type} [DecidableEq D] (ops : DoubleOps D) (min_res : Nat → Nat → D)
    (rows cols : Nat) : Nat → D × Nat :=
  (List.range rows).foldl
    (fun supp r => (List.range cols).foldl
      (fun s c => setAt s c (addCell ops (min_res r c) (s c))) supp)
    (fun _ => (ops.zero, 0))

/-- Line 449: the value `supp_averages[i].first / supp_averages[i].second`. -/
def averageOf {D : Type} (ops : DoubleOps D) (s : D × Nat) : D :=
  ops.div s.1 (ops.ofCount s.2)

/-- The matrix `all_res` after lines 447-452: row `alg_pos` receives the averages of the
`nAlgs` algorithms. -/
def storeAverages {D : Type} [DecidableEq D] (ops : DoubleOps D) (all_res : Nat → Nat → D)
    (alg_pos : Nat) (min_res : Nat → Nat → D) (rows nAlgs : Nat) : Nat → Nat → D :=
  (List.range nAlgs).foldl
    (fun a i => setCell a alg_pos i (averageOf ops (suppAverages ops min_res rows nAlgs i)))
    all_res

/-- The function `averages_test`, as far as `all_res` is concerned, when the output
directories and files can be opened: `content` is the content of the list of images. -/
def averages_test {D : Type} [DecidableEq D] (ops : DoubleOps D) (w : TimingWorld D)
    (CCLAlgorithms : List (CCLPointer × Str)) (all_res : Nat → Nat → D) (alg_pos : Nat)
    (input_path input_folder : Str) (content : Str) (nTest : Nat) : Nat → Nat → D :=
  let names := readFileNames content
  let st := avgTrials ops w CCLAlgorithms.length input_path input_folder names nTest
  storeAverages ops all_res alg_pos st.min_res names.length CCLAlgorithms.length

/-! ### The buckets of `density_size_test` (lines 637-845) -/

/-- The function `ctoi`: `(int)c - 48` converted to `unsigned int`. -/
def ctoi (c : Char) : Nat :=
  (((c.toNat : Int) - 48) % 2 ^ 32).toNat

/-- The character `first[k]` of a file name; `operator[]` gives the null character at the
end of the string, which is as far as the short-circuit test of line 762 reads. -/
def charAt (name : Str) (k : Nat) : Char :=
  name.getD k (Char.ofNat 0)

/-- The three `isdigit` tests of line 762. -/
def threeDigits (name : Str) : Bool :=
  (charAt name 0).isDigit && (charAt name 1).isDigit && (charAt name 2).isDigit

/-- The accumulators `supp_density`, `supp_normalized_density` and `supp_size`, indexed
by algorithm and bucket. -/
structure Buckets (D : Type) where
  supp_density : Nat → Nat → D × Nat
  supp_normalized_density : Nat → Nat → D × Nat
  supp_size : Nat → Nat → D × Nat

/-- The number of density buckets (`density = 9`). -/
def densityBuckets : Nat := 9

/-- The number of size buckets (`size = 8`). -/
def sizeBuckets : Nat := 8

/-- An accumulator is increased by `v` and its `uint16_t` count by one. -/
def bump {D : Type} (ops : DoubleOps D) (v : D) (s : D × Nat) : D × Nat :=
  (ops.add s.1 v, (s.2 + 1) % 65536)

/-- Lines 762-776 for file `files` and column `c`.  `none` is the undefined behaviour of
an index outside a bucket vector. -/
def bucketCell {D : Type} [DecidableEq D] (ops : DoubleOps D) (names : List Str)
    (st : TrialState D) (files c : Nat) (b : Buckets D) : Option (Buckets D) :=
  let name := names.getD files []
  if threeDigits name && st.present files then
    if st.min_res files c ≠ ops.dblMax then
      if ctoi (charAt name 1) < densityBuckets then
        let b1 := { b with
          supp_density := setCell b.supp_density c (ctoi (charAt name 1))
            (bump ops (st.min_res files c) (b.supp_density c (ctoi (charAt name 1))))
          supp_normalized_density := setCell b.supp_normalized_density c
            (ctoi (charAt name 1))
            (bump ops (ops.div (st.min_res files c) (st.NULL_labeling files))
              (b.supp_normalized_density c (ctoi (charAt name 1)))) }
        if ctoi (charAt name 0) < sizeBuckets then
          some { b1 with
            supp_size := setCell b1.supp_size c (ctoi (charAt name 0))
              (bump ops (st.min_res files c) (b1.supp_size c (ctoi (charAt name 0)))) }
        else none
      else none
    else some b
  else some b

/-- The loop over the columns for one file (lines 760-778). -/
def bucketFile {D : Type} [DecidableEq D] (ops : DoubleOps D) (names : List Str)
    (st : TrialState D) (cols files : Nat) (b : Buckets D) : Option (Buckets D) :=
  (List.range cols).foldlM (fun acc c => bucketCell ops names st files c acc) b

/-- The accumulators before the first file (lines 639-641). -/
def initBuckets {D : Type} (ops : DoubleOps D) : Buckets D :=
  { supp_density := fun _ _ => (ops.zero, 0)
    supp_normalized_density := fun _ _ => (ops.zero, 0)
    supp_size := fun _ _ => (ops.zero, 0) }

/-- The loop over the files (lines 758-779). -/
def bucketAll {D : Type} [DecidableEq D] (ops : DoubleOps D) (names : List Str)
    (st : TrialState D) (cols : Nat) : Option (Buckets D) :=
  (List.range names.length).foldlM (fun acc files => bucketFile ops names st cols files acc)
    (initBuckets ops)

/-- The function `density_size_test`, as far as the accumulators of the density and size
averages are concerned, when the output directories and files can be opened: the trials,
then the loop of lines 758-779.  The averages and the marks of the rows are functions of
the accumulators (`densityAverage`, `densityFlag` and the others). -/
def density_size_test {D : Type} [DecidableEq D] (ops : DoubleOps D) (w : TimingWorld D)
    (CCLAlgorithms : List (CCLPointer × Str)) (input_path input_folder : Str)
    (content : Str) (nTest : Nat) : Option (Buckets D) :=
  let names := readFileNames content
  let st := dsTrials ops w CCLAlgorithms.length input_path input_folder names nTest
  bucketAll ops names st CCLAlgorithms.length

/-- Lines 790-798: the entry `density_averages[i][j]`. -/
def densityAverage {D : Type} (ops : DoubleOps D) (b : Buckets D) (i j : Nat) : D :=
  if (b.supp_density i j).2 ≠ 0 then
    ops.div (b.supp_density i j).1 (ops.ofCount (b.supp_density i j).2)
  else ops.zero

/-- Lines 790-798: the entry `density_normalized_averages[i][j]`, guarded by the count of
the plain density accumulator. -/
def densityNormalizedAverage {D : Type} (ops : DoubleOps D) (b : Buckets D)
    (i j : Nat) : D :=
  if (b.supp_density i j).2 ≠ 0 then
    ops.div (b.supp_normalized_density i j).1
      (ops.ofCount (b.supp_normalized_density i j).2)
  else ops.zero

/-- Lines 800-806: the entry `size_averages[i][j]`. -/
def sizeAverage {D : Type} (ops : DoubleOps D) (b : Buckets D) (i j : Nat) : D :=
  if (b.supp_size i j).2 ≠ 0 then
    ops.div (b.supp_size i j).1 (ops.ofCount (b.supp_size i j).2)
  else ops.zero

/-- Line 813: whether the rows of density `i` are written with the mark `#`; the test
reads the average of the first algorithm, `density_averages[0][i]`, which does not exist
when there is no algorithm (`none`). -/
def densityFlag {D : Type} [DecidableEq D] (ops : DoubleOps D) (b : Buckets D)
    (nAlgs i : Nat) : Option Bool :=
  if 0 < nAlgs then some (decide (densityAverage ops b 0 i = ops.zero)) else none

/-- Line 835: whether the row of size `i` is written with the mark `#`. -/
def sizeFlag {D : Type} [DecidableEq D] (ops : DoubleOps D) (b : Buckets D)
    (nAlgs i : Nat) : Option Bool :=
  if 0 < nAlgs then some (decide (sizeAverage ops b 0 i = ops.zero)) else none

/-! ### A concrete arithmetic and concrete runs for the examples -/

/-- A small stand-in for the arithmetic of `double` on whole numbers of microseconds:
`none` is what is not a number, the result of a division by zero. -/
def microOps : DoubleOps (Option Nat) where
  zero := some 0
  dblMax := some 1000000000
  add := fun a b => a.bind (fun x => b.map (fun y => x + y))
  div := fun a b => a.bind (fun x => b.bind (fun y => if y = 0 then none else some (x / y)))
  ofCount := fun n => some n
  lt := fun a b =>
    match a, b with
    | some x, some y => decide (x < y)
    | _, _ => false

/-- A timing world: `a.png` and `012.png` always load, `late.png` loads from the second
trial on, any other file never loads; the first algorithm takes 50, 42, 48 microseconds
in the first three trials, the second one more; the null labeling takes 7, then 5. -/
def demoTiming : TimingWorld (Option Nat) where
  imread := fun test p =>
    if p = "in/d/a.png".toList ∨ p = "in/d/012.png".toList then [[200, 0], [0, 200]]
    else if p = "in/d/late.png".toList ∧ 0 < test then [[200]]
    else []
  perfLast := fun test _ i => some ((if test = 0 then 50 else if test = 1 then 42 else 48) + i)
  nullLast := fun test _ => some (if test = 0 then 7 else 5)

/-- A timing world in which every file loads; the times are those of `demoTiming`. -/
def demoAll : TimingWorld (Option Nat) :=
  { demoTiming with imread := fun _ _ => [[200]] }

/-- A timing world in which every file loads and every algorithm takes no measurable
time: the stopwatch returns `0.0`. -/
def demoZero : TimingWorld (Option Nat) :=
  { demoAll with perfLast := fun _ _ _ => some 0 }

/-- The list of images of the example runs. -/
def demoNames : List Str :=
  ["a.png".toList, "late.png".toList, "zz.png".toList, "012.png".toList]

/-- The collaborators of the example, with a list file that names `a.png` and does not
end with a newline. -/
def demoNoNewline : World :=
  { demoWorld with
    openFile := fun p => if p = "in/d/files.txt".toList then some "a.png".toList else none }

/-! ### Specification vocabulary for the timing tests -/

/-- The step of a running minimum: `m` after the time `t` has been compared with it. -/
def keepMin {D : Type} (ops : DoubleOps D) (t m : D) : D :=
  if ops.lt t m then t else m

/-- Whether file `file` loads during trial `test`. -/
def loads {D : Type} (w : TimingWorld D) (input_path input_folder : Str)
    (names : List Str) (test file : Nat) : Bool :=
  (loadOf w input_path input_folder names test file).isSome

/-- Specification side: the events of file `file` in trial `test` in `averages_test`,
given the value `flag` of its present flag before: the load is always attempted; the
algorithms are run when it succeeds; the message is printed when it fails with the flag
still set. -/
def avgFileEvents {D : Type} (w : TimingWorld D) (nAlgs : Nat)
    (input_path input_folder : Str) (names : List Str) (test file : Nat)
    (flag : Bool) : List TEvent :=
  TEvent.load test file ::
    (if loads w input_path input_folder names test file then
      (List.range nAlgs).map (fun i => TEvent.run test file i)
    else if flag then [TEvent.missing test file] else [])

/-- Specification side: the events of file `file` in trial `test` in
`density_size_test`: as in `averages_test`, with the null labeling before the
algorithms. -/
def dsFileEvents {D : Type} (w : TimingWorld D) (nAlgs : Nat)
    (input_path input_folder : Str) (names : List Str) (test file : Nat)
    (flag : Bool) : List TEvent :=
  TEvent.load test file ::
    (if loads w input_path input_folder names test file then
      TEvent.null test file :: (List.range nAlgs).map (fun i => TEvent.run test file i)
    else if flag then [TEvent.missing test file] else [])

/-- Specification side: the running minimum, over the trials `0 .. nTest - 1` in which
the file loads, of the times `time test`, started at `dblMax`. -/
def minOverTrials {D : Type} (ops : DoubleOps D) (loaded : Nat → Bool) (time : Nat → D)
    (nTest : Nat) : D :=
  (List.range nTest).foldl
    (fun m test => if loaded test then keepMin ops (time test) m else m) ops.dblMax

/-- Specification side: the time of the last of the trials `0 .. nTest - 1` in which the
file loads, `dblMax` if there is none. -/
def lastOverTrials {D : Type} (ops : DoubleOps D) (loaded : Nat → Bool) (time : Nat → D)
    (nTest : Nat) : D :=
  (List.range nTest).foldl
    (fun m test => if loaded test then time test else m) ops.dblMax

/-- Specification side: whether file `file` loads in every one of the trials
`0 .. nTest - 1`. -/
def loadsAlways {D : Type} (w : TimingWorld D) (input_path input_folder : Str)
    (names : List Str) (nTest file : Nat) : Bool :=
  (List.range nTest).all (fun t => loads w input_path input_folder names t file)

/-- Specification side: the events of the first `nTest` trials of `averages_test`: in
every trial, every file in order, with the flag as the earlier trials left it. -/
def avgEvents {D : Type} (w : TimingWorld D) (nAlgs : Nat)
    (input_path input_folder : Str) (names : List Str) (nTest : Nat) : List TEvent :=
  (List.range nTest).flatMap (fun t =>
    (List.range names.length).flatMap (fun f =>
      avgFileEvents w nAlgs input_path input_folder names t f
        (loadsAlways w input_path input_folder names t f)))

/-- Specification side: the events of the first `nTest` trials of `density_size_test`. -/
def dsEvents {D : Type} (w : TimingWorld D) (nAlgs : Nat)
    (input_path input_folder : Str) (names : List Str) (nTest : Nat) : List TEvent :=
  (List.range nTest).flatMap (fun t =>
    (List.range names.length).flatMap (fun f =>
      dsFileEvents w nAlgs input_path input_folder names t f
        (loadsAlways w input_path input_folder names t f)))

/-- Specification side: what the trial loops do with the files, stated on the flags
`present` and the events `trace` at the end of `nTest` trials: the load of every file is
attempted in every trial; the algorithms are run on a file in exactly the trials in which
its load succeeds; the message is printed in the first trial in which the load fails, and
in no other; the flag of a file is set at the end exactly when all its loads succeeded. -/
def RetriedEveryTrial {D : Type} (w : TimingWorld D) (nAlgs : Nat)
    (input_path input_folder : Str) (names : List Str) (nTest : Nat)
    (present : Nat → Bool) (trace : List TEvent) : Prop :=
  (∀ t f, TEvent.load t f ∈ trace ↔ t < nTest ∧ f < names.length) ∧
  (∀ t f i, TEvent.run t f i ∈ trace ↔
    t < nTest ∧ f < names.length ∧ i < nAlgs ∧
      loads w input_path input_folder names t f = true) ∧
  (∀ t f, TEvent.missing t f ∈ trace ↔
    t < nTest ∧ f < names.length ∧ loads w input_path input_folder names t f = false ∧
      ∀ t2, t2 < t → loads w input_path input_folder names t2 f = true) ∧
  (∀ f, f < names.length →
    (present f = true ↔ ∀ t, t < nTest → loads w input_path input_folder names t f = true))

/-- Specification side: the rows of column `c` whose cell is available, in order. -/
def availableRows {D : Type} [DecidableEq D] (ops : DoubleOps D) (min_res : Nat → Nat → D)
    (rows c : Nat) : List Nat :=
  (List.range rows).filter (fun r => decide (min_res r c ≠ ops.dblMax))

/-- Specification side: the sum of the cells of column `c` in the rows `rs`, added to
`0.0` in the order of the rows. -/
def sumOfRows {D : Type} (ops : DoubleOps D) (min_res : Nat → Nat → D) (c : Nat)
    (rs : List Nat) : D :=
  rs.foldl (fun a r => ops.add a (min_res r c)) ops.zero

/-- Specification side: the density index of a file, the value of character 1 of its
name. -/
def densityIndex (names : List Str) (f : Nat) : Nat :=
  ctoi (charAt (names.getD f []) 1)

/-- Specification side: the size index of a file, the value of character 0 of its name. -/
def sizeIndex (names : List Str) (f : Nat) : Nat :=
  ctoi (charAt (names.getD f []) 0)

/-- Specification side: whether file `f` contributes to the buckets of algorithm `c`: the
first three characters of its name are digits, its present flag is set and its minimum
cell is available. -/
def contributes {D : Type} [DecidableEq D] (ops : DoubleOps D) (names : List Str)
    (st : TrialState D) (f c : Nat) : Bool :=
  threeDigits (names.getD f []) && st.present f && decide (st.min_res f c ≠ ops.dblMax)

/-- Specification side: the accumulators after file `f` has been taken into account for
the algorithms `0 .. cols - 1`, from the accumulators `b`. -/
def bucketsAfterFile {D : Type} [DecidableEq D] (ops : DoubleOps D) (names : List Str)
    (st : TrialState D) (cols f : Nat) (b : Buckets D) : Buckets D :=
  { supp_density := fun i j =>
      if i < cols ∧ j = densityIndex names f ∧ contributes ops names st f i = true then
        bump ops (st.min_res f i) (b.supp_density i j)
      else b.supp_density i j
    supp_normalized_density := fun i j =>
      if i < cols ∧ j = densityIndex names f ∧ contributes ops names st f i = true then
        bump ops (ops.div (st.min_res f i) (st.NULL_labeling f))
          (b.supp_normalized_density i j)
      else b.supp_normalized_density i j
    supp_size := fun i j =>
      if i < cols ∧ j = sizeIndex names f ∧ contributes ops names st f i = true then
        bump ops (st.min_res f i) (b.supp_size i j)
      else b.supp_size i j }

/-- Specification side: the digits of the name of file `f` index existing buckets
whenever the file contributes to the buckets of one of the algorithms `0 .. cols - 1`. -/
def IndicesInRange {D : Type} [DecidableEq D] (ops : DoubleOps D) (names : List Str)
    (st : TrialState D) (cols f : Nat) : Prop :=
  ∀ c, c < cols → contributes ops names st f c = true →
    densityIndex names f < densityBuckets ∧ sizeIndex names f < sizeBuckets

/-- Specification side: the counts of the accumulators do not depend on the algorithm,
and the normalized accumulator has the count of the density accumulator. -/
def CountsAgree {D : Type} (nAlgs : Nat) (b : Buckets D) : Prop :=
  (∀ i j, i < nAlgs → (b.supp_density i j).2 = (b.supp_density 0 j).2) ∧
  (∀ i j, i < nAlgs → (b.supp_size i j).2 = (b.supp_size 0 j).2) ∧
  (∀ i j, (b.supp_normalized_density i j).2 = (b.supp_density i j).2)

/-- A point of the accumulation of lines 758-779: the accumulators when the files
`0 .. k - 1` and the columns `0 .. c - 1` of file `k` have been taken into account. -/
def bucketPoint {D : Type} [DecidableEq D] (ops : DoubleOps D) (names : List Str)
    (st : TrialState D) (cols k c : Nat) : Option (Buckets D) :=
  ((List.range k).foldlM (fun acc files => bucketFile ops names st cols files acc)
    (initBuckets ops)).bind
    (fun b => (List.range c).foldlM (fun acc col => bucketCell ops names st k col acc) b)

/-- Specification side: the files that contribute to the density bucket `j` of
algorithm `i`, in order. -/
def densityContributors {D : Type} [DecidableEq D] (ops : DoubleOps D) (names : List Str)
    (st : TrialState D) (i j : Nat) : List Nat :=
  (List.range names.length).filter
    (fun f => contributes ops names st f i && decide (densityIndex names f = j))

/-- Specification side: the files that contribute to the size bucket `j` of algorithm
`i`, in order. -/
def sizeContributors {D : Type} [DecidableEq D] (ops : DoubleOps D) (names : List Str)
    (st : TrialState D) (i j : Nat) : List Nat :=
  (List.range names.length).filter
    (fun f => contributes ops names st f i && decide (sizeIndex names f = j))

/-- Specification side: the sum of the values `v f` over the files `fs`, added to `0.0`
in the order of the files. -/
def sumOver {D : Type} (ops : DoubleOps D) (v : Nat → D) (fs : List Nat) : D :=
  fs.foldl (fun a f => ops.add a (v f)) ops.zero

/-- The comparison `<` is irreflexive and transitive, as it is on the numbers of type
`double`. -/
def StrictOrder {D : Type} (ops : DoubleOps D) : Prop :=
  (∀ a, ops.lt a a = false) ∧
  (∀ a b c, ops.lt a b = true → ops.lt b c = true → ops.lt a c = true)

/-! ## The size values of `density_size_test` (main.cpp 829-845)

The function `pow` is taken to return the exact power whenever it is a number of type
`double`, as it is for every power that fits an `int`. -/

/-- The `(int)` conversion of a `double` holding the whole number `x`; it is defined when
`x` fits an `int` (`none` otherwise). -/
def castToInt (x : Nat) : Option Int :=
  if x < 2 ^ 31 then some (x : Int) else none

/-- Line 837: the value `supp_size_labels[i].first = (int)(pow(2, i + 5))`, stored in an
`unsigned int`; `i + 5` is computed in `unsigned int`. -/
def sizeLabel (i : Nat) : Option Nat :=
  (castToInt (2 ^ ((i + 5) % 2 ^ 32))).map (fun v => (v % 2 ^ 32).toNat)

/-- Line 839: the size value written for size bucket `i`,
`(int)pow(supp_size_labels[i].first, 2)`. -/
def sizeValue (i : Nat) : Option Int :=
  (sizeLabel i).bind (fun first => castToInt (first ^ 2))

/-! ## `eraseDoubleEscape` (main.cpp 246-252) -/

/-- What a run of `eraseDoubleEscape` comes to: the string it leaves in `str`, a read
outside the string (undefined behaviour), or a loop that is still running when the
allotted number of evaluations of its condition is used up. -/
inductive Erased where
  | returned (str : Str)
  | outOfRange
  | running
  deriving DecidableEq

/-- The `for` loop of `eraseDoubleEscape` from the values `str` and `i` of its variables,
for at most `fuel` evaluations of its condition.  The bound `str.size() - 1` is computed
in `size_t` (64 bits), `i` and `i + 1` in `uint` (32 bits); `str[k]` is defined for
`k ≤ str.size()`, the character at `str.size()` being the null character. -/
def eraseLoop : Nat → Str → Nat → Erased
  | 0, _, _ => Erased.running
  | fuel + 1, str, i =>
    if i < (str.length + 2 ^ 64 - 1) % 2 ^ 64 then
      if str.length < i ∨ str.length < (i + 1) % 2 ^ 32 then Erased.outOfRange
      else if charAt str i = charAt str ((i + 1) % 2 ^ 32) ∧ charAt str i = '\\' then
        eraseLoop fuel (str.eraseIdx i) ((i + 1) % 2 ^ 32)
      else eraseLoop fuel str ((i + 1) % 2 ^ 32)
    else Erased.returned str

/-- The function `eraseDoubleEscape`, run for at most `fuel` evaluations of the condition
of its loop. -/
def eraseDoubleEscape (fuel : Nat) (str : Str) : Erased :=
  eraseLoop fuel str 0

/-- What the loop does to the part of the string it has not read yet: of two adjacent
backslashes the first is erased and the second kept and stepped over. -/
def collapsePairs : Str → Str
  | [] => []
  | [c] => [c]
  | c :: d :: rest =>
    if c = d ∧ c = '\\' then d :: collapsePairs rest else c :: collapsePairs (d :: rest)

/-- Specification side: `collapseRunsAux k s` is the result for `s` preceded by a run of
`k` backslashes already read. -/
def collapseRunsAux : Nat → Str → Str
  | k, [] => List.replicate ((k + 1) / 2) '\\'
  | k, c :: t =>
    if c = '\\' then collapseRunsAux (k + 1) t
    else List.replicate ((k + 1) / 2) '\\' ++ c :: collapseRunsAux 0 t

/-- Specification side: every maximal run of `k` consecutive backslashes is replaced by
a run of `⌈k / 2⌉` backslashes; the other characters are kept. -/
def collapseRuns (s : Str) : Str :=
  collapseRunsAux 0 s

/-- Specification side: no two adjacent characters of the string are both backslashes. -/
def noAdjacentBackslashes : Str → Bool
  | c :: d :: rest => !(c = '\\' && d = '\\') && noAdjacentBackslashes (d :: rest)
  | _ => true

/-! ## `memory_test` (main.cpp 1012-1110)

As for the timing tests, a matrix is the function from its indices to its cells, the
output directory can be created and the list of images opened.  The conversions of the
counters (`unsigned long`) and of `totTest` (`uint`) to `double` are `ofCount`. -/

/-- A labeling algorithm of the memory test (`CCLMemPointer`): from the binary image to
the number of labels it returns and the vector `accessesVal` it fills. -/
abbrev CCLMemPointer := Mat1b → Nat × List Nat

/-- Variables of the loop over the files of `memory_test`. -/
structure MemState (D : Type) where
  algo_averages_accesses : Nat → Nat → D
  totTest : Nat
  present : Nat → Bool

/-- Lines 1092-1094 for algorithm `i`: every counter `accessesVal[a]` is added to
`algo_averages_accesses(i, a)`.  `none` is the undefined behaviour of a column index
outside the `MD_SIZE` columns of the matrix. -/
def addAccesses {D : Type} (ops : DoubleOps D) (MD_SIZE i : Nat) (accessesVal : List Nat)
    (M : Nat → Nat → D) : Option (Nat → Nat → D) :=
  (List.range accessesVal.length).foldlM
    (fun acc a =>
      if a < MD_SIZE then
        some (setCell acc i a (ops.add (acc i a) (ops.ofCount (accessesVal.getD a 0))))
      else none) M

/-- The vector `accessesVal` that algorithm `i` of the list fills for an image. -/
def accessesOf (CCLMemAlgorithms : List (CCLMemPointer × Str)) (i : Nat)
    (binaryImg : Mat1b) : List Nat :=
  match CCLMemAlgorithms[i]? with
  | some it => (it.1 binaryImg).2
  | none => []

/-- The loop over the algorithms (lines 1083-1095) for one loaded image. -/
def memAlgorithms {D : Type} (ops : DoubleOps D) (MD_SIZE : Nat)
    (CCLMemAlgorithms : List (CCLMemPointer × Str)) (binaryImg : Mat1b)
    (M : Nat → Nat → D) : Option (Nat → Nat → D) :=
  (List.range CCLMemAlgorithms.length).foldlM
    (fun acc i => addAccesses ops MD_SIZE i (accessesOf CCLMemAlgorithms i binaryImg) acc) M

/-- Body of the loop over the files (lines 1060-1096). -/
def memFileStep {D : Type} (ops : DoubleOps D) (imread : Str → Mat1b) (MD_SIZE : Nat)
    (CCLMemAlgorithms : List (CCLMemPointer × Str)) (input_path input_folder : Str)
    (names : List Str) (file : Nat) (st : MemState D) : Option (MemState D) :=
  match getBinaryImage imread (pathOf input_path input_folder (names.getD file [])) with
  | none => some { st with present := setAt st.present file false }
  | some binaryImg =>
    (memAlgorithms ops MD_SIZE CCLMemAlgorithms binaryImg st.algo_averages_accesses).map
      (fun M => { st with
        totTest := (st.totTest + 1) % 2 ^ 32
        algo_averages_accesses := M })

/-- The values of the variables before the loop over the files (lines 1053, 1058). -/
def initMemState {D : Type} (ops : DoubleOps D) : MemState D :=
  { algo_averages_accesses := fun _ _ => ops.zero
    totTest := 0
    present := fun _ => true }

/-- The loop over the files (lines 1060-1096). -/
def memFiles {D : Type} (ops : DoubleOps D) (imread : Str → Mat1b) (MD_SIZE : Nat)
    (CCLMemAlgorithms : List (CCLMemPointer × Str)) (input_path input_folder : Str)
    (names : List Str) : Option (MemState D) :=
  (List.range names.length).foldlM
    (fun s file => memFileStep ops imread MD_SIZE CCLMemAlgorithms input_path input_folder
      names file s)
    (initMemState ops)

/-- Lines 1103-1107: every cell of the matrix is divided by `totTest`. -/
def memAverages {D : Type} (ops : DoubleOps D) (M : Nat → Nat → D) (rows cols totTest : Nat) :
    Nat → Nat → D :=
  (List.range rows).foldl
    (fun acc r => (List.range cols).foldl
      (fun acc2 c => setCell acc2 r c (ops.div (acc2 r c) (ops.ofCount totTest))) acc) M

/-- The function `memory_test`: the matrix it leaves in `algo_averages_accesses`;
`content` is the content of the list of images. -/
def memory_test {D : Type} (ops : DoubleOps D) (imread : Str → Mat1b) (MD_SIZE : Nat)
    (CCLMemAlgorithms : List (CCLMemPointer × Str)) (input_path input_folder : Str)
    (content : Str) : Option (Nat → Nat → D) :=
  (memFiles ops imread MD_SIZE CCLMemAlgorithms input_path input_folder
    (readFileNames content)).map
    (fun st => memAverages ops st.algo_averages_accesses CCLMemAlgorithms.length MD_SIZE
      st.totTest)

/-- Specification side: whether file `file` of the list loads. -/
def memLoads (imread : Str → Mat1b) (input_path input_folder : Str) (names : List Str)
    (file : Nat) : Bool :=
  (getBinaryImage imread (pathOf input_path input_folder (names.getD file []))).isSome

/-- Specification side: the files of the list that load, in order. -/
def loadedFiles (imread : Str → Mat1b) (input_path input_folder : Str) (names : List Str) :
    List Nat :=
  (List.range names.length).filter (fun f => memLoads imread input_path input_folder names f)

/-- Specification side: the counters algorithm `i` returns for file `file`, once the
file is loaded (no counter for a file that does not load). -/
def countersOf (imread : Str → Mat1b) (CCLMemAlgorithms : List (CCLMemPointer × Str))
    (input_path input_folder : Str) (names : List Str) (i file : Nat) : List Nat :=
  match getBinaryImage imread (pathOf input_path input_folder (names.getD file [])) with
  | some binaryImg => accessesOf CCLMemAlgorithms i binaryImg
  | none => []

/-- Specification side: the sum, over the files `fs` in order, of counter `a` of
algorithm `i`, added to `0.0`; a file for which the algorithm returns no counter `a`
adds nothing. -/
def sumOfCounters {D : Type} (ops : DoubleOps D) (imread : Str → Mat1b)
    (CCLMemAlgorithms : List (CCLMemPointer × Str)) (input_path input_folder : Str)
    (names : List Str) (i a : Nat) (fs : List Nat) : D :=
  fs.foldl
    (fun s f =>
      match (countersOf imread CCLMemAlgorithms input_path input_folder names i f)[a]? with
      | some v => ops.add s (ops.ofCount v)
      | none => s) ops.zero

/-- Specification side: no algorithm returns more than `MD_SIZE` counters for a file of
the list. -/
def CountersFit (imread : Str → Mat1b) (MD_SIZE : Nat)
    (CCLMemAlgorithms : List (CCLMemPointer × Str)) (input_path input_folder : Str)
    (names : List Str) : Prop :=
  ∀ f, f < names.length → ∀ i, i < CCLMemAlgorithms.length →
    (countersOf imread CCLMemAlgorithms input_path input_folder names i f).length ≤ MD_SIZE

/-- A memory algorithm of the examples: it counts the pixels of the image as accesses to
the binary image and reports a fixed number of the other accesses. -/
def demoMem : CCLMemPointer :=
  fun img => (1, [3, img.flatten.length, 10, 5])

/-- A second memory algorithm of the examples. -/
def demoMem2 : CCLMemPointer :=
  fun img => (1, [1, 2 * img.flatten.length, 0, 7])

/-- The image reader of the memory examples: `a.png` is a 2x2 image, `b.png` a 2x3
image, no other file loads. -/
def demoImread : Str → Mat1b :=
  fun p =>
    if p = "in/d/a.png".toList then [[200, 0], [0, 200]]
    else if p = "in/d/b.png".toList then [[200, 200, 0], [0, 200, 0]]
    else []

/-! ## `main` (main.cpp 1230-1378)

The function is embedded as far as the order of its calls is concerned: what the
checker and the tests do is the matter of their own embeddings. -/

/-- The values `main` reads from `config.cfg` that direct its control flow. -/
structure Config where
  ds_perform : Bool
  at_perform : Bool
  mt_perform : Bool
  output_path : Str
  input_path : Str
  check_list : List Str
  memory_list : List Str
  input_folders_averages_test : List Str
  funcName : List Str
  algName : List Str
  funcMemName : List Str
  algoMemName : List Str

/-- The collaborators of `main` outside `main.cpp`: the two tables of algorithms and
`makeDir`. -/
structure MainWorld where
  CCLAlgorithmsMap : Str → Option CCLPointer
  CCLMemAlgorithmsMap : Str → Option CCLMemPointer
  makeDir : Str → Bool

/-- Observable steps of `main`: the two messages on the lists of algorithms (lines 1276
and 1296), the message for a function that is not in the table, and the calls of the
checker, the tests and the table generators with the names of the algorithms passed. -/
inductive MainEvent where
  | algorithmsMessage
  | memAlgorithmsMessage
  | notFound (name : Str)
  | checkSkipped
  | checkAlgorithms (names : List Str)
  | averagesSkipped
  | averages_test (names : List Str) (alg_pos : Nat) (input_folder : Str)
  | generateLatexTable
  | densitySizeSkipped
  | density_size_test (names : List Str) (input_folder : Str)
  | memorySkipped
  | memory_test (names : List Str) (input_folder : Str)
  | generateMemoryLatexTable (dataset : Str)
  deriving DecidableEq

/-- The loops of lines 1280-1286 and 1300-1306 from position `i` on: a function found in
the table is pushed with the name `algName[i]`, one that is not found is reported.
`none` is the undefined behaviour of an index outside `algName`. -/
def selectAlgorithms {α : Type} (table : Str → Option α) (algName : List Str) :
    List Str → Nat → List (α × Str) × List MainEvent →
      Option (List (α × Str) × List MainEvent)
  | [], _, acc => some acc
  | f :: rest, i, acc =>
    match table f with
    | none =>
      selectAlgorithms table algName rest (i + 1) (acc.1, acc.2 ++ [MainEvent.notFound f])
    | some p =>
      match algName[i]? with
      | some name => selectAlgorithms table algName rest (i + 1) (acc.1 ++ [(p, name)], acc.2)
      | none => none

/-- Lines 1313-1323: the check. -/
def mainCheck (names : List Str) : List MainEvent :=
  if names.length = 0 then [MainEvent.checkSkipped] else [MainEvent.checkAlgorithms names]

/-- Lines 1328-1342: the averages tests. -/
def mainAverages (cfg : Config) (names : List Str) : List MainEvent :=
  if cfg.at_perform then
    if names.length = 0 then [MainEvent.averagesSkipped]
    else (List.range cfg.input_folders_averages_test.length).map
        (fun i => MainEvent.averages_test names i
          (cfg.input_folders_averages_test.getD i [])) ++
      [MainEvent.generateLatexTable]
  else []

/-- Lines 1345-1357: the density and size tests, on the dataset `test_random`. -/
def mainDensitySize (cfg : Config) (names : List Str) : List MainEvent :=
  if cfg.ds_perform then
    if names.length = 0 then [MainEvent.densitySizeSkipped]
    else [MainEvent.density_size_test names "test_random".toList]
  else []

/-- Lines 1361-1375: the memory tests. -/
def mainMemory (cfg : Config) (memNames : List Str) : List MainEvent :=
  if memNames.length = 0 then [MainEvent.memorySkipped]
  else cfg.memory_list.flatMap
    (fun d => [MainEvent.memory_test memNames d, MainEvent.generateMemoryLatexTable d])

/-- The function `main`: its exit status and the events of the run. -/
def main (cfg : Config) (w : MainWorld) : Option (Nat × List MainEvent) :=
  if cfg.funcName.length ≠ cfg.algName.length ∨ cfg.funcName.length = 0 then
    some (1, [MainEvent.algorithmsMessage])
  else
    match selectAlgorithms w.CCLAlgorithmsMap cfg.algName cfg.funcName 0 ([], []) with
    | none => none
    | some (CCLAlgorithms, ev1) =>
      if cfg.mt_perform = true ∧
          (cfg.funcMemName.length ≠ cfg.algoMemName.length ∨ cfg.funcMemName.length = 0) then
        some (1, ev1 ++ [MainEvent.memAlgorithmsMessage])
      else
        match selectAlgorithms w.CCLMemAlgorithmsMap cfg.algoMemName cfg.funcMemName 0
            ([], ev1) with
        | none => none
        | some (CCLMemAlgorithms, ev2) =>
          if w.makeDir cfg.output_path = false then some (1, ev2)
          else
            some (0, ev2 ++ mainCheck (CCLAlgorithms.map Prod.snd) ++
              mainAverages cfg (CCLAlgorithms.map Prod.snd) ++
              mainDensitySize cfg (CCLAlgorithms.map Prod.snd) ++
              mainMemory cfg (CCLMemAlgorithms.map Prod.snd))

/-- Specification side: the events that belong to the checker, the tests and the table
generators. -/
def isTestEvent : MainEvent → Bool
  | MainEvent.algorithmsMessage => false
  | MainEvent.memAlgorithmsMessage => false
  | MainEvent.notFound _ => false
  | _ => true

/-- A configuration of the examples: two functions and two names. -/
def demoConfig : Config :=
  { ds_perform := true
    at_perform := true
    mt_perform := false
    output_path := "output".toList
    input_path := "input".toList
    check_list := ["d".toList]
    memory_list := ["d".toList]
    input_folders_averages_test := ["d".toList]
    funcName := ["f".toList, "g".toList]
    algName := ["F".toList, "G".toList]
    funcMemName := []
    algoMemName := [] }

/-- The collaborators of the examples for `main`: the table knows `f` only. -/
def demoMainWorld : MainWorld :=
  { CCLAlgorithmsMap := fun f => if f = "f".toList then some demoGood else none
    CCLMemAlgorithmsMap := fun _ => none
    makeDir := fun _ => true }

/-! ## Properties of the first-appearance rank -/

theorem mem_distinctPositive {l : List Int} {y : Int} :
    y ∈ distinctPositive l ↔ y ∈ l ∧ 0 < y := by
  simp [distinctPositive]

theorem rank_append_of_mem {q : List Int} (t : List Int) {x : Int} (hx : x ∈ q) :
    firstAppearanceRank (q ++ t) x = firstAppearanceRank q x := by
  unfold firstAppearanceRank
  congr 2
  ext y
  simp only [Finset.mem_filter, mem_distinctPositive, List.mem_append]
  rw [List.indexOf_append_of_mem hx]
  by_cases hy : y ∈ q
  · rw [List.indexOf_append_of_mem hy]
    simp [hy]
  · rw [List.indexOf_append_of_not_mem hy]
    have h1 : List.indexOf x q < q.length := List.indexOf_lt_length.2 hx
    constructor
    · rintro ⟨_, h⟩
      omega
    · rintro ⟨⟨h, _⟩, _⟩
      exact absurd h hy

theorem rankRelabel_append_of_mem {q : List Int} (t : List Int) {x : Int} (hx : x ∈ q) :
    rankRelabel (q ++ t) x = rankRelabel q x := by
  unfold rankRelabel
  rw [rank_append_of_mem t hx]

theorem rank_pos {l : List Int} {x : Int} (hx : x ∈ l) (hpos : 0 < x) :
    1 ≤ firstAppearanceRank l x := by
  unfold firstAppearanceRank
  have : 0 < ((distinctPositive l).filter (fun y => l.indexOf y ≤ l.indexOf x)).card := by
    apply Finset.card_pos.2
    exact ⟨x, by simp [mem_distinctPositive, hx, hpos]⟩
  omega

theorem rank_le_card (l : List Int) (x : Int) :
    firstAppearanceRank l x ≤ (distinctPositive l).card := by
  unfold firstAppearanceRank
  exact_mod_cast Finset.card_filter_le _ _

theorem rank_lt_of_indexOf_lt {l : List Int} {x y : Int} (hy : y ∈ l) (hpos : 0 < y)
    (h : l.indexOf x < l.indexOf y) :
    firstAppearanceRank l x < firstAppearanceRank l y := by
  unfold firstAppearanceRank
  have : ((distinctPositive l).filter (fun z => l.indexOf z ≤ l.indexOf x)).card
      < ((distinctPositive l).filter (fun z => l.indexOf z ≤ l.indexOf y)).card := by
    apply Finset.card_lt_card
    rw [Finset.ssubset_iff_of_subset]
    · refine ⟨y, by simp [mem_distinctPositive, hy, hpos], ?_⟩
      simp only [Finset.mem_filter, not_and, not_le]
      intro _
      exact h
    · intro z
      simp only [Finset.mem_filter]
      rintro ⟨h1, h2⟩
      exact ⟨h1, by omega⟩
  exact_mod_cast this

theorem rank_injOn {l : List Int} {x y : Int} (hx : x ∈ l) (hy : y ∈ l)
    (hxp : 0 < x) (hyp : 0 < y)
    (h : firstAppearanceRank l x = firstAppearanceRank l y) : x = y := by
  rcases Nat.lt_trichotomy (l.indexOf x) (l.indexOf y) with h1 | h1 | h1
  · have := rank_lt_of_indexOf_lt hy hyp h1
    omega
  · exact (List.indexOf_inj hx hy).1 h1
  · have := rank_lt_of_indexOf_lt hx hxp h1
    omega


theorem rank_mem_Icc {l : List Int} {x : Int} (hx : x ∈ distinctPositive l) :
    firstAppearanceRank l x ∈ Finset.Icc (1 : Int) (distinctPositive l).card := by
  rw [mem_distinctPositive] at hx
  exact Finset.mem_Icc.2 ⟨rank_pos hx.1 hx.2, rank_le_card l x⟩

theorem rank_image_eq (l : List Int) :
    (distinctPositive l).image (firstAppearanceRank l)
      = Finset.Icc (1 : Int) (distinctPositive l).card := by
  apply Finset.eq_of_subset_of_card_le
  · intro v hv
    rcases Finset.mem_image.1 hv with ⟨x, hx, rfl⟩
    exact rank_mem_Icc hx
  · rw [Finset.card_image_of_injOn, Int.card_Icc]
    · simp
    · intro x hx y hy h
      have hx1 := mem_distinctPositive.1 (Finset.mem_coe.1 hx)
      have hy1 := mem_distinctPositive.1 (Finset.mem_coe.1 hy)
      exact rank_injOn hx1.1 hy1.1 hx1.2 hy1.2 h

theorem rank_surj {l : List Int} {v : Int} (h1 : 1 ≤ v) (h2 : v ≤ (distinctPositive l).card) :
    ∃ x ∈ l, 0 < x ∧ firstAppearanceRank l x = v := by
  have hv : v ∈ (distinctPositive l).image (firstAppearanceRank l) := by
    rw [rank_image_eq]
    exact Finset.mem_Icc.2 ⟨h1, h2⟩
  rcases Finset.mem_image.1 hv with ⟨x, hx, rfl⟩
  rw [mem_distinctPositive] at hx
  exact ⟨x, hx.1, hx.2, rfl⟩

theorem indexOf_map_of_injOn (g : Int → Int) :
    ∀ (l : List Int), (∀ x ∈ l, ∀ y ∈ l, g x = g y → x = y) →
      ∀ x ∈ l, (l.map g).indexOf (g x) = l.indexOf x
  | [], _, x, hx => by simp at hx
  | a :: l, hinj, x, hx => by
    simp only [List.map_cons, List.indexOf_cons]
    by_cases hax : a = x
    · subst hax
      simp
    · have hx2 : x ∈ l := by
        rcases List.mem_cons.1 hx with h | h
        · exact absurd h.symm hax
        · exact h
      have hg : g a ≠ g x := fun h =>
        hax (hinj a (List.mem_cons_self _ _) x hx h)
      have ih := indexOf_map_of_injOn g l
        (fun u hu w hw => hinj u (List.mem_cons_of_mem _ hu) w (List.mem_cons_of_mem _ hw))
        x hx2
      have h1 : (g a == g x) = false := by simpa using hg
      have h2 : (a == x) = false := by simpa using hax
      rw [h1, h2, ih]

theorem distinctPositive_map {g : Int → Int} {l : List Int}
    (hpos : ∀ x ∈ l, (0 < g x ↔ 0 < x)) :
    distinctPositive (l.map g) = (distinctPositive l).image g := by
  ext v
  simp only [mem_distinctPositive, Finset.mem_image, List.mem_map]
  constructor
  · rintro ⟨⟨x, hx, rfl⟩, hv⟩
    exact ⟨x, ⟨hx, (hpos x hx).1 hv⟩, rfl⟩
  · rintro ⟨x, ⟨hx, hxp⟩, rfl⟩
    exact ⟨⟨x, hx, rfl⟩, (hpos x hx).2 hxp⟩

theorem card_distinctPositive_map {g : Int → Int} {l : List Int}
    (hinj : ∀ x ∈ l, ∀ y ∈ l, g x = g y → x = y)
    (hpos : ∀ x ∈ l, (0 < g x ↔ 0 < x)) :
    (distinctPositive (l.map g)).card = (distinctPositive l).card := by
  rw [distinctPositive_map hpos, Finset.card_image_of_injOn]
  intro x hx y hy h
  exact hinj x (mem_distinctPositive.1 (Finset.mem_coe.1 hx)).1
    y (mem_distinctPositive.1 (Finset.mem_coe.1 hy)).1 h

theorem rank_map {g : Int → Int} {l : List Int}
    (hinj : ∀ x ∈ l, ∀ y ∈ l, g x = g y → x = y)
    (hpos : ∀ x ∈ l, (0 < g x ↔ 0 < x)) {x : Int} (hx : x ∈ l) :
    firstAppearanceRank (l.map g) (g x) = firstAppearanceRank l x := by
  unfold firstAppearanceRank
  have himg : (distinctPositive (l.map g)).filter
        (fun y => (l.map g).indexOf y ≤ (l.map g).indexOf (g x))
      = ((distinctPositive l).filter (fun y => l.indexOf y ≤ l.indexOf x)).image g := by
    rw [distinctPositive_map hpos]
    ext v
    simp only [Finset.mem_filter, Finset.mem_image, mem_distinctPositive]
    constructor
    · rintro ⟨⟨y, ⟨hy, hyp⟩, rfl⟩, hle⟩
      rw [indexOf_map_of_injOn g l hinj y hy, indexOf_map_of_injOn g l hinj x hx] at hle
      exact ⟨y, ⟨⟨hy, hyp⟩, hle⟩, rfl⟩
    · rintro ⟨y, ⟨⟨hy, hyp⟩, hle⟩, rfl⟩
      rw [indexOf_map_of_injOn g l hinj y hy, indexOf_map_of_injOn g l hinj x hx]
      exact ⟨⟨y, ⟨hy, hyp⟩, rfl⟩, hle⟩
  rw [himg, Finset.card_image_of_injOn]
  intro u hu w hw h
  have hu1 := (Finset.mem_filter.1 (Finset.mem_coe.1 hu)).1
  have hw1 := (Finset.mem_filter.1 (Finset.mem_coe.1 hw)).1
  exact hinj u (mem_distinctPositive.1 hu1).1 w (mem_distinctPositive.1 hw1).1 h

theorem rankRelabel_pos_iff {l : List Int} {x : Int} (hx : x ∈ l) :
    0 < rankRelabel l x ↔ 0 < x := by
  unfold rankRelabel
  split
  · rename_i h
    have := rank_pos hx h
    constructor
    · intro _
      exact h
    · intro _
      omega
  · exact Iff.rfl

theorem rankRelabel_injOn {l : List Int} :
    ∀ x ∈ l, ∀ y ∈ l, rankRelabel l x = rankRelabel l y → x = y := by
  intro x hx y hy h
  by_cases hxp : 0 < x
  · have hyp : 0 < y := by
      rw [← rankRelabel_pos_iff hy, ← h, rankRelabel_pos_iff hx]
      exact hxp
    simp only [rankRelabel, hxp, hyp, if_true] at h
    exact rank_injOn hx hy hxp hyp h
  · have hyp : ¬ 0 < y := by
      rw [← rankRelabel_pos_iff hy, ← h, rankRelabel_pos_iff hx]
      exact hxp
    simpa [rankRelabel, hxp, hyp] using h


/-! ## `normalizeLabels` computes the first-appearance rank -/

theorem distinctPositive_append_old {p : List Int} {x : Int} (h : x ∈ p ∨ ¬ 0 < x) :
    distinctPositive (p ++ [x]) = distinctPositive p := by
  ext y
  simp only [mem_distinctPositive, List.mem_append, List.mem_singleton]
  constructor
  · rintro ⟨h1 | h1, h2⟩
    · exact ⟨h1, h2⟩
    · subst h1
      rcases h with h | h
      · exact ⟨h, h2⟩
      · exact absurd h2 h
  · rintro ⟨h1, h2⟩
    exact ⟨Or.inl h1, h2⟩

theorem distinctPositive_append_new {p : List Int} {x : Int} (hx : x ∉ p) (hpos : 0 < x) :
    distinctPositive (p ++ [x]) = insert x (distinctPositive p) := by
  ext y
  simp only [mem_distinctPositive, List.mem_append, List.mem_singleton, Finset.mem_insert]
  constructor
  · rintro ⟨h1 | h1, h2⟩
    · exact Or.inr ⟨h1, h2⟩
    · exact Or.inl h1
  · rintro (h | ⟨h1, h2⟩)
    · subst h
      exact ⟨Or.inr rfl, hpos⟩
    · exact ⟨Or.inl h1, h2⟩

theorem card_distinctPositive_append_new {p : List Int} {x : Int} (hx : x ∉ p)
    (hpos : 0 < x) :
    (distinctPositive (p ++ [x])).card = (distinctPositive p).card + 1 := by
  rw [distinctPositive_append_new hx hpos, Finset.card_insert_of_not_mem]
  intro h
  exact hx (mem_distinctPositive.1 h).1

theorem rank_append_new {p : List Int} {x : Int} (hx : x ∉ p) (hpos : 0 < x) :
    firstAppearanceRank (p ++ [x]) x = ((distinctPositive p).card : Int) + 1 := by
  unfold firstAppearanceRank
  rw [Finset.filter_true_of_mem, card_distinctPositive_append_new hx hpos]
  · push_cast
    rfl
  · intro y hy
    rw [List.indexOf_append_of_not_mem hx]
    have := List.indexOf_lt_length.2 (mem_distinctPositive.1 hy).1
    simp only [List.length_append, List.length_singleton] at this
    simp only [List.indexOf_cons, beq_self_eq_true, cond_true]
    omega

theorem normalizePixel_spec {p : List Int} {st : NormState} (h : NormInv p st) (x : Int) :
    (normalizePixel st x).2 = rankRelabel (p ++ [x]) x ∧
      NormInv (p ++ [x]) (normalizePixel st x).1 := by
  obtain ⟨hmap, hcnt⟩ := h
  have hstab : ∀ y, y ∈ p → firstAppearanceRank (p ++ [x]) y = firstAppearanceRank p y :=
    fun y hy => rank_append_of_mem [x] hy
  by_cases hpos : 0 < x
  · by_cases hm : x ∈ p
    · have hl : st.mapNewLabels.lookup x = some (firstAppearanceRank p x) := by
        rw [hmap x]
        simp [hpos, hm]
      have hst : normalizePixel st x = (st, firstAppearanceRank p x) := by
        simp [normalizePixel, hpos, hl]
      rw [hst]
      refine ⟨by simp [rankRelabel, hpos, hstab x hm], ?_, ?_⟩
      · intro y
        rw [hmap y]
        by_cases hy : y ∈ p
        · simp [hy, hstab y hy]
        · have hyx : y ≠ x := fun e => hy (e ▸ hm)
          simp [hy, hyx]
      · rw [distinctPositive_append_old (Or.inl hm)]
        exact hcnt
    · have hl : st.mapNewLabels.lookup x = none := by
        rw [hmap x]
        simp [hm]
      have hst : normalizePixel st x
          = ({ mapNewLabels := (x, st.iMaxNewLabel + 1) :: st.mapNewLabels,
               iMaxNewLabel := st.iMaxNewLabel + 1 }, st.iMaxNewLabel + 1) := by
        simp [normalizePixel, hpos, hl, List.lookup_cons]
      rw [hst]
      refine ⟨by simp [rankRelabel, hpos, rank_append_new hm hpos, hcnt], ?_, ?_⟩
      · intro y
        simp only [List.lookup_cons]
        by_cases hyx : y = x
        · subst hyx
          simp [hpos, rank_append_new hm hpos, hcnt]
        · have hb : (y == x) = false := by simpa using hyx
          simp only [hb]
          rw [hmap y]
          by_cases hy : y ∈ p
          · simp [hy, hstab y hy]
          · simp [hy, hyx]
      · simp only
        rw [card_distinctPositive_append_new hm hpos, hcnt]
        push_cast
        rfl
  · have hst : normalizePixel st x = (st, x) := by
      simp [normalizePixel, hpos]
    rw [hst]
    refine ⟨by simp [rankRelabel, hpos], ?_, ?_⟩
    · intro y
      rw [hmap y]
      by_cases hy : y ∈ p
      · simp [hy, hstab y hy]
      · by_cases hyx : y = x
        · subst hyx
          simp [hpos]
        · simp [hy, hyx]
    · rw [distinctPositive_append_old (Or.inr hpos)]
      exact hcnt

theorem normalizeRow_spec (t : List Int) :
    ∀ (s p : List Int) (st : NormState), NormInv p st →
      (normalizeRow st s).2 = s.map (rankRelabel (p ++ s ++ t)) ∧
        NormInv (p ++ s) (normalizeRow st s).1
  | [], p, st, h => by
    simpa [normalizeRow] using h
  | x :: xs, p, st, h => by
    obtain ⟨h1, h2⟩ := normalizePixel_spec h x
    obtain ⟨h3, h4⟩ := normalizeRow_spec t xs (p ++ [x]) _ h2
    simp only [normalizeRow, List.map_cons]
    refine ⟨?_, by simpa using h4⟩
    rw [h1, h3]
    have hx : x ∈ p ++ [x] := by simp
    have e : p ++ x :: xs ++ t = (p ++ [x]) ++ (xs ++ t) := by simp
    rw [e, rankRelabel_append_of_mem (xs ++ t) hx]
    simp

theorem normalizeRows_spec (t : List Int) :
    ∀ (M : List (List Int)) (p : List Int) (st : NormState), NormInv p st →
      (normalizeRows st M).2 = M.map (List.map (rankRelabel (p ++ M.flatten ++ t))) ∧
        NormInv (p ++ M.flatten) (normalizeRows st M).1
  | [], p, st, h => by
    simpa [normalizeRows] using h
  | row :: rows, p, st, h => by
    obtain ⟨h1, h2⟩ := normalizeRow_spec (rows.flatten ++ t) row p st h
    obtain ⟨h3, h4⟩ := normalizeRows_spec t rows (p ++ row) _ h2
    simp only [normalizeRows, List.map_cons, List.flatten_cons]
    refine ⟨?_, by simpa using h4⟩
    rw [h1, h3]
    simp [List.append_assoc]

theorem normInv_init : NormInv [] { mapNewLabels := [], iMaxNewLabel := 0 } := by
  constructor
  · intro x
    simp
  · simp [distinctPositive]

/-- The code agrees with the specification-side relabelling. -/
theorem normalizeLabels_eq_rankRelabel (L : Mat1i) :
    normalizeLabels L = L.map (List.map (rankRelabel L.flatten)) := by
  have h := (normalizeRows_spec [] L [] _ normInv_init).1
  simpa [normalizeLabels] using h

theorem normalizeLabels_flatten (L : Mat1i) :
    (normalizeLabels L).flatten = L.flatten.map (rankRelabel L.flatten) := by
  rw [normalizeLabels_eq_rankRelabel]
  induction L with
  | nil => simp
  | cons row rows ih => simp [List.flatten, List.map_append]

theorem flatten_map_map (g : Int → Int) (L : Mat1i) :
    (L.map (List.map g)).flatten = L.flatten.map g := by
  induction L with
  | nil => rfl
  | cons row rows ih =>
    rw [List.map_cons, List.flatten_cons, List.flatten_cons, List.map_append, ih]

theorem rankRelabel_map {g : Int → Int} {l : List Int}
    (hinj : ∀ x ∈ l, ∀ y ∈ l, g x = g y → x = y)
    (hpos : ∀ x ∈ l, (0 < g x ↔ 0 < x))
    (hfix : ∀ x ∈ l, ¬ 0 < x → g x = x) {x : Int} (hx : x ∈ l) :
    rankRelabel (l.map g) (g x) = rankRelabel l x := by
  unfold rankRelabel
  by_cases h : 0 < x
  · rw [if_pos ((hpos x hx).2 h), if_pos h, rank_map hinj hpos hx]
  · rw [if_neg (fun h2 => h ((hpos x hx).1 h2)), if_neg h, hfix x hx h]

/-- Renaming the labels by a map that is injective on the labels present, keeps positive
labels positive and fixes the others does not change the normalised map. -/
theorem normalizeLabels_map {g : Int → Int} {L : Mat1i}
    (hinj : ∀ x ∈ L.flatten, ∀ y ∈ L.flatten, g x = g y → x = y)
    (hpos : ∀ x ∈ L.flatten, (0 < g x ↔ 0 < x))
    (hfix : ∀ x ∈ L.flatten, ¬ 0 < x → g x = x) :
    normalizeLabels (L.map (List.map g)) = normalizeLabels L := by
  rw [normalizeLabels_eq_rankRelabel, normalizeLabels_eq_rankRelabel, flatten_map_map,
    List.map_map]
  apply List.map_congr_left
  intro row hrow
  simp only [Function.comp_apply, List.map_map]
  apply List.map_congr_left
  intro x hx
  exact rankRelabel_map hinj hpos hfix (List.mem_flatten.2 ⟨row, hrow, hx⟩)

theorem relabel_eq_map (p : Int → Int) (L : Mat1i) :
    relabel p L = L.map (List.map (fun x => if 0 < x then p x else x)) := rfl

/-! ## Pixels, dimensions and partitions -/

theorem pixel_cons_zero (row : List Int) (M : Mat1i) (c : Nat) :
    pixel (row :: M) 0 c = row[c]? := by
  simp [pixel]

theorem pixel_cons_succ (row : List Int) (M : Mat1i) (r c : Nat) :
    pixel (row :: M) (r + 1) c = pixel M r c := by
  simp [pixel]

theorem pixel_mem {M : Mat1i} {r c : Nat} {a : Int} (h : pixel M r c = some a) :
    a ∈ M.flatten := by
  unfold pixel at h
  rcases hrow : M[r]? with _ | row
  · simp [hrow] at h
  · rw [hrow] at h
    exact List.mem_flatten.2 ⟨row, List.getElem?_mem hrow, List.getElem?_mem h⟩

theorem pixel_map (f : Int → Int) (M : Mat1i) (r c : Nat) :
    pixel (M.map (List.map f)) r c = (pixel M r c).map f := by
  unfold pixel
  rw [List.getElem?_map]
  rcases M[r]? with _ | row
  · rfl
  · simp [List.getElem?_map]

theorem mem_flatten_pixel {M : Mat1i} {a : Int} (h : a ∈ M.flatten) :
    ∃ r c, pixel M r c = some a := by
  obtain ⟨row, hrow, ha⟩ := List.mem_flatten.1 h
  obtain ⟨r, hr⟩ := List.mem_iff_getElem?.1 hrow
  obtain ⟨c, hc⟩ := List.mem_iff_getElem?.1 ha
  exact ⟨r, c, by simp [pixel, hr, hc]⟩

theorem pixel_of_dims {A B : Mat1i} (hd : dims A = dims B) {r c : Nat} {a : Int}
    (h : pixel A r c = some a) : ∃ b, pixel B r c = some b := by
  unfold pixel at h ⊢
  rcases hrow : A[r]? with _ | row
  · simp [hrow] at h
  · rw [hrow] at h
    have h1 : (dims A)[r]? = some row.length := by simp [dims, hrow]
    rw [hd] at h1
    simp only [dims, List.getElem?_map, Option.map_eq_some'] at h1
    obtain ⟨rowB, hB, hlen⟩ := h1
    have hc : c < rowB.length := by
      rw [hlen]
      exact (List.getElem?_eq_some_iff.1 h).1
    exact ⟨rowB[c], by simp [hB, List.getElem?_eq_getElem hc]⟩

theorem mem_zip_flatten : ∀ (A B : Mat1i), dims A = dims B →
    ∀ p ∈ A.flatten.zip B.flatten, ∃ r c, pixel A r c = some p.1 ∧ pixel B r c = some p.2
  | [], _, _, p, hp => by simp at hp
  | _ :: _, [], hd, _, _ => by simp [dims] at hd
  | ra :: A, rb :: B, hd, p, hp => by
    simp only [dims, List.map_cons, List.cons.injEq] at hd
    rw [List.flatten_cons, List.flatten_cons, List.zip_append hd.1, List.mem_append] at hp
    rcases hp with hp | hp
    · obtain ⟨c, hc⟩ := List.mem_iff_getElem?.1 hp
      rw [List.getElem?_zip_eq_some] at hc
      exact ⟨0, c, by simpa [pixel_cons_zero] using hc⟩
    · obtain ⟨r, c, h⟩ := mem_zip_flatten A B hd.2 p hp
      exact ⟨r + 1, c, by simpa [pixel_cons_succ] using h⟩

theorem map_eq_of_zip (g : Int → Int) : ∀ (a b : List Int), a.length = b.length →
    (∀ p ∈ a.zip b, g p.1 = p.2) → a.map g = b
  | [], [], _, _ => rfl
  | [], _ :: _, h, _ => by simp at h
  | _ :: _, [], h, _ => by simp at h
  | x :: a, y :: b, h, hz => by
    have h1 : g x = y := hz (x, y) (by simp)
    have h2 := map_eq_of_zip g a b (by simpa using h)
      (fun p hp => hz p (by simp [hp]))
    simp [h1, h2]

theorem map_map_eq_of_zip (g : Int → Int) : ∀ (A B : Mat1i), dims A = dims B →
    (∀ p ∈ A.flatten.zip B.flatten, g p.1 = p.2) → A.map (List.map g) = B
  | [], [], _, _ => rfl
  | [], _ :: _, hd, _ => by simp [dims] at hd
  | _ :: _, [], hd, _ => by simp [dims] at hd
  | ra :: A, rb :: B, hd, hz => by
    simp only [dims, List.map_cons, List.cons.injEq] at hd
    rw [List.flatten_cons, List.flatten_cons, List.zip_append hd.1] at hz
    have h1 := map_eq_of_zip g ra rb hd.1 (fun p hp => hz p (List.mem_append_left _ hp))
    have h2 := map_map_eq_of_zip g A B hd.2 (fun p hp => hz p (List.mem_append_right _ hp))
    simp [h1, h2]

theorem exists_zip_of_mem : ∀ (a b : List Int), a.length = b.length → ∀ x ∈ a,
    ∃ y, (x, y) ∈ a.zip b
  | [], _, _, x, hx => by simp at hx
  | _ :: _, [], h, _, _ => by simp at h
  | u :: a, v :: b, h, x, hx => by
    rcases List.mem_cons.1 hx with rfl | hx
    · exact ⟨v, by simp⟩
    · obtain ⟨y, hy⟩ := exists_zip_of_mem a b (by simpa using h) x hx
      exact ⟨y, by simp [hy]⟩

theorem lookup_of_mem : ∀ (ps : List (Int × Int)) (a b : Int), (a, b) ∈ ps →
    ∃ b2, ps.lookup a = some b2 ∧ (a, b2) ∈ ps
  | [], _, _, h => by simp at h
  | (k, v) :: ps, a, b, h => by
    by_cases hak : a = k
    · subst hak
      exact ⟨v, by simp [List.lookup_cons], by simp⟩
    · have hb : (a == k) = false := by simpa using hak
      have h2 : (a, b) ∈ ps := by
        rcases List.mem_cons.1 h with h | h
        · exact absurd (Prod.mk.inj h).1 hak
        · exact h
      obtain ⟨b2, h3, h4⟩ := lookup_of_mem ps a b h2
      exact ⟨b2, by simp [List.lookup_cons, hb, h3], by simp [h4]⟩

theorem length_flatten_of_dims {A B : Mat1i} (hd : dims A = dims B) :
    A.flatten.length = B.flatten.length := by
  rw [List.length_flatten, List.length_flatten]
  exact congrArg List.sum hd

theorem dims_map (f : Int → Int) (M : Mat1i) : dims (M.map (List.map f)) = dims M := by
  simp [dims, List.map_map, Function.comp_def]

theorem dims_normalizeLabels (L : Mat1i) : dims (normalizeLabels L) = dims L := by
  rw [normalizeLabels_eq_rankRelabel, dims_map]

/-! ## Claims on `normalizeLabels` -/

/-- C1: `normalizeLabels` replaces each positive label by its 1-based rank among the
distinct positive labels of the map ordered by first appearance in the row-major scan
(other values are kept); the positive values of the result are exactly `1..K`, with `K`
the number of distinct positive labels of the input; and in the result the `v`-th distinct
positive value to appear is `v`, so the first occurrences carry `1, 2, ..., K` in order. -/
theorem normalizeLabels_first_appearance_rank (L : Mat1i) :
    normalizeLabels L = L.map (List.map (rankRelabel L.flatten)) ∧
    (∀ v : Int, 0 < v →
      (v ∈ (normalizeLabels L).flatten ↔
        1 ≤ v ∧ v ≤ ((distinctPositive L.flatten).card : Int))) ∧
    (∀ v ∈ (normalizeLabels L).flatten, 0 < v →
      firstAppearanceRank (normalizeLabels L).flatten v = v) := by
  refine ⟨normalizeLabels_eq_rankRelabel L, ?_, ?_⟩
  · intro v hv
    rw [normalizeLabels_flatten, List.mem_map]
    constructor
    · rintro ⟨x, hx, rfl⟩
      have hxp : 0 < x := (rankRelabel_pos_iff hx).1 hv
      simp only [rankRelabel, hxp, if_true]
      exact ⟨rank_pos hx hxp, rank_le_card _ x⟩
    · rintro ⟨h1, h2⟩
      obtain ⟨x, hx, hxp, rfl⟩ := rank_surj h1 h2
      exact ⟨x, hx, by simp [rankRelabel, hxp]⟩
  · intro v hv hpos
    rw [normalizeLabels_flatten] at hv ⊢
    obtain ⟨x, hx, rfl⟩ := List.mem_map.1 hv
    have hxp : 0 < x := (rankRelabel_pos_iff hx).1 hpos
    rw [rank_map rankRelabel_injOn (fun y hy => rankRelabel_pos_iff hy) hx]
    simp [rankRelabel, hxp]

/-- C2: `normalizeLabels` is idempotent. -/
theorem normalizeLabels_idempotent (L : Mat1i) :
    normalizeLabels (normalizeLabels L) = normalizeLabels L := by
  conv_lhs => rw [normalizeLabels_eq_rankRelabel L]
  exact normalizeLabels_map rankRelabel_injOn (fun y hy => rankRelabel_pos_iff hy)
    (fun x _ h => by simp [rankRelabel, h])

/-- C3: `normalizeLabels` is invariant under renaming of labels: if `p` is injective on
the positive labels of `L` and sends them to positive labels, normalising the renamed map
gives the same result as normalising `L`. -/
theorem normalizeLabels_relabel_invariant (L : Mat1i) (p : Int → Int)
    (hinj : ∀ x ∈ L.flatten, ∀ y ∈ L.flatten, 0 < x → 0 < y → p x = p y → x = y)
    (hpos : ∀ x ∈ L.flatten, 0 < x → 0 < p x) :
    normalizeLabels (relabel p L) = normalizeLabels L := by
  rw [relabel_eq_map]
  apply normalizeLabels_map
  · intro x hx y hy h
    by_cases hxp : 0 < x <;> by_cases hyp : 0 < y
    · simp only [hxp, hyp, if_true] at h
      exact hinj x hx y hy hxp hyp h
    · simp only [hxp, hyp, if_true, if_false] at h
      have := hpos x hx hxp
      omega
    · simp only [hxp, hyp, if_true, if_false] at h
      have := hpos y hy hyp
      omega
    · simpa [hxp, hyp] using h
  · intro x hx
    by_cases hxp : 0 < x
    · simp [hxp, hpos x hx hxp]
    · simp [hxp]
  · intro x _ hxp
    simp [hxp]

/-- Witness for C3 on a 2x3 map whose labels 5, 3, 7 are renamed to 30, 10, 50. -/
theorem normalizeLabels_relabel_invariant_witness :
    normalizeLabels (relabel (fun x => 10 * x - 20) [[5, 0, 3], [3, 5, 7]])
      = normalizeLabels [[5, 0, 3], [3, 5, 7]]
    ∧ normalizeLabels [[5, 0, 3], [3, 5, 7]] = [[1, 0, 2], [2, 1, 3]] :=
  ⟨normalizeLabels_relabel_invariant [[5, 0, 3], [3, 5, 7]] _ (by decide) (by decide),
   by decide⟩

theorem samePartition_of_normalize_eq {A B : Mat1i} (hA : nonNegative A)
    (hB : nonNegative B) (h : normalizeLabels A = normalizeLabels B) : samePartition A B := by
  have key : ∀ r c a b, pixel A r c = some a → pixel B r c = some b →
      rankRelabel A.flatten a = rankRelabel B.flatten b := by
    intro r c a b ha hb
    have h1 := congrArg (fun M => pixel M r c) h
    simp only [normalizeLabels_eq_rankRelabel, pixel_map, ha, hb, Option.map_some',
      Option.some.injEq] at h1
    exact h1
  constructor
  · intro r c a b ha hb
    have h1 := key r c a b ha hb
    have ha1 := rankRelabel_pos_iff (pixel_mem ha)
    have hb1 := rankRelabel_pos_iff (pixel_mem hb)
    have ha2 := hA a (pixel_mem ha)
    have hb2 := hB b (pixel_mem hb)
    rw [h1] at ha1
    constructor
    · intro h0
      have : ¬ 0 < b := fun hb0 => by
        have := ha1.1 (hb1.2 hb0)
        omega
      omega
    · intro h0
      have : ¬ 0 < a := fun ha0 => by
        have := hb1.1 (ha1.2 ha0)
        omega
      omega
  · intro r c r2 c2 a b a2 b2 ha hb ha2 hb2 _ _
    have h1 := key r c a b ha hb
    have h2 := key r2 c2 a2 b2 ha2 hb2
    constructor
    · intro e
      apply rankRelabel_injOn b (pixel_mem hb) b2 (pixel_mem hb2)
      rw [← h1, ← h2, e]
    · intro e
      apply rankRelabel_injOn a (pixel_mem ha) a2 (pixel_mem ha2)
      rw [h1, h2, e]

theorem normalize_eq_of_samePartition {A B : Mat1i} (hd : dims A = dims B)
    (hA : nonNegative A) (hB : nonNegative B) (h : samePartition A B) :
    normalizeLabels A = normalizeLabels B ∧
      (distinctPositive A.flatten).card = (distinctPositive B.flatten).card := by
  obtain ⟨hzero, hsame⟩ := h
  have hlen := length_flatten_of_dims hd
  -- the renaming read off the pairs of corresponding pixels
  have hg : ∃ g : Int → Int, ∀ p ∈ A.flatten.zip B.flatten, g p.1 = p.2 := by
    refine ⟨fun x => ((A.flatten.zip B.flatten).lookup x).getD x, ?_⟩
    rintro ⟨a, b⟩ hp
    obtain ⟨b2, hl, hp2⟩ := lookup_of_mem _ a b hp
    obtain ⟨r, c, h1, h2⟩ := mem_zip_flatten A B hd _ hp
    obtain ⟨r2, c2, h3, h4⟩ := mem_zip_flatten A B hd _ hp2
    simp only [hl, Option.getD_some]
    by_cases ha : a = 0
    · have e1 := (hzero r c a b h1 h2).1 ha
      have e2 := (hzero r2 c2 a b2 h3 h4).1 ha
      rw [e1, e2]
    · exact ((hsame r2 c2 r c a b2 a b h3 h4 h1 h2 ha ha).1 rfl)
  obtain ⟨g, hg⟩ := hg
  have hpair : ∀ x ∈ A.flatten, ∃ r c, pixel A r c = some x ∧ pixel B r c = some (g x) := by
    intro x hx
    obtain ⟨y, hy⟩ := exists_zip_of_mem _ _ hlen x hx
    obtain ⟨r, c, h1, h2⟩ := mem_zip_flatten A B hd _ hy
    have := hg _ hy
    simp only at this h1 h2
    exact ⟨r, c, h1, by rw [this]; exact h2⟩
  have hBeq : A.map (List.map g) = B := map_map_eq_of_zip g A B hd hg
  have hinj : ∀ x ∈ A.flatten, ∀ y ∈ A.flatten, g x = g y → x = y := by
    intro x hx y hy e
    obtain ⟨r, c, h1, h2⟩ := hpair x hx
    obtain ⟨r2, c2, h3, h4⟩ := hpair y hy
    by_cases hx0 : x = 0
    · have := (hzero r c x _ h1 h2).1 hx0
      rw [e] at this
      rw [hx0, (hzero r2 c2 y _ h3 h4).2 this]
    · by_cases hy0 : y = 0
      · have := (hzero r2 c2 y _ h3 h4).1 hy0
        rw [← e] at this
        exact absurd ((hzero r c x _ h1 h2).2 this) hx0
      · exact (hsame r c r2 c2 x _ y _ h1 h2 h3 h4 hx0 hy0).2 e
  have hpos : ∀ x ∈ A.flatten, (0 < g x ↔ 0 < x) := by
    intro x hx
    obtain ⟨r, c, h1, h2⟩ := hpair x hx
    have hz := hzero r c x _ h1 h2
    have hx2 := hA x hx
    have hb2 := hB _ (pixel_mem h2)
    constructor
    · intro hgx
      have : x ≠ 0 := fun e => by
        have := hz.1 e
        omega
      omega
    · intro hx0
      have : g x ≠ 0 := fun e => by
        have := hz.2 e
        omega
      omega
  have hfix : ∀ x ∈ A.flatten, ¬ 0 < x → g x = x := by
    intro x hx hx0
    obtain ⟨r, c, h1, h2⟩ := hpair x hx
    have hx2 := hA x hx
    have e : x = 0 := by omega
    rw [(hzero r c x _ h1 h2).1 e, e]
  constructor
  · rw [← hBeq, normalizeLabels_map hinj hpos hfix]
  · rw [← hBeq, flatten_map_map, card_distinctPositive_map hinj hpos]

/-- C4: for label maps `A`, `B` of the same dimensions with non-negative entries, the
normalised maps are equal and the numbers of distinct positive labels agree if and only if
`A` and `B` describe the same partition: same background pixels, and two foreground pixels
share a label in `A` exactly when they share one in `B`. -/
theorem normalizeLabels_eq_iff_samePartition (A B : Mat1i) (hd : dims A = dims B)
    (hA : nonNegative A) (hB : nonNegative B) :
    (normalizeLabels A = normalizeLabels B ∧
        (distinctPositive A.flatten).card = (distinctPositive B.flatten).card)
      ↔ samePartition A B :=
  ⟨fun h => samePartition_of_normalize_eq hA hB h.1,
   fun h => normalize_eq_of_samePartition hd hA hB h⟩

/-- Witness for C4: two 2x3 maps that name the same two components differently. -/
theorem normalizeLabels_eq_iff_samePartition_witness :
    dims [[4, 4, 0], [0, 9, (9 : Int)]] = dims [[2, 2, 0], [0, 1, (1 : Int)]] ∧
    nonNegative [[4, 4, 0], [0, 9, 9]] ∧ nonNegative [[2, 2, 0], [0, 1, 1]] ∧
    normalizeLabels [[4, 4, 0], [0, 9, 9]] = [[1, 1, 0], [0, 2, 2]] ∧
    normalizeLabels [[2, 2, 0], [0, 1, 1]] = [[1, 1, 0], [0, 2, 2]] ∧
    samePartition [[4, 4, 0], [0, 9, 9]] [[2, 2, 0], [0, 1, 1]] :=
  ⟨by decide, by decide, by decide, by decide, by decide,
   (normalizeLabels_eq_iff_samePartition [[4, 4, 0], [0, 9, 9]] [[2, 2, 0], [0, 1, 1]]
      (by decide) (by decide) (by decide)).1 ⟨by decide, by decide⟩⟩

/-! ## The monitor and the early stop -/

theorem allFailed_iff {s : List Bool} :
    allFailed s = true ↔ s ≠ [] ∧ ∀ b ∈ s, b = false := by
  cases s <;> simp [allFailed]

theorem adjacentFind_none_iff : ∀ (l : List Bool),
    adjacentFind l = none ↔ ∀ a ∈ l, ∀ b ∈ l, a = b
  | [] => by simp [adjacentFind]
  | [a] => by simp [adjacentFind]
  | a :: b :: rest => by
    have ih := adjacentFind_none_iff (b :: rest)
    by_cases hab : a = b
    · subst hab
      simp only [adjacentFind, ne_eq, not_true_eq_false, if_false, Option.map_eq_none']
      rw [ih]
      constructor
      · intro h x hx y hy
        have hx2 : x ∈ a :: rest := by simpa using hx
        have hy2 : y ∈ a :: rest := by simpa using hy
        exact h x hx2 y hy2
      · intro h x hx y hy
        exact h x (List.mem_cons_of_mem _ hx) y (List.mem_cons_of_mem _ hy)
    · simp only [adjacentFind, ne_eq, hab, not_false_eq_true, if_true]
      constructor
      · intro h
        cases h
      · intro h
        exact absurd (h a (by simp) b (by simp)) hab

theorem allFailed_set_of_adjacentFind {s : List Bool} {j : Nat} (hj : j < s.length)
    (h : adjacentFind (s.set j false) = none) : allFailed (s.set j false) = true := by
  rw [allFailed_iff]
  have hmem : false ∈ s.set j false := by
    rw [List.mem_iff_getElem?]
    exact ⟨j, by simp [List.getElem?_set, hj]⟩
  refine ⟨List.ne_nil_of_mem hmem, fun b hb => ?_⟩
  exact (adjacentFind_none_iff _).1 h b hb false hmem

theorem adjacentFind_of_allFailed {s : List Bool} (h : allFailed s = true) :
    adjacentFind s = none := by
  rw [allFailed_iff] at h
  rw [adjacentFind_none_iff]
  intro a ha b hb
  rw [h.2 a ha, h.2 b hb]

theorem monitor_append : ∀ (a b : List Event) (s : List Bool × Bool),
    monitor s (a ++ b) = (monitor s a).bind (fun s2 => monitor s2 b)
  | [], b, s => by simp [monitor]
  | e :: a, b, s => by
    simp only [List.cons_append, monitor]
    cases monitorStep s e with
    | none => rfl
    | some s2 => simpa using monitor_append a b s2

theorem accepts_refl (st : CheckState) : Accepts st st :=
  ⟨[], by simp, rfl⟩

theorem accepts_trans {a b c : CheckState} (h1 : Accepts a b) (h2 : Accepts b c) :
    Accepts a c := by
  obtain ⟨e1, t1, m1⟩ := h1
  obtain ⟨e2, t2, m2⟩ := h2
  refine ⟨e1 ++ e2, by rw [t2, t1, List.append_assoc], ?_⟩
  rw [monitor_append, m1]
  exact m2

theorem accepts_of_flags {a b : CheckState} (ht : b.trace = a.trace)
    (hs : b.stats = a.stats) (hp : b.stop = a.stop) : Accepts a b :=
  ⟨[], by simp [ht], by simp [monitor, hs, hp]⟩

theorem getD_true_iff {s : List Bool} {j : Nat} :
    s.getD j false = true ↔ s[j]? = some true := by
  rw [List.getD_eq_getElem?_getD]
  cases s[j]? <;> simp

theorem lt_length_of_getElem? {s : List Bool} {j : Nat} {b : Bool} (h : s[j]? = some b) :
    j < s.length :=
  (List.getElem?_eq_some_iff.1 h).1

theorem not_stop_of_true {st : CheckState} (hg : Good st) {j : Nat}
    (hj : st.stats[j]? = some true) : st.stop = false ∧ allFailed st.stats = false := by
  have hnot : ¬ allFailed st.stats = true := by
    rw [allFailed_iff]
    rintro ⟨_, h⟩
    have := h true (List.getElem?_mem hj)
    cases this
  refine ⟨?_, by simpa using hnot⟩
  cases hstop : st.stop
  · rfl
  · exact absurd (hg.1 hstop) hnot

/-- The loop over the algorithms keeps the early-stop flag in step with the marks and
emits only events the monitor accepts, also when it ends in the exception. -/
theorem algLoop_accepts (w : World) (img : Mat1b) (path : Str) :
    ∀ (rest : List (CCLPointer × Str)) (j : Nat) (st : CheckState), Good st →
      Good (algLoop w img path rest j st) ∧ Accepts st (algLoop w img path rest j st)
  | [], _, st, h => ⟨h, accepts_refl st⟩
  | it :: rest, j, st, h => by
    rw [algLoop]
    simp only
    by_cases hs : st.stats.getD j false = true
    · have hj := getD_true_iff.1 hs
      have hns := not_stop_of_true h hj
      have hlt := lt_length_of_getElem? hj
      rw [if_pos hs]
      cases mismatchB w it.1 img with
      | none =>
        simp only
        refine ⟨by simpa [Good] using h, [Event.run j path], by simp, ?_⟩
        simp [monitor, monitorStep, hns.1, hj]
      | some differs =>
        simp only
        by_cases hm : differs = true
        · rw [if_pos hm]
          by_cases ha : adjacentFind (st.stats.set j false) = none
          · rw [if_pos ha]
            have haf := allFailed_set_of_adjacentFind hlt ha
            refine ⟨?_, ?_⟩
            · simp [Good, haf]
            · refine ⟨[Event.run j path, Event.fail j path, Event.stop], by simp, ?_⟩
              simp [monitor, monitorStep, hns.1, hj, haf]
          · rw [if_neg ha]
            have hnaf : allFailed (st.stats.set j false) = false := by
              cases hx : allFailed (st.stats.set j false)
              · rfl
              · exact absurd (adjacentFind_of_allFailed hx) ha
            obtain ⟨g, acc⟩ := algLoop_accepts w img path rest (j + 1)
              { stats := st.stats.set j false, firstFail := st.firstFail.set j path,
                stop := st.stop, checkPerform := true, aborted := st.aborted,
                trace := st.trace ++ [Event.run j path] ++ [Event.fail j path] }
              (by simp [Good, hns.1, hnaf])
            refine ⟨g, accepts_trans ?_ acc⟩
            refine ⟨[Event.run j path, Event.fail j path], by simp, ?_⟩
            simp [monitor, monitorStep, hns.1, hj]
        · rw [if_neg hm]
          obtain ⟨g, acc⟩ := algLoop_accepts w img path rest (j + 1)
            { stats := st.stats, firstFail := st.firstFail,
              stop := st.stop, checkPerform := true, aborted := st.aborted,
              trace := st.trace ++ [Event.run j path] }
            (by simpa [Good] using h)
          refine ⟨g, accepts_trans ?_ acc⟩
          refine ⟨[Event.run j path], by simp, ?_⟩
          simp [monitor, monitorStep, hns.1, hj]
    · rw [if_neg hs]
      obtain ⟨g, acc⟩ := algLoop_accepts w img path rest (j + 1)
        { stats := st.stats, firstFail := st.firstFail,
          stop := st.stop, checkPerform := true, aborted := st.aborted,
          trace := st.trace }
        (by simpa [Good] using h)
      exact ⟨g, accepts_trans (accepts_of_flags rfl rfl rfl) acc⟩

theorem allFailed_false_of_good {st : CheckState} (hg : Good st) (hs : st.stop = false) :
    allFailed st.stats = false := by
  cases hx : allFailed st.stats
  · rfl
  · have := hg.2 hx
    rw [hs] at this
    cases this

theorem fileStep_accepts (w : World) (algs : List (CCLPointer × Str))
    (input_path dataset : Str) (fileNumber : Int) (cur : Nat) (line : Str)
    (st : CheckState) (hg : Good st) (hs : st.stop = false) :
    Good (fileStep w algs input_path dataset fileNumber cur line st) ∧
      Accepts st (fileStep w algs input_path dataset fileNumber cur line st) := by
  have hnaf := allFailed_false_of_good hg hs
  unfold fileStep
  simp only
  cases progressChanged cur fileNumber with
  | none => exact ⟨by simpa [Good] using hg, accepts_of_flags rfl rfl rfl⟩
  | some b =>
    simp only
    cases getBinaryImage w.imread (pathOf input_path dataset (deleteCarriageReturn line)) with
    | none =>
      refine ⟨by simpa [Good] using hg, ⟨[Event.load _], rfl, ?_⟩⟩
      simp [monitor, monitorStep, hs, hnaf]
    | some img =>
      simp only
      obtain ⟨g, acc⟩ := algLoop_accepts w img
        (pathOf input_path dataset (deleteCarriageReturn line)) algs 0
        { st with trace := st.trace
            ++ [Event.load (pathOf input_path dataset (deleteCarriageReturn line))]
            ++ [Event.reference (pathOf input_path dataset (deleteCarriageReturn line))] }
        (by simpa [Good] using hg)
      refine ⟨g, accepts_trans ?_ acc⟩
      refine ⟨[Event.load (pathOf input_path dataset (deleteCarriageReturn line)),
        Event.reference (pathOf input_path dataset (deleteCarriageReturn line))],
        by simp, ?_⟩
      simp [monitor, monitorStep, hs, hnaf]

theorem fileLoop_accepts (w : World) (algs : List (CCLPointer × Str))
    (input_path dataset : Str) (fileNumber : Int) :
    ∀ (lines : List Str) (cur : Nat) (st : CheckState), Good st →
      Good (fileLoop w algs input_path dataset fileNumber lines cur st) ∧
        Accepts st (fileLoop w algs input_path dataset fileNumber lines cur st)
  | [], _, st, hg => ⟨hg, accepts_refl st⟩
  | line :: rest, cur, st, hg => by
    rw [fileLoop]
    by_cases hc : (st.stop || st.aborted) = true
    · rw [if_pos hc]
      exact ⟨hg, accepts_refl st⟩
    · rw [if_neg hc]
      have hs : st.stop = false := by
        cases h : st.stop
        · rfl
        · simp [h] at hc
      obtain ⟨g1, a1⟩ := fileStep_accepts w algs input_path dataset fileNumber cur line st hg hs
      obtain ⟨g2, a2⟩ := fileLoop_accepts w algs input_path dataset fileNumber rest
        ((cur + 1) % 2 ^ 32) _ g1
      exact ⟨g2, accepts_trans a1 a2⟩

theorem datasetStep_accepts (w : World) (algs : List (CCLPointer × Str))
    (input_path input_txt dataset : Str) (st : CheckState) (hg : Good st) :
    Good (datasetStep w algs input_path input_txt dataset st) ∧
      Accepts st (datasetStep w algs input_path input_txt dataset st) := by
  unfold datasetStep
  simp only
  cases w.openFile (pathOf input_path dataset input_txt) with
  | none => exact ⟨hg, accepts_refl st⟩
  | some content => exact fileLoop_accepts w algs input_path dataset _ _ 0 st hg

theorem datasetLoop_accepts (w : World) (algs : List (CCLPointer × Str))
    (input_path input_txt : Str) :
    ∀ (datasets : List Str) (st : CheckState), Good st →
      Good (datasetLoop w algs input_path input_txt datasets st) ∧
        Accepts st (datasetLoop w algs input_path input_txt datasets st)
  | [], st, hg => ⟨hg, accepts_refl st⟩
  | d :: rest, st, hg => by
    rw [datasetLoop]
    by_cases hc : st.aborted = true
    · rw [if_pos hc]
      exact ⟨hg, accepts_refl st⟩
    · rw [if_neg hc]
      obtain ⟨g1, a1⟩ := datasetStep_accepts w algs input_path input_txt d st hg
      obtain ⟨g2, a2⟩ := datasetLoop_accepts w algs input_path input_txt rest _ g1
      exact ⟨g2, accepts_trans a1 a2⟩

theorem good_initState (algs : List (CCLPointer × Str)) : Good (initState algs) := by
  have h : allFailed (List.replicate algs.length true) = false := by
    cases hx : allFailed (List.replicate algs.length true)
    · rfl
    · rw [allFailed_iff] at hx
      obtain ⟨hne, hall⟩ := hx
      obtain ⟨b, hb⟩ := List.exists_mem_of_ne_nil _ hne
      have h1 := hall b hb
      have h2 := List.eq_of_mem_replicate hb
      rw [h1] at h2
      cases h2
  simp [Good, initState, h]

/-- Every run of `checkAlgorithms` is accepted by the monitor, which ends in the final
marks and the final early-stop flag. -/
theorem checkAlgorithms_monitor (w : World) (algs : List (CCLPointer × Str))
    (datasets : List Str) (input_path input_txt : Str) :
    monitor (List.replicate algs.length true, false)
        (checkAlgorithms w algs datasets input_path input_txt).trace
      = some ((checkAlgorithms w algs datasets input_path input_txt).stats,
          (checkAlgorithms w algs datasets input_path input_txt).stop) := by
  obtain ⟨_, ext, ht, hm⟩ := datasetLoop_accepts w algs input_path input_txt datasets
    (initState algs) (good_initState algs)
  have he : (checkAlgorithms w algs datasets input_path input_txt).trace = ext := by
    simpa [checkAlgorithms, initState] using ht
  rw [he]
  simpa [checkAlgorithms, initState] using hm

/-! ## What an accepted trace cannot contain -/

theorem monitorStep_frozen {s r : List Bool × Bool} {e : Event} {j : Nat}
    (h : monitorStep s e = some r) (hj : s.1[j]? = some false) :
    r.1[j]? = some false ∧ (∀ q, e ≠ Event.run j q) ∧ (∀ q, e ≠ Event.fail j q) := by
  cases e with
  | load p =>
    simp only [monitorStep] at h
    split at h
    · cases h
      exact ⟨hj, by simp, by simp⟩
    · cases h
  | reference p =>
    simp only [monitorStep] at h
    split at h
    · cases h
      exact ⟨hj, by simp, by simp⟩
    · cases h
  | run i p =>
    simp only [monitorStep] at h
    split at h
    · rename_i hc
      cases h
      refine ⟨hj, ?_, by simp⟩
      intro q e
      cases e
      rw [hj] at hc
      simp at hc
    · cases h
  | fail i p =>
    simp only [monitorStep] at h
    split at h
    · rename_i hc
      cases h
      have hij : i ≠ j := by
        rintro rfl
        rw [hj] at hc
        simp at hc
      refine ⟨?_, by simp, ?_⟩
      · simp only
        rw [List.getElem?_set_ne hij]
        exact hj
      · intro q e
        cases e
        exact hij rfl
    · cases h
  | stop =>
    simp only [monitorStep] at h
    split at h
    · cases h
      exact ⟨hj, by simp, by simp⟩
    · cases h

/-- Once `j` is marked incorrect, an accepted continuation neither runs `j` nor marks it
again, and leaves it marked incorrect. -/
theorem monitor_frozen : ∀ (tr : List Event) (s r : List Bool × Bool) (j : Nat),
    monitor s tr = some r → s.1[j]? = some false →
      r.1[j]? = some false ∧ (∀ q, Event.run j q ∉ tr) ∧ (∀ q, Event.fail j q ∉ tr)
  | [], s, r, j, h, hj => by
    simp only [monitor, Option.some.injEq] at h
    subst h
    exact ⟨hj, by simp, by simp⟩
  | e :: tr, s, r, j, h, hj => by
    simp only [monitor] at h
    cases hs : monitorStep s e with
    | none => simp [hs] at h
    | some s2 =>
      rw [hs] at h
      obtain ⟨h1, h2, h3⟩ := monitorStep_frozen hs hj
      obtain ⟨h4, h5, h6⟩ := monitor_frozen tr s2 r j h h1
      refine ⟨h4, ?_, ?_⟩
      · intro q hq
        rcases List.mem_cons.1 hq with hq | hq
        · exact h2 q hq.symm
        · exact h5 q hq
      · intro q hq
        rcases List.mem_cons.1 hq with hq | hq
        · exact h3 q hq.symm
        · exact h6 q hq

theorem monitor_split {pre post : List Event} {e : Event} {s r : List Bool × Bool}
    (h : monitor s (pre ++ e :: post) = some r) :
    ∃ s1 s2, monitor s pre = some s1 ∧ monitorStep s1 e = some s2 ∧
      monitor s2 post = some r := by
  rw [monitor_append] at h
  cases h1 : monitor s pre with
  | none => simp [h1] at h
  | some s1 =>
    rw [h1] at h
    simp only [Option.some_bind, monitor] at h
    cases h2 : monitorStep s1 e with
    | none => simp [h2] at h
    | some s2 =>
      rw [h2] at h
      exact ⟨s1, s2, rfl, h2, h⟩

theorem monitorStep_fail {s r : List Bool × Bool} {j : Nat} {p : Str}
    (h : monitorStep s (Event.fail j p) = some r) :
    s.1[j]? = some true ∧ s.2 = false ∧ r = (s.1.set j false, s.2) := by
  simp only [monitorStep] at h
  split at h
  · rename_i hc
    cases h
    exact ⟨hc.2, hc.1, rfl⟩
  · cases h

theorem monitorStep_stop {s r : List Bool × Bool}
    (h : monitorStep s Event.stop = some r) :
    allFailed s.1 = true ∧ s.2 = false ∧ r = (s.1, true) := by
  simp only [monitorStep] at h
  split at h
  · rename_i hc
    cases h
    exact ⟨hc.2, hc.1, rfl⟩
  · cases h

theorem set_false_getElem? {s : List Bool} {j : Nat} (hj : s[j]? = some true) :
    (s.set j false)[j]? = some false := by
  simp [List.getElem?_set, lt_length_of_getElem? hj]

theorem monitor_length : ∀ (tr : List Event) (s r : List Bool × Bool),
    monitor s tr = some r → r.1.length = s.1.length
  | [], s, r, h => by
    simp only [monitor, Option.some.injEq] at h
    rw [h]
  | e :: tr, s, r, h => by
    simp only [monitor] at h
    cases hs : monitorStep s e with
    | none => simp [hs] at h
    | some s2 =>
      rw [hs] at h
      have h1 := monitor_length tr s2 r h
      have h2 : s2.1.length = s.1.length := by
        cases e <;> simp only [monitorStep] at hs <;> split at hs <;> cases hs <;> simp
      rw [h1, h2]

/-- Nothing is accepted after the early stop. -/
theorem monitor_stopped : ∀ (tr : List Event) (s r : List Bool × Bool),
    monitor s tr = some r → s.2 = true → tr = []
  | [], _, _, _, _ => rfl
  | e :: tr, s, r, h, hs => by
    simp only [monitor] at h
    have : monitorStep s e = none := by
      cases e <;> simp [monitorStep, hs]
    simp [this] at h

/-- When every algorithm is marked incorrect the only event accepted is the early stop. -/
theorem monitor_allFailed (tr : List Event) (s r : List Bool × Bool)
    (h : monitor s tr = some r) (ha : allFailed s.1 = true) :
    (tr = [] ∧ r = s) ∨ (tr = [Event.stop] ∧ r = (s.1, true)) := by
  cases tr with
  | nil =>
    simp only [monitor, Option.some.injEq] at h
    exact Or.inl ⟨rfl, h.symm⟩
  | cons e tr =>
    simp only [monitor] at h
    have hf : ∀ b ∈ s.1, b = false := (allFailed_iff.1 ha).2
    cases hs : monitorStep s e with
    | none => simp [hs] at h
    | some s2 =>
      rw [hs] at h
      cases e with
      | load p => simp [monitorStep, ha] at hs
      | reference p => simp [monitorStep, ha] at hs
      | run i p =>
        simp only [monitorStep] at hs
        split at hs
        · rename_i hc
          have := hf true (List.getElem?_mem hc.2)
          cases this
        · cases hs
      | fail i p =>
        have := hf true (List.getElem?_mem (monitorStep_fail hs).1)
        cases this
      | stop =>
        obtain ⟨_, _, rfl⟩ := monitorStep_stop hs
        have := monitor_stopped tr _ r h rfl
        subst this
        simp only [monitor, Option.some_bind, Option.some.injEq] at h
        exact Or.inr ⟨rfl, h.symm⟩

/-- A mark that changes from correct to incorrect along an accepted trace is witnessed by
a `fail` event. -/
theorem monitor_fail_of_change : ∀ (tr : List Event) (s r : List Bool × Bool) (i : Nat),
    monitor s tr = some r → s.1[i]? = some true → r.1[i]? = some false →
      ∃ q, Event.fail i q ∈ tr
  | [], s, r, i, h, h1, h2 => by
    simp only [monitor, Option.some.injEq] at h
    subst h
    rw [h1] at h2
    cases h2
  | e :: tr, s, r, i, h, h1, h2 => by
    simp only [monitor] at h
    cases hs : monitorStep s e with
    | none => simp [hs] at h
    | some s2 =>
      rw [hs] at h
      by_cases hk : s2.1[i]? = some true
      · obtain ⟨q, hq⟩ := monitor_fail_of_change tr s2 r i h hk h2
        exact ⟨q, List.mem_cons_of_mem _ hq⟩
      · cases e with
        | load p =>
          simp only [monitorStep] at hs
          split at hs
          · cases hs
            exact absurd h1 hk
          · cases hs
        | reference p =>
          simp only [monitorStep] at hs
          split at hs
          · cases hs
            exact absurd h1 hk
          · cases hs
        | run j p =>
          simp only [monitorStep] at hs
          split at hs
          · cases hs
            exact absurd h1 hk
          · cases hs
        | stop =>
          simp only [monitorStep] at hs
          split at hs
          · cases hs
            exact absurd h1 hk
          · cases hs
        | fail j p =>
          obtain ⟨_, _, rfl⟩ := monitorStep_fail hs
          by_cases hij : j = i
          · subst hij
            exact ⟨p, by simp⟩
          · simp only [List.getElem?_set_ne hij] at hk
            exact absurd h1 hk

/-! ## An algorithm marked incorrect stays so, from any state -/

theorem frozen_refl {j : Nat} {st : CheckState} (h : st.stats[j]? = some false) :
    Frozen j st st :=
  ⟨h, [], by simp, by simp⟩

theorem frozen_trans {j : Nat} {a b c : CheckState} (h1 : Frozen j a b)
    (h2 : Frozen j b c) : Frozen j a c := by
  obtain ⟨_, e1, t1, n1⟩ := h1
  obtain ⟨s2, e2, t2, n2⟩ := h2
  refine ⟨s2, e1 ++ e2, by rw [t2, t1, List.append_assoc], ?_⟩
  intro q hq
  rcases List.mem_append.1 hq with hq | hq
  · exact n1 q hq
  · exact n2 q hq

theorem algLoop_frozen (w : World) (img : Mat1b) (path : Str) :
    ∀ (rest : List (CCLPointer × Str)) (k : Nat) (st : CheckState) (j : Nat),
      st.stats[j]? = some false → Frozen j st (algLoop w img path rest k st)
  | [], _, st, j, h => frozen_refl h
  | it :: rest, k, st, j, h => by
    rw [algLoop]
    simp only
    by_cases hs : st.stats.getD k false = true
    · have hk := getD_true_iff.1 hs
      have hkj : k ≠ j := by
        rintro rfl
        rw [h] at hk
        cases hk
      rw [if_pos hs]
      cases mismatchB w it.1 img with
      | none =>
        simp only
        refine ⟨h, [Event.run k path], by simp, ?_⟩
        intro q hq
        simp only [List.mem_singleton, Event.run.injEq] at hq
        exact hkj hq.1.symm
      | some differs =>
        simp only
        by_cases hm : differs = true
        · rw [if_pos hm]
          have hset : (st.stats.set k false)[j]? = some false := by
            rw [List.getElem?_set_ne hkj]
            exact h
          by_cases ha : adjacentFind (st.stats.set k false) = none
          · rw [if_pos ha]
            refine ⟨hset, [Event.run k path, Event.fail k path, Event.stop], by simp, ?_⟩
            intro q hq
            simp only [List.mem_cons, Event.run.injEq, List.mem_singleton, reduceCtorEq,
              or_false, List.not_mem_nil] at hq
            exact hkj hq.1.symm
          · rw [if_neg ha]
            refine frozen_trans ?_ (algLoop_frozen w img path rest (k + 1) _ j hset)
            refine ⟨hset, [Event.run k path, Event.fail k path], by simp, ?_⟩
            intro q hq
            simp only [List.mem_cons, Event.run.injEq, List.mem_singleton, reduceCtorEq,
              or_false, List.not_mem_nil] at hq
            exact hkj hq.1.symm
        · rw [if_neg hm]
          refine frozen_trans ?_ (algLoop_frozen w img path rest (k + 1) _ j h)
          refine ⟨h, [Event.run k path], by simp, ?_⟩
          intro q hq
          simp only [List.mem_singleton, Event.run.injEq] at hq
          exact hkj hq.1.symm
    · rw [if_neg hs]
      exact frozen_trans ⟨h, [], by simp, by simp⟩
        (algLoop_frozen w img path rest (k + 1) _ j h)

theorem fileStep_frozen (w : World) (algs : List (CCLPointer × Str))
    (input_path dataset : Str) (fileNumber : Int) (cur : Nat) (line : Str)
    (st : CheckState) (j : Nat) (h : st.stats[j]? = some false) :
    Frozen j st (fileStep w algs input_path dataset fileNumber cur line st) := by
  unfold fileStep
  simp only
  cases progressChanged cur fileNumber with
  | none => exact ⟨h, [], by simp, by simp⟩
  | some b =>
    simp only
    cases getBinaryImage w.imread (pathOf input_path dataset (deleteCarriageReturn line)) with
    | none => exact ⟨h, [Event.load _], rfl, by simp⟩
    | some img =>
      simp only
      refine frozen_trans ?_ (algLoop_frozen w img _ algs 0 _ j h)
      exact ⟨h, [Event.load (pathOf input_path dataset (deleteCarriageReturn line)),
        Event.reference (pathOf input_path dataset (deleteCarriageReturn line))],
        by simp, by simp⟩

theorem fileLoop_frozen (w : World) (algs : List (CCLPointer × Str))
    (input_path dataset : Str) (fileNumber : Int) :
    ∀ (lines : List Str) (cur : Nat) (st : CheckState) (j : Nat),
      st.stats[j]? = some false →
        Frozen j st (fileLoop w algs input_path dataset fileNumber lines cur st)
  | [], _, _, _, h => frozen_refl h
  | line :: rest, cur, st, j, h => by
    rw [fileLoop]
    by_cases hc : (st.stop || st.aborted) = true
    · rw [if_pos hc]
      exact frozen_refl h
    · rw [if_neg hc]
      have h1 := fileStep_frozen w algs input_path dataset fileNumber cur line st j h
      exact frozen_trans h1
        (fileLoop_frozen w algs input_path dataset fileNumber rest _ _ j h1.1)

theorem datasetLoop_frozen (w : World) (algs : List (CCLPointer × Str))
    (input_path input_txt : Str) :
    ∀ (datasets : List Str) (st : CheckState) (j : Nat),
      st.stats[j]? = some false →
        Frozen j st (datasetLoop w algs input_path input_txt datasets st)
  | [], _, _, h => frozen_refl h
  | d :: rest, st, j, h => by
    rw [datasetLoop]
    by_cases hc : st.aborted = true
    · rw [if_pos hc]
      exact frozen_refl h
    · rw [if_neg hc]
      have h1 : Frozen j st (datasetStep w algs input_path input_txt d st) := by
        unfold datasetStep
        simp only
        cases w.openFile (pathOf input_path d input_txt) with
        | none => exact frozen_refl h
        | some content => exact fileLoop_frozen w algs input_path d _ _ 0 st j h
      exact frozen_trans h1
        (datasetLoop_frozen w algs input_path input_txt rest _ j h1.1)

/-! ## Claims on the order of events in `checkAlgorithms` -/

theorem monitor_failed_of_mem {tr : List Event} {s r : List Bool × Bool} {i : Nat} {q : Str}
    (h : monitor s tr = some r) (hq : Event.fail i q ∈ tr) : r.1[i]? = some false := by
  obtain ⟨a, b, rfl⟩ := List.append_of_mem hq
  obtain ⟨s1, s2, _, h2, h3⟩ := monitor_split h
  obtain ⟨h4, _, rfl⟩ := monitorStep_fail h2
  exact (monitor_frozen b _ r i h3 (set_false_getElem? h4)).1

theorem checkAlgorithms_good (w : World) (algs : List (CCLPointer × Str))
    (datasets : List Str) (input_path input_txt : Str) :
    Good (checkAlgorithms w algs datasets input_path input_txt) :=
  (datasetLoop_accepts w algs input_path input_txt datasets (initState algs)
    (good_initState algs)).1

/-- C7: `checkAlgorithms` never invokes an algorithm after it has been marked incorrect.
In the trace of every run no `run j` event follows a `fail j` event (the assignment
`stats[j] = false`), and `j` is marked incorrect at the end; and from any state in which
`stats[j]` is false, whatever remains of the run (the remaining datasets, the remaining
lines of the current list, the remaining algorithms for the current image) leaves
`stats[j]` false and does not invoke `j`. -/
theorem checkAlgorithms_never_invokes_incorrect (w : World)
    (algs : List (CCLPointer × Str)) (datasets : List Str) (input_path input_txt : Str) :
    (∀ pre post j p,
        (checkAlgorithms w algs datasets input_path input_txt).trace
            = pre ++ Event.fail j p :: post →
          (∀ q, Event.run j q ∉ post) ∧
            (checkAlgorithms w algs datasets input_path input_txt).stats[j]? = some false) ∧
    (∀ (st : CheckState) (j : Nat), st.stats[j]? = some false →
      (∀ rest, Frozen j st (datasetLoop w algs input_path input_txt rest st)) ∧
      (∀ dataset fileNumber lines cur,
        Frozen j st (fileLoop w algs input_path dataset fileNumber lines cur st)) ∧
      (∀ img path rest k, Frozen j st (algLoop w img path rest k st))) := by
  constructor
  · intro pre post j p ht
    have hm := checkAlgorithms_monitor w algs datasets input_path input_txt
    rw [ht] at hm
    obtain ⟨s1, s2, _, h2, h3⟩ := monitor_split hm
    obtain ⟨h4, _, rfl⟩ := monitorStep_fail h2
    have := monitor_frozen post _ _ j h3 (set_false_getElem? h4)
    exact ⟨this.2.1, this.1⟩
  · intro st j h
    exact ⟨fun rest => datasetLoop_frozen w algs input_path input_txt rest st j h,
      fun dataset fileNumber lines cur =>
        fileLoop_frozen w algs input_path dataset fileNumber lines cur st j h,
      fun img path rest k => algLoop_frozen w img path rest k st j h⟩

/-- Witness for C7: in the example run over the dataset `d` listed twice, the second
candidate is run on `a.png`, fails on `b.png`, and is not run in the second pass. -/
theorem checkAlgorithms_never_invokes_incorrect_witness :
    (checkAlgorithms demoWorld demoAlgs ["d".toList, "d".toList] "in".toList
        "files.txt".toList).trace
      = [Event.load demoA, Event.reference demoA, Event.run 0 demoA, Event.run 1 demoA,
          Event.load demoC,
          Event.load demoB, Event.reference demoB, Event.run 0 demoB, Event.run 1 demoB]
        ++ Event.fail 1 demoB ::
          [Event.load demoA, Event.reference demoA, Event.run 0 demoA,
            Event.load demoC,
            Event.load demoB, Event.reference demoB, Event.run 0 demoB] ∧
    (checkAlgorithms demoWorld demoAlgs ["d".toList, "d".toList] "in".toList
        "files.txt".toList).stats[1]? = some false :=
  ⟨by decide,
   ((checkAlgorithms_never_invokes_incorrect demoWorld demoAlgs
      ["d".toList, "d".toList] "in".toList "files.txt".toList).1
      [Event.load demoA, Event.reference demoA, Event.run 0 demoA, Event.run 1 demoA,
        Event.load demoC,
        Event.load demoB, Event.reference demoB, Event.run 0 demoB, Event.run 1 demoB]
      [Event.load demoA, Event.reference demoA, Event.run 0 demoA,
        Event.load demoC,
        Event.load demoB, Event.reference demoB, Event.run 0 demoB]
      1 demoB (by decide)).2⟩

theorem fileLoop_stopped (w : World) (algs : List (CCLPointer × Str))
    (input_path dataset : Str) (fileNumber : Int) (lines : List Str) (cur : Nat)
    (st : CheckState) (h : st.stop = true) :
    fileLoop w algs input_path dataset fileNumber lines cur st = st := by
  cases lines with
  | nil => rfl
  | cons line rest =>
    rw [fileLoop]
    simp [h]

theorem datasetLoop_stopped (w : World) (algs : List (CCLPointer × Str))
    (input_path input_txt : Str) :
    ∀ (datasets : List Str) (st : CheckState), st.stop = true →
      datasetLoop w algs input_path input_txt datasets st = st
  | [], _, _ => rfl
  | d :: rest, st, h => by
    rw [datasetLoop]
    by_cases hc : st.aborted = true
    · rw [if_pos hc]
    · rw [if_neg hc]
      have h1 : datasetStep w algs input_path input_txt d st = st := by
        unfold datasetStep
        simp only
        cases w.openFile (pathOf input_path d input_txt) with
        | none => rfl
        | some content => exact fileLoop_stopped w algs input_path d _ _ 0 st h
      rw [h1]
      exact datasetLoop_stopped w algs input_path input_txt rest st h

theorem replicate_true_getElem? {n i : Nat} (h : i < n) :
    (List.replicate n true)[i]? = some true := by
  simp [List.getElem?_replicate, h]

/-- C9: once every algorithm is marked incorrect no further image is processed, and the
early stop is raised only then.  In the trace of every run, the `fail` event that completes
the set of failed algorithms is followed by the early stop and by nothing else (no load,
no call of the reference or of a candidate); a `stop` event is the last event and every
algorithm has a `fail` event before it; at the end the flag `stop` is set exactly when all
algorithms are marked incorrect; and from any state in which `stop` is set the remaining
lines of a list and the remaining datasets change nothing. -/
theorem checkAlgorithms_early_stop (w : World)
    (algs : List (CCLPointer × Str)) (datasets : List Str) (input_path input_txt : Str) :
    (∀ pre post j p,
        (checkAlgorithms w algs datasets input_path input_txt).trace
            = pre ++ Event.fail j p :: post →
          (∀ i, i < algs.length → ∃ q, Event.fail i q ∈ pre ++ [Event.fail j p]) →
          post = [Event.stop]) ∧
    (∀ pre post,
        (checkAlgorithms w algs datasets input_path input_txt).trace
            = pre ++ Event.stop :: post →
          post = [] ∧ algs ≠ [] ∧ ∀ i, i < algs.length → ∃ q, Event.fail i q ∈ pre) ∧
    ((checkAlgorithms w algs datasets input_path input_txt).stop = true ↔
      allFailed (checkAlgorithms w algs datasets input_path input_txt).stats = true) ∧
    (∀ st : CheckState, st.stop = true →
      (∀ rest, datasetLoop w algs input_path input_txt rest st = st) ∧
      (∀ dataset fileNumber lines cur,
        fileLoop w algs input_path dataset fileNumber lines cur st = st)) := by
  have hm := checkAlgorithms_monitor w algs datasets input_path input_txt
  have hgood := checkAlgorithms_good w algs datasets input_path input_txt
  refine ⟨?_, ?_, hgood, ?_⟩
  · intro pre post j p ht hall
    rw [ht] at hm
    obtain ⟨s1, s2, h1, h2, h3⟩ := monitor_split hm
    obtain ⟨h4, h5, rfl⟩ := monitorStep_fail h2
    have hlen : s1.1.length = algs.length := by
      simpa using monitor_length pre _ _ h1
    have hpre : monitor (List.replicate algs.length true, false) (pre ++ [Event.fail j p])
        = some (s1.1.set j false, s1.2) := by
      rw [monitor_append, h1]
      simp [monitor, h2]
    have haf : allFailed (s1.1.set j false) = true := by
      rw [allFailed_iff]
      have hjlt := lt_length_of_getElem? h4
      refine ⟨fun h => ?_, fun b hb => ?_⟩
      · have := congrArg List.length h
        rw [List.length_set, List.length_nil] at this
        omega
      · obtain ⟨i, hi⟩ := List.mem_iff_getElem?.1 hb
        have hilt : i < algs.length := by
          have := lt_length_of_getElem? hi
          simpa [hlen] using this
        obtain ⟨q, hq⟩ := hall i hilt
        have := monitor_failed_of_mem hpre hq
        simp only at this
        rw [hi] at this
        exact Option.some.inj this
    rcases monitor_allFailed post _ _ h3 haf with ⟨_, hr⟩ | ⟨hp, _⟩
    · have hst : (checkAlgorithms w algs datasets input_path input_txt).stats
          = s1.1.set j false := congrArg Prod.fst hr
      have hsp : (checkAlgorithms w algs datasets input_path input_txt).stop = s1.2 :=
        congrArg Prod.snd hr
      have := hgood.2 (by rw [hst]; exact haf)
      rw [hsp, h5] at this
      cases this
    · exact hp
  · intro pre post ht
    rw [ht] at hm
    obtain ⟨s1, s2, h1, h2, h3⟩ := monitor_split hm
    obtain ⟨h4, _, rfl⟩ := monitorStep_stop h2
    have hlen : s1.1.length = algs.length := by
      simpa using monitor_length pre _ _ h1
    obtain ⟨hne, hall⟩ := allFailed_iff.1 h4
    refine ⟨monitor_stopped post _ _ h3 rfl, ?_, ?_⟩
    · intro h
      rw [h] at hlen
      exact hne (List.length_eq_zero.1 hlen)
    · intro i hi
      have hi2 : i < s1.1.length := by omega
      have hfalse : s1.1[i]? = some false := by
        rw [List.getElem?_eq_getElem hi2]
        exact congrArg some (hall _ (List.getElem_mem _))
      exact monitor_fail_of_change pre _ _ i h1 (replicate_true_getElem? hi) hfalse
  · intro st hst
    exact ⟨fun rest => datasetLoop_stopped w algs input_path input_txt rest st hst,
      fun dataset fileNumber lines cur =>
        fileLoop_stopped w algs input_path dataset fileNumber lines cur st hst⟩

/-- Witness for C9: with two incorrect candidates and the dataset `d` listed twice, the
second candidate is the last to fail, on `b.png`; the early stop follows at once, it is
the last event (the second pass over `d` loads nothing), and both candidates have failed
before it. -/
theorem checkAlgorithms_early_stop_witness :
    (checkAlgorithms demoWorld demoAlgsBad ["d".toList, "d".toList] "in".toList
        "files.txt".toList).trace
      = [Event.load demoA, Event.reference demoA, Event.run 0 demoA, Event.fail 0 demoA,
          Event.run 1 demoA, Event.load demoC,
          Event.load demoB, Event.reference demoB, Event.run 1 demoB, Event.fail 1 demoB]
        ++ Event.stop :: [] ∧
    demoAlgsBad ≠ [] ∧
    ∀ i, i < demoAlgsBad.length → ∃ q, Event.fail i q ∈
      [Event.load demoA, Event.reference demoA, Event.run 0 demoA, Event.fail 0 demoA,
        Event.run 1 demoA, Event.load demoC,
        Event.load demoB, Event.reference demoB, Event.run 1 demoB, Event.fail 1 demoB] :=
  ⟨by decide,
   ((checkAlgorithms_early_stop demoWorld demoAlgsBad ["d".toList, "d".toList]
      "in".toList "files.txt".toList).2.1
      [Event.load demoA, Event.reference demoA, Event.run 0 demoA, Event.fail 0 demoA,
        Event.run 1 demoA, Event.load demoC,
        Event.load demoB, Event.reference demoB, Event.run 1 demoB, Event.fail 1 demoB]
      [] (by decide)).2⟩

/-- C10: an image that fails to load (the progress division being defined, so that the
load is reached) changes no status, no first-fail record and no flag; the only event is
the attempted load, so neither the reference nor a candidate is invoked; and the loop goes
on with the next line from that state. -/
theorem fileStep_load_failure (w : World) (algs : List (CCLPointer × Str))
    (input_path dataset : Str) (fileNumber : Int) (cur : Nat) (line : Str) (st : CheckState)
    (hdiv : progressChanged cur fileNumber ≠ none)
    (hload : getBinaryImage w.imread
        (pathOf input_path dataset (deleteCarriageReturn line)) = none) :
    fileStep w algs input_path dataset fileNumber cur line st
      = { st with trace := st.trace
            ++ [Event.load (pathOf input_path dataset (deleteCarriageReturn line))] } ∧
    (st.stop = false → st.aborted = false → ∀ rest,
      fileLoop w algs input_path dataset fileNumber (line :: rest) cur st
        = fileLoop w algs input_path dataset fileNumber rest ((cur + 1) % 2 ^ 32)
            { st with trace := st.trace
                ++ [Event.load (pathOf input_path dataset (deleteCarriageReturn line))] }) := by
  have h1 : fileStep w algs input_path dataset fileNumber cur line st
      = { st with trace := st.trace
            ++ [Event.load (pathOf input_path dataset (deleteCarriageReturn line))] } := by
    unfold fileStep
    simp only
    cases hp : progressChanged cur fileNumber with
    | none => exact absurd hp hdiv
    | some b =>
      simp only
      rw [hload]
  refine ⟨h1, ?_⟩
  intro hs ha rest
  rw [fileLoop, h1]
  simp [hs, ha]

/-- Witness for C10: the second line of the example list names the unreadable `c.png`. -/
theorem fileStep_load_failure_witness :
    fileStep demoWorld demoAlgs "in".toList "d".toList 3 1 "c.png".toList
        (initState demoAlgs)
      = { initState demoAlgs with trace := [Event.load demoC] } :=
  (fileStep_load_failure demoWorld demoAlgs "in".toList "d".toList 3 1 "c.png".toList
    (initState demoAlgs) (by decide) (by decide)).1

/-! ## `compareMat` and the test of line 212 -/

/-- The comparison raises the exception exactly on operands of different sizes. -/
theorem compareMat_eq_none_iff (a b : Mat1i) :
    compareMat a b = none ↔ dims a ≠ dims b := by
  unfold compareMat matNotEqual
  by_cases hd : dims a = dims b
  · simp [hd]
  · simp [hd]

/-- The test of line 212 raises the exception exactly when the candidate returns the
reference's number of labels and a label image of other dimensions than the reference's. -/
theorem mismatchB_eq_none_iff (w : World) (alg : CCLPointer) (img : Mat1b) :
    mismatchB w alg img = none ↔
      (alg img).1 = (w.SAUF_OPT img).1 ∧ dims (alg img).2 ≠ dims (w.SAUF_OPT img).2 := by
  unfold mismatchB
  simp only
  by_cases hn : (w.SAUF_OPT img).1 = (alg img).1
  · have hb : ((w.SAUF_OPT img).1 != (alg img).1) = false := by simp [hn]
    simp only [hb, Bool.false_eq_true, if_false]
    have hc := compareMat_eq_none_iff (w.SAUF_OPT img).2 (normalizeLabels (alg img).2)
    rw [dims_normalizeLabels] at hc
    cases hx : compareMat (w.SAUF_OPT img).2 (normalizeLabels (alg img).2) with
    | none =>
      rw [hx] at hc
      simp only [true_iff] at hc ⊢
      exact ⟨hn.symm, fun h => hc h.symm⟩
    | some e =>
      rw [hx] at hc
      simp only [reduceCtorEq, false_iff, not_and, not_not] at hc ⊢
      exact fun _ => hc.symm
  · have hb : ((w.SAUF_OPT img).1 != (alg img).1) = true := by simp [hn]
    simp only [hb, if_true, reduceCtorEq, false_iff]
    exact fun h => hn h.1.symm

theorem fileStep_loaded (w : World) (algs : List (CCLPointer × Str))
    (input_path dataset : Str) (fileNumber : Int) (cur : Nat) (line : Str) (st : CheckState)
    (img : Mat1b) (hdiv : progressChanged cur fileNumber ≠ none)
    (hload : getBinaryImage w.imread
        (pathOf input_path dataset (deleteCarriageReturn line)) = some img) :
    fileStep w algs input_path dataset fileNumber cur line st
      = algLoop w img (pathOf input_path dataset (deleteCarriageReturn line)) algs 0
          { st with trace := st.trace
              ++ [Event.load (pathOf input_path dataset (deleteCarriageReturn line))]
              ++ [Event.reference (pathOf input_path dataset (deleteCarriageReturn line))] } := by
  unfold fileStep
  simp only
  cases hp : progressChanged cur fileNumber with
  | none => exact absurd hp hdiv
  | some b =>
    simp only
    rw [hload]

theorem progressChanged_ne_none {cur : Nat} {fileNumber : Int}
    (h : (fileNumber % 2 ^ 32).toNat ≠ 0) : progressChanged cur fileNumber ≠ none := by
  unfold progressChanged
  simp only
  rw [if_neg h]
  exact Option.some_ne_none _

theorem fileStep_unloaded (w : World) (algs : List (CCLPointer × Str))
    (input_path dataset : Str) (fileNumber : Int) (cur : Nat) (line : Str) (st : CheckState)
    (hdiv : progressChanged cur fileNumber ≠ none)
    (hload : getBinaryImage w.imread
        (pathOf input_path dataset (deleteCarriageReturn line)) = none) :
    fileStep w algs input_path dataset fileNumber cur line st
      = { st with trace := st.trace
            ++ [Event.load (pathOf input_path dataset (deleteCarriageReturn line))] } := by
  unfold fileStep
  simp only
  cases hp : progressChanged cur fileNumber with
  | none => exact absurd hp hdiv
  | some b =>
    simp only
    rw [hload]

theorem algLoop_completes (w : World) (img : Mat1b) (path : Str) :
    ∀ (rest : List (CCLPointer × Str)) (k : Nat) (st : CheckState), st.aborted = false →
      (∀ it ∈ rest, dims (it.1 img).2 = dims (w.SAUF_OPT img).2) →
      (algLoop w img path rest k st).aborted = false
  | [], _, _, ha, _ => ha
  | it :: rest, k, st, ha, hsz => by
    have hne : mismatchB w it.1 img ≠ none := fun h =>
      ((mismatchB_eq_none_iff w it.1 img).1 h).2 (hsz it (List.mem_cons_self _ _))
    have hrest : ∀ it2 ∈ rest, dims (it2.1 img).2 = dims (w.SAUF_OPT img).2 :=
      fun it2 h2 => hsz it2 (List.mem_cons_of_mem _ h2)
    rw [algLoop]
    simp only
    by_cases hs : st.stats.getD k false = true
    · rw [if_pos hs]
      cases hmm : mismatchB w it.1 img with
      | none => exact absurd hmm hne
      | some differs =>
        simp only
        by_cases hm : differs = true
        · rw [if_pos hm]
          by_cases ha2 : adjacentFind (st.stats.set k false) = none
          · rw [if_pos ha2]
            exact ha
          · rw [if_neg ha2]
            exact algLoop_completes w img path rest (k + 1) _ ha hrest
        · rw [if_neg hm]
          exact algLoop_completes w img path rest (k + 1) _ ha hrest
    · rw [if_neg hs]
      exact algLoop_completes w img path rest (k + 1) _ ha hrest

theorem fileLoop_completes (w : World) (algs : List (CCLPointer × Str))
    (input_path dataset : Str) (fileNumber : Int) :
    ∀ (lines : List Str) (cur : Nat) (st : CheckState), st.aborted = false →
      (lines ≠ [] → (fileNumber % 2 ^ 32).toNat ≠ 0) →
      (∀ p ∈ loadedOf w input_path dataset lines, sizeOk w algs p.2) →
      (fileLoop w algs input_path dataset fileNumber lines cur st).aborted = false
  | [], _, _, ha, _, _ => ha
  | line :: rest, cur, st, ha, hd, hsz => by
    rw [fileLoop]
    by_cases hc : (st.stop || st.aborted) = true
    · rw [if_pos hc]
      exact ha
    · rw [if_neg hc]
      have hdiv : progressChanged cur fileNumber ≠ none :=
        progressChanged_ne_none (hd (List.cons_ne_nil _ _))
      refine fileLoop_completes w algs input_path dataset fileNumber rest _ _ ?_
        (fun _ => hd (List.cons_ne_nil _ _)) ?_
      · cases hl : getBinaryImage w.imread
            (pathOf input_path dataset (deleteCarriageReturn line)) with
        | none =>
          rw [fileStep_unloaded w algs input_path dataset fileNumber cur line st hdiv hl]
          exact ha
        | some img =>
          rw [fileStep_loaded w algs input_path dataset fileNumber cur line st img hdiv hl]
          refine algLoop_completes w img _ algs 0 _ ha ?_
          exact hsz (pathOf input_path dataset (deleteCarriageReturn line), img)
            (by simp [loadedOf, List.filterMap_cons, hl])
      · intro p hp
        refine hsz p ?_
        unfold loadedOf at hp ⊢
        rw [List.filterMap_cons]
        cases (getBinaryImage w.imread
            (pathOf input_path dataset (deleteCarriageReturn line))).map
            (fun img => (pathOf input_path dataset (deleteCarriageReturn line), img)) with
        | none => exact hp
        | some q => exact List.mem_cons_of_mem _ hp

theorem datasetLoop_completes (w : World) (algs : List (CCLPointer × Str))
    (input_path input_txt : Str) :
    ∀ (datasets : List Str) (st : CheckState), st.aborted = false →
      DivisionDefined w datasets input_path input_txt →
      SizeContract w algs (loadedImages w datasets input_path input_txt) →
      (datasetLoop w algs input_path input_txt datasets st).aborted = false
  | [], _, ha, _, _ => ha
  | d :: rest, st, ha, hd, hsz => by
    rw [datasetLoop]
    have hc : ¬ st.aborted = true := by simp [ha]
    rw [if_neg hc]
    have himgs : loadedImages w (d :: rest) input_path input_txt
        = (match w.openFile (pathOf input_path d input_txt) with
            | none => []
            | some content => loadedOf w input_path d (getlines content))
          ++ loadedImages w rest input_path input_txt := by
      simp [loadedImages, List.flatMap_cons]
    rw [himgs] at hsz
    refine datasetLoop_completes w algs input_path input_txt rest _ ?_
      (fun d2 hd2 => hd d2 (List.mem_cons_of_mem _ hd2))
      (fun p hp => hsz p (List.mem_append_right _ hp))
    unfold datasetStep
    simp only
    cases ho : w.openFile (pathOf input_path d input_txt) with
    | none => exact ha
    | some content =>
      rw [ho] at hsz
      exact fileLoop_completes w algs input_path d _ _ 0 st ha
        (hd d (List.mem_cons_self _ _) content ho)
        (fun p hp => hsz p (List.mem_append_left _ hp))

/-- A run reaches the report when the divisions of the progress display are defined and
every candidate writes, on every image that loads, a label image of the reference's
dimensions. -/
theorem checkAlgorithms_completes (w : World) (algs : List (CCLPointer × Str))
    (datasets : List Str) (input_path input_txt : Str)
    (hdiv : DivisionDefined w datasets input_path input_txt)
    (hsize : SizeContract w algs (loadedImages w datasets input_path input_txt)) :
    (checkAlgorithms w algs datasets input_path input_txt).aborted = false :=
  datasetLoop_completes w algs input_path input_txt datasets (initState algs) rfl hdiv hsize

/-- The exception of the comparison on a concrete run: the first candidate returns the
reference's number of labels and a 1x3 label image for the 2x2 image `a.png`, so
`compareMat` is evaluated on images of different sizes; the run ends after the call of
that candidate, the second candidate is never run and no report is printed.  With a wrong
number of labels the same label image is found to differ without any comparison. -/
theorem checkAlgorithms_size_exception :
    compareMat [[1, 2], [3, 4]] [[1, 2, 3]] = none ∧
    mismatchB demoWorld demoWide [[1, 0], [0, 1]] = none ∧
    mismatchB demoWorld demoShort [[1, 0], [0, 1]] = some true ∧
    (checkAlgorithms demoWorld demoAlgsWide ["d".toList] "in".toList
      "files.txt".toList).aborted = true ∧
    (checkAlgorithms demoWorld demoAlgsWide ["d".toList] "in".toList
      "files.txt".toList).trace
      = [Event.load demoA, Event.reference demoA, Event.run 0 demoA] ∧
    checkReport demoWorld demoAlgsWide ["d".toList] "in".toList "files.txt".toList
      = Report.aborted := by
  decide

/-! ## The report -/

theorem trialState_eq {D : Type} {a b : TrialState D} (h1 : a.present = b.present)
    (h2 : a.min_res = b.min_res) (h3 : a.current_res = b.current_res)
    (h4 : a.NULL_labeling = b.NULL_labeling) (h5 : a.trace = b.trace) : a = b := by
  cases a
  cases b
  simp only at h1 h2 h3 h4 h5
  subst h1 h2 h3 h4 h5
  rfl

theorem foldl_range_succ {α : Type} (f : α → Nat → α) (a : α) (n : Nat) :
    (List.range (n + 1)).foldl f a = f ((List.range n).foldl f a) n := by
  rw [List.range_succ, List.foldl_append]
  rfl

theorem setCell_self {D : Type} (M : Nat → Nat → D) (r c : Nat) :
    setCell M r c (M r c) = M := by
  funext r2 c2
  simp only [setCell]
  split
  · rename_i h
    rw [h.1, h.2]
  · rfl

/-- One algorithm: its time goes to `current_res` and the running minimum to `min_res`. -/
theorem timeAlgorithm_eq {D : Type} (ops : DoubleOps D) (w : TimingWorld D)
    (test file i : Nat) (st : TrialState D) :
    timeAlgorithm ops w test file i st =
      { present := st.present
        min_res := setCell st.min_res file i
          (keepMin ops (w.perfLast test file i) (st.min_res file i))
        current_res := setCell st.current_res file i (w.perfLast test file i)
        NULL_labeling := st.NULL_labeling
        trace := st.trace ++ [TEvent.run test file i] } := by
  unfold timeAlgorithm keepMin
  simp only
  by_cases hlt : ops.lt (w.perfLast test file i) (st.min_res file i) = true
  · rw [if_pos hlt, if_pos hlt]
  · rw [if_neg hlt, if_neg hlt, setCell_self]

/-- The loop over the algorithms updates the cells of row `file` for the algorithms
`0 .. nAlgs - 1` and appends their `run` events. -/
theorem timeAlgorithms_eq {D : Type} (ops : DoubleOps D) (w : TimingWorld D)
    (test file : Nat) (st : TrialState D) : ∀ (nAlgs : Nat),
    timeAlgorithms ops w nAlgs test file st =
      { present := st.present
        min_res := fun f j => if f = file ∧ j < nAlgs then
            keepMin ops (w.perfLast test file j) (st.min_res f j) else st.min_res f j
        current_res := fun f j => if f = file ∧ j < nAlgs then w.perfLast test file j
            else st.current_res f j
        NULL_labeling := st.NULL_labeling
        trace := st.trace ++ (List.range nAlgs).map (fun i => TEvent.run test file i) }
  | 0 => by
    apply trialState_eq <;> simp [timeAlgorithms]
  | n + 1 => by
    have ih := timeAlgorithms_eq ops w test file st n
    unfold timeAlgorithms at ih ⊢
    rw [foldl_range_succ, ih, timeAlgorithm_eq]
    apply trialState_eq
    · rfl
    · funext f j
      simp only [setCell]
      by_cases hf : f = file
      · by_cases hj : j = n
        · subst hf hj
          simp
        · have h1 : (j < n + 1) ↔ (j < n) := by omega
          simp [hf, hj, h1]
      · simp [hf]
    · funext f j
      simp only [setCell]
      by_cases hf : f = file
      · by_cases hj : j = n
        · simp [hf, hj]
        · have h1 : (j < n + 1) ↔ (j < n) := by omega
          simp [hf, hj, h1]
      · simp [hf]
    · rfl
    · simp [List.range_succ]

theorem setAt_eq {α : Type} (V : Nat → α) (k : Nat) (v : α) :
    setAt V k v = fun k2 => if k2 = k then v else V k2 := rfl

/-- One file of `averages_test`: the load is attempted; on success the row of the file
is updated, on failure the flag is cleared. -/
theorem avgFileStep_eq {D : Type} (ops : DoubleOps D) (w : TimingWorld D) (nAlgs : Nat)
    (input_path input_folder : Str) (names : List Str) (test file : Nat)
    (st : TrialState D) :
    avgFileStep ops w nAlgs input_path input_folder names test file st =
      { present := fun f => if f = file ∧
            loads w input_path input_folder names test file = false then false
          else st.present f
        min_res := fun f j => if f = file ∧ j < nAlgs ∧
            loads w input_path input_folder names test file = true then
            keepMin ops (w.perfLast test file j) (st.min_res f j) else st.min_res f j
        current_res := fun f j => if f = file ∧ j < nAlgs ∧
            loads w input_path input_folder names test file = true then
            w.perfLast test file j else st.current_res f j
        NULL_labeling := st.NULL_labeling
        trace := st.trace ++ avgFileEvents w nAlgs input_path input_folder names test file
          (st.present file) } := by
  unfold avgFileStep avgFileEvents loads
  simp only
  cases hl : loadOf w input_path input_folder names test file with
  | none =>
    simp only [markMissing, Option.isSome_none, Bool.false_eq_true, and_false, if_false,
      and_true]
    by_cases hp : st.present file = true
    · simp only [hp, if_true]
      apply trialState_eq
      · funext f
        simp [setAt]
      · rfl
      · rfl
      · rfl
      · simp
    · simp only [hp, if_false]
      apply trialState_eq
      · funext f
        simp [setAt]
      · rfl
      · rfl
      · rfl
      · simp
  | some img =>
    simp only [timeAlgorithms_eq, Option.isSome_some, and_true, if_true]
    apply trialState_eq
    · funext f
      simp
    · rfl
    · rfl
    · rfl
    · simp

/-- One file of `density_size_test`: as in `averages_test`, with the running minimum of
the null labeling. -/
theorem dsFileStep_eq {D : Type} (ops : DoubleOps D) (w : TimingWorld D) (nAlgs : Nat)
    (input_path input_folder : Str) (names : List Str) (test file : Nat)
    (st : TrialState D) :
    dsFileStep ops w nAlgs input_path input_folder names test file st =
      { present := fun f => if f = file ∧
            loads w input_path input_folder names test file = false then false
          else st.present f
        min_res := fun f j => if f = file ∧ j < nAlgs ∧
            loads w input_path input_folder names test file = true then
            keepMin ops (w.perfLast test file j) (st.min_res f j) else st.min_res f j
        current_res := fun f j => if f = file ∧ j < nAlgs ∧
            loads w input_path input_folder names test file = true then
            w.perfLast test file j else st.current_res f j
        NULL_labeling := fun f => if f = file ∧
            loads w input_path input_folder names test file = true then
            keepMin ops (w.nullLast test file) (st.NULL_labeling f) else st.NULL_labeling f
        trace := st.trace ++ dsFileEvents w nAlgs input_path input_folder names test file
          (st.present file) } := by
  unfold dsFileStep dsFileEvents loads
  simp only
  cases hl : loadOf w input_path input_folder names test file with
  | none =>
    simp only [markMissing, Option.isSome_none, Bool.false_eq_true, and_false, if_false,
      and_true]
    by_cases hp : st.present file = true
    · simp only [hp, if_true]
      apply trialState_eq
      · funext f
        simp [setAt]
      · rfl
      · rfl
      · rfl
      · simp
    · simp only [hp, if_false]
      apply trialState_eq
      · funext f
        simp [setAt]
      · rfl
      · rfl
      · rfl
      · simp
  | some img =>
    simp only [timeAlgorithms_eq, Option.isSome_some, and_true, if_true]
    unfold timeNull keepMin
    simp only
    by_cases hlt : ops.lt (w.nullLast test file) (st.NULL_labeling file) = true
    · simp only [hlt, if_true]
      apply trialState_eq
      · funext f
        simp
      · rfl
      · rfl
      · funext f
        simp only [setAt]
        by_cases hf : f = file
        · subst hf
          simp [hlt]
        · simp [hf]
      · simp
    · simp only [hlt, if_false]
      apply trialState_eq
      · funext f
        simp
      · rfl
      · rfl
      · funext f
        by_cases hf : f = file
        · subst hf
          simp [hlt]
        · simp [hf]
      · simp

/-- The loop over the first `n` files of one trial of `averages_test`. -/
theorem avgFiles_eq {D : Type} (ops : DoubleOps D) (w : TimingWorld D) (nAlgs : Nat)
    (input_path input_folder : Str) (names : List Str) (test : Nat)
    (st : TrialState D) : ∀ (n : Nat),
    (List.range n).foldl
        (fun s file => avgFileStep ops w nAlgs input_path input_folder names test file s) st =
      { present := fun f => if f < n ∧
            loads w input_path input_folder names test f = false then false
          else st.present f
        min_res := fun f j => if f < n ∧ j < nAlgs ∧
            loads w input_path input_folder names test f = true then
            keepMin ops (w.perfLast test f j) (st.min_res f j) else st.min_res f j
        current_res := fun f j => if f < n ∧ j < nAlgs ∧
            loads w input_path input_folder names test f = true then
            w.perfLast test f j else st.current_res f j
        NULL_labeling := st.NULL_labeling
        trace := st.trace ++ (List.range n).flatMap (fun f =>
          avgFileEvents w nAlgs input_path input_folder names test f (st.present f)) }
  | 0 => by
    apply trialState_eq <;> simp
  | n + 1 => by
    rw [foldl_range_succ, avgFiles_eq ops w nAlgs input_path input_folder names test st n,
      avgFileStep_eq]
    apply trialState_eq
    · funext f
      simp only
      by_cases hf : f = n
      · subst hf
        simp
      · have h1 : (f < n + 1) ↔ (f < n) := by omega
        simp [hf, h1]
    · funext f j
      simp only
      by_cases hf : f = n
      · subst hf
        simp
      · have h1 : (f < n + 1) ↔ (f < n) := by omega
        simp [hf, h1]
    · funext f j
      simp only
      by_cases hf : f = n
      · subst hf
        simp
      · have h1 : (f < n + 1) ↔ (f < n) := by omega
        simp [hf, h1]
    · rfl
    · simp [List.range_succ, List.flatMap_append]

/-- The loop over the first `n` files of one trial of `density_size_test`. -/
theorem dsFiles_eq {D : Type} (ops : DoubleOps D) (w : TimingWorld D) (nAlgs : Nat)
    (input_path input_folder : Str) (names : List Str) (test : Nat)
    (st : TrialState D) : ∀ (n : Nat),
    (List.range n).foldl
        (fun s file => dsFileStep ops w nAlgs input_path input_folder names test file s) st =
      { present := fun f => if f < n ∧
            loads w input_path input_folder names test f = false then false
          else st.present f
        min_res := fun f j => if f < n ∧ j < nAlgs ∧
            loads w input_path input_folder names test f = true then
            keepMin ops (w.perfLast test f j) (st.min_res f j) else st.min_res f j
        current_res := fun f j => if f < n ∧ j < nAlgs ∧
            loads w input_path input_folder names test f = true then
            w.perfLast test f j else st.current_res f j
        NULL_labeling := fun f => if f < n ∧
            loads w input_path input_folder names test f = true then
            keepMin ops (w.nullLast test f) (st.NULL_labeling f) else st.NULL_labeling f
        trace := st.trace ++ (List.range n).flatMap (fun f =>
          dsFileEvents w nAlgs input_path input_folder names test f (st.present f)) }
  | 0 => by
    apply trialState_eq <;> simp
  | n + 1 => by
    rw [foldl_range_succ, dsFiles_eq ops w nAlgs input_path input_folder names test st n,
      dsFileStep_eq]
    apply trialState_eq
    · funext f
      simp only
      by_cases hf : f = n
      · subst hf
        simp
      · have h1 : (f < n + 1) ↔ (f < n) := by omega
        simp [hf, h1]
    · funext f j
      simp only
      by_cases hf : f = n
      · subst hf
        simp
      · have h1 : (f < n + 1) ↔ (f < n) := by omega
        simp [hf, h1]
    · funext f j
      simp only
      by_cases hf : f = n
      · subst hf
        simp
      · have h1 : (f < n + 1) ↔ (f < n) := by omega
        simp [hf, h1]
    · funext f
      simp only
      by_cases hf : f = n
      · subst hf
        simp
      · have h1 : (f < n + 1) ↔ (f < n) := by omega
        simp [hf, h1]
    · simp [List.range_succ, List.flatMap_append]

theorem loadsAlways_succ {D : Type} (w : TimingWorld D) (input_path input_folder : Str)
    (names : List Str) (n file : Nat) :
    loadsAlways w input_path input_folder names (n + 1) file =
      (loadsAlways w input_path input_folder names n file &&
        loads w input_path input_folder names n file) := by
  simp [loadsAlways, List.range_succ, List.all_append]

theorem loadsAlways_iff {D : Type} (w : TimingWorld D) (input_path input_folder : Str)
    (names : List Str) (n file : Nat) :
    loadsAlways w input_path input_folder names n file = true ↔
      ∀ t, t < n → loads w input_path input_folder names t file = true := by
  simp [loadsAlways, List.all_eq_true]

theorem minOverTrials_succ {D : Type} (ops : DoubleOps D) (loaded : Nat → Bool)
    (time : Nat → D) (n : Nat) :
    minOverTrials ops loaded time (n + 1) =
      if loaded n then keepMin ops (time n) (minOverTrials ops loaded time n)
      else minOverTrials ops loaded time n := by
  simp only [minOverTrials, foldl_range_succ]

theorem lastOverTrials_succ {D : Type} (ops : DoubleOps D) (loaded : Nat → Bool)
    (time : Nat → D) (n : Nat) :
    lastOverTrials ops loaded time (n + 1) =
      if loaded n then time n else lastOverTrials ops loaded time n := by
  simp only [lastOverTrials, foldl_range_succ]

theorem flatMap_range_congr {α : Type} (n : Nat) (f g : Nat → List α)
    (h : ∀ k, k < n → f k = g k) :
    (List.range n).flatMap f = (List.range n).flatMap g := by
  induction n with
  | zero => rfl
  | succ n ih =>
    rw [List.range_succ, List.flatMap_append, List.flatMap_append,
      ih (fun k hk => h k (Nat.lt_succ_of_lt hk))]
    simp [h n (Nat.lt_succ_self n)]

/-- The variables of `averages_test` after `n` trials, in the vocabulary of the
specification. -/
theorem avgTrials_eq {D : Type} (ops : DoubleOps D) (w : TimingWorld D) (nAlgs : Nat)
    (input_path input_folder : Str) (names : List Str) : ∀ (n : Nat),
    avgTrials ops w nAlgs input_path input_folder names n =
      { present := fun f => if f < names.length then
            loadsAlways w input_path input_folder names n f else true
        min_res := fun f j => if f < names.length ∧ j < nAlgs then
            minOverTrials ops (fun t => loads w input_path input_folder names t f)
              (fun t => w.perfLast t f j) n
          else ops.dblMax
        current_res := fun f j => if f < names.length ∧ j < nAlgs then
            lastOverTrials ops (fun t => loads w input_path input_folder names t f)
              (fun t => w.perfLast t f j) n
          else ops.dblMax
        NULL_labeling := fun _ => ops.dblMax
        trace := avgEvents w nAlgs input_path input_folder names n }
  | 0 => by
    apply trialState_eq <;>
      simp [avgTrials, initTrialState, loadsAlways, minOverTrials, lastOverTrials, avgEvents]
  | n + 1 => by
    have ih := avgTrials_eq ops w nAlgs input_path input_folder names n
    have hstep : avgTrials ops w nAlgs input_path input_folder names (n + 1) =
        avgTrial ops w nAlgs input_path input_folder names n
          (avgTrials ops w nAlgs input_path input_folder names n) := by
      simp only [avgTrials, foldl_range_succ]
    rw [hstep, ih]
    simp only [avgTrial]
    rw [avgFiles_eq]
    apply trialState_eq
    · funext f
      simp only [loadsAlways_succ]
      by_cases hf : f < names.length
      · cases loads w input_path input_folder names n f <;> simp [hf]
      · simp [hf]
    · funext f j
      simp only [minOverTrials_succ]
      by_cases hf : f < names.length
      · by_cases hj : j < nAlgs
        · cases loads w input_path input_folder names n f <;> simp [hf, hj]
        · simp [hf, hj]
      · simp [hf]
    · funext f j
      simp only [lastOverTrials_succ]
      by_cases hf : f < names.length
      · by_cases hj : j < nAlgs
        · cases loads w input_path input_folder names n f <;> simp [hf, hj]
        · simp [hf, hj]
      · simp [hf]
    · rfl
    · simp only [avgEvents, List.range_succ, List.flatMap_append, List.flatMap_cons,
        List.flatMap_nil, List.append_nil]
      congr 1
      apply flatMap_range_congr
      intro k hk
      simp only [List.length_range] at *
      simp [hk]

/-- The variables of `density_size_test` after `n` trials, in the vocabulary of the
specification. -/
theorem dsTrials_eq {D : Type} (ops : DoubleOps D) (w : TimingWorld D) (nAlgs : Nat)
    (input_path input_folder : Str) (names : List Str) : ∀ (n : Nat),
    dsTrials ops w nAlgs input_path input_folder names n =
      { present := fun f => if f < names.length then
            loadsAlways w input_path input_folder names n f else true
        min_res := fun f j => if f < names.length ∧ j < nAlgs then
            minOverTrials ops (fun t => loads w input_path input_folder names t f)
              (fun t => w.perfLast t f j) n
          else ops.dblMax
        current_res := fun f j => if f < names.length ∧ j < nAlgs then
            lastOverTrials ops (fun t => loads w input_path input_folder names t f)
              (fun t => w.perfLast t f j) n
          else ops.dblMax
        NULL_labeling := fun f => if f < names.length then
            minOverTrials ops (fun t => loads w input_path input_folder names t f)
              (fun t => w.nullLast t f) n
          else ops.dblMax
        trace := dsEvents w nAlgs input_path input_folder names n }
  | 0 => by
    apply trialState_eq <;>
      simp [dsTrials, initTrialState, loadsAlways, minOverTrials, lastOverTrials, dsEvents]
  | n + 1 => by
    have ih := dsTrials_eq ops w nAlgs input_path input_folder names n
    have hstep : dsTrials ops w nAlgs input_path input_folder names (n + 1) =
        dsTrial ops w nAlgs input_path input_folder names n
          (dsTrials ops w nAlgs input_path input_folder names n) := by
      simp only [dsTrials, foldl_range_succ]
    rw [hstep, ih]
    simp only [dsTrial]
    rw [dsFiles_eq]
    apply trialState_eq
    · funext f
      simp only [loadsAlways_succ]
      by_cases hf : f < names.length
      · cases loads w input_path input_folder names n f <;> simp [hf]
      · simp [hf]
    · funext f j
      simp only [minOverTrials_succ]
      by_cases hf : f < names.length
      · by_cases hj : j < nAlgs
        · cases loads w input_path input_folder names n f <;> simp [hf, hj]
        · simp [hf, hj]
      · simp [hf]
    · funext f j
      simp only [lastOverTrials_succ]
      by_cases hf : f < names.length
      · by_cases hj : j < nAlgs
        · cases loads w input_path input_folder names n f <;> simp [hf, hj]
        · simp [hf, hj]
      · simp [hf]
    · funext f
      simp only [minOverTrials_succ]
      by_cases hf : f < names.length
      · cases loads w input_path input_folder names n f <;> simp [hf]
      · simp [hf]
    · simp only [dsEvents, List.range_succ, List.flatMap_append, List.flatMap_cons,
        List.flatMap_nil, List.append_nil]
      congr 1
      apply flatMap_range_congr
      intro k hk
      simp only [List.length_range] at *
      simp [hk]

/-! ## The running minimum -/

/-- No time of a trial in which the file loaded is below the running minimum. -/
theorem minOverTrials_not_lt {D : Type} (ops : DoubleOps D) (hord : StrictOrder ops)
    (loaded : Nat → Bool) (time : Nat → D) : ∀ (n t : Nat), t < n → loaded t = true →
    ops.lt (time t) (minOverTrials ops loaded time n) = false
  | 0, t, ht, _ => absurd ht (Nat.not_lt_zero t)
  | n + 1, t, ht, hl => by
    have ih := minOverTrials_not_lt ops hord loaded time n
    rw [minOverTrials_succ]
    by_cases hn : loaded n = true
    · simp only [hn, if_true, keepMin]
      by_cases hlt : ops.lt (time n) (minOverTrials ops loaded time n) = true
      · simp only [hlt, if_true]
        by_cases htn : t = n
        · subst htn
          exact hord.1 _
        · have h1 : t < n := by omega
          cases hc : ops.lt (time t) (time n)
          · rfl
          · have h2 := hord.2 _ _ _ hc hlt
            rw [ih t h1 hl] at h2
            exact absurd h2 (by simp)
      · simp only [hlt]
        by_cases htn : t = n
        · subst htn
          simpa using hlt
        · have h1 : t < n := by omega
          simpa using ih t h1 hl
    · simp only [hn]
      have htn : t ≠ n := by
        intro h
        subst h
        exact hn hl
      have h1 : t < n := by omega
      simpa using ih t h1 hl

/-- The running minimum is the marker while the file has not loaded, and afterwards the
time of one of the trials in which it loaded. -/
theorem minOverTrials_cases {D : Type} (ops : DoubleOps D)
    (loaded : Nat → Bool) (time : Nat → D) : ∀ (n : Nat),
    (∀ t, t < n → loaded t = true → ops.lt (time t) ops.dblMax = true) →
    (minOverTrials ops loaded time n = ops.dblMax ∧ ∀ t, t < n → loaded t = false) ∨
      (∃ t, t < n ∧ loaded t = true ∧ minOverTrials ops loaded time n = time t)
  | 0, _ => Or.inl ⟨rfl, fun t ht => absurd ht (Nat.not_lt_zero t)⟩
  | n + 1, hb => by
    have ih := minOverTrials_cases ops loaded time n
      (fun t ht hl => hb t (Nat.lt_succ_of_lt ht) hl)
    rw [minOverTrials_succ]
    by_cases hn : loaded n = true
    · right
      simp only [hn, if_true, keepMin]
      by_cases hlt : ops.lt (time n) (minOverTrials ops loaded time n) = true
      · exact ⟨n, Nat.lt_succ_self n, hn, by simp [hlt]⟩
      · simp only [hlt]
        rcases ih with ⟨hm, _⟩ | ⟨t, ht, hl, hm⟩
        · rw [hm] at hlt
          exact absurd (hb n (Nat.lt_succ_self n) hn) hlt
        · exact ⟨t, Nat.lt_succ_of_lt ht, hl, by simpa using hm⟩
    · simp only [hn]
      rcases ih with ⟨hm, hno⟩ | ⟨t, ht, hl, hm⟩
      · left
        refine ⟨by simpa using hm, ?_⟩
        intro t ht
        by_cases htn : t = n
        · subst htn
          simpa using hn
        · exact hno t (by omega)
      · right
        exact ⟨t, Nat.lt_succ_of_lt ht, hl, by simpa using hm⟩

/-- The last time is the time of the last trial when the file loaded in it. -/
theorem lastOverTrials_loaded {D : Type} (ops : DoubleOps D)
    (loaded : Nat → Bool) (time : Nat → D) (n : Nat) (h : loaded n = true) :
    lastOverTrials ops loaded time (n + 1) = time n := by
  rw [lastOverTrials_succ]
  simp [h]

/-- The comparison of the example arithmetic is a strict order. -/
theorem microOps_strictOrder : StrictOrder microOps := by
  constructor
  · intro a
    cases a <;> simp [microOps]
  · intro a b c
    cases a <;> cases b <;> cases c <;> simp [microOps]
    intro h1 h2
    omega

/-! ## Claims on the trial loops -/

/-- For a cell whose file loads in every trial and whose times are below the marker: the
running minimum is the time of one of the trials, no time is below it, and the last time
after trial `t` is the time of trial `t`. -/
theorem running_min_facts {D : Type} (ops : DoubleOps D) (hord : StrictOrder ops)
    (loaded : Nat → Bool) (time : Nat → D) (n : Nat)
    (hload : ∀ t, t < n → loaded t = true)
    (hbelow : ∀ t, t < n → ops.lt (time t) ops.dblMax = true) :
    (0 < n → ∃ t, t < n ∧ minOverTrials ops loaded time n = time t) ∧
    (∀ t, t < n → lastOverTrials ops loaded time (t + 1) = time t ∧
      ops.lt (lastOverTrials ops loaded time (t + 1))
        (minOverTrials ops loaded time n) = false) := by
  constructor
  · intro hn
    rcases minOverTrials_cases ops loaded time n (fun t ht _ => hbelow t ht) with
      ⟨_, hno⟩ | ⟨t, ht, _, hm⟩
    · have h1 := hno 0 hn
      rw [hload 0 hn] at h1
      exact absurd h1 (by simp)
    · exact ⟨t, ht, hm⟩
  · intro t ht
    rw [lastOverTrials_loaded ops loaded time t (hload t ht)]
    exact ⟨rfl, minOverTrials_not_lt ops hord loaded time n t ht (hload t ht)⟩

/-- C11: in `averages_test` and in `density_size_test`, for a cell `(f, i)` of a file that
loads in all `nTest` trials, the times being below the not-available marker `dblMax` and
`<` being a strict order: after the `nTest` trials `min_res(f, i)` is the time recorded in
one of the trials and no recorded time is below it; the value of `current_res(f, i)`
after trial `t` is the time of trial `t`, so `min_res(f, i)` is less than or equal to
each of them. -/
theorem trials_min_res_is_minimum {D : Type} (ops : DoubleOps D) (w : TimingWorld D)
    (nAlgs : Nat) (input_path input_folder : Str) (names : List Str) (nTest f i : Nat)
    (hord : StrictOrder ops) (hf : f < names.length) (hi : i < nAlgs)
    (hload : ∀ t, t < nTest → loads w input_path input_folder names t f = true)
    (hbelow : ∀ t, t < nTest → ops.lt (w.perfLast t f i) ops.dblMax = true) :
    ((0 < nTest → ∃ t, t < nTest ∧
        (avgTrials ops w nAlgs input_path input_folder names nTest).min_res f i
          = w.perfLast t f i) ∧
      (∀ t, t < nTest →
        (avgTrials ops w nAlgs input_path input_folder names (t + 1)).current_res f i
          = w.perfLast t f i ∧
        ops.lt ((avgTrials ops w nAlgs input_path input_folder names (t + 1)).current_res f i)
          ((avgTrials ops w nAlgs input_path input_folder names nTest).min_res f i)
          = false)) ∧
    ((0 < nTest → ∃ t, t < nTest ∧
        (dsTrials ops w nAlgs input_path input_folder names nTest).min_res f i
          = w.perfLast t f i) ∧
      (∀ t, t < nTest →
        (dsTrials ops w nAlgs input_path input_folder names (t + 1)).current_res f i
          = w.perfLast t f i ∧
        ops.lt ((dsTrials ops w nAlgs input_path input_folder names (t + 1)).current_res f i)
          ((dsTrials ops w nAlgs input_path input_folder names nTest).min_res f i)
          = false)) := by
  have h := running_min_facts ops hord
    (fun t => loads w input_path input_folder names t f) (fun t => w.perfLast t f i) nTest
    hload hbelow
  simp only [avgTrials_eq, dsTrials_eq, hf, hi, and_self, if_true]
  exact h

/-- Witness for C11: in the example run of three trials the first algorithm takes 50, 42
and 48 microseconds on `a.png`; the minimum kept is 42, the time of the second trial. -/
theorem trials_min_res_is_minimum_witness :
    (avgTrials microOps demoTiming 2 "in".toList "d".toList demoNames 3).min_res 0 0
      = some 42 ∧
    (dsTrials microOps demoTiming 2 "in".toList "d".toList demoNames 3).min_res 0 0
      = some 42 ∧
    ∀ t, t < 3 →
      (avgTrials microOps demoTiming 2 "in".toList "d".toList demoNames (t + 1)).current_res
          0 0 = demoTiming.perfLast t 0 0 ∧
      microOps.lt
        ((avgTrials microOps demoTiming 2 "in".toList "d".toList demoNames
          (t + 1)).current_res 0 0)
        ((avgTrials microOps demoTiming 2 "in".toList "d".toList demoNames 3).min_res 0 0)
        = false :=
  ⟨by decide, by decide,
   (trials_min_res_is_minimum microOps demoTiming 2 "in".toList "d".toList demoNames 3 0 0
      microOps_strictOrder (by decide) (by decide) (by decide) (by decide)).1.2⟩

/-! ## The events of the trial loops -/

theorem mem_avgFileEvents {D : Type} (w : TimingWorld D) (nAlgs : Nat)
    (input_path input_folder : Str) (names : List Str) (t f : Nat) (flag : Bool)
    (e : TEvent) :
    e ∈ avgFileEvents w nAlgs input_path input_folder names t f flag ↔
      e = TEvent.load t f ∨
      (loads w input_path input_folder names t f = true ∧
        (∃ i, i < nAlgs ∧ e = TEvent.run t f i)) ∨
      (loads w input_path input_folder names t f = false ∧ flag = true ∧
        e = TEvent.missing t f) := by
  unfold avgFileEvents
  cases hl : loads w input_path input_folder names t f <;> cases flag <;>
    simp [eq_comm]

theorem mem_avgEvents {D : Type} (w : TimingWorld D) (nAlgs : Nat)
    (input_path input_folder : Str) (names : List Str) (n : Nat) (e : TEvent) :
    e ∈ avgEvents w nAlgs input_path input_folder names n ↔
      ∃ t, t < n ∧ ∃ f, f < names.length ∧
        (e = TEvent.load t f ∨
        (loads w input_path input_folder names t f = true ∧
          (∃ i, i < nAlgs ∧ e = TEvent.run t f i)) ∨
        (loads w input_path input_folder names t f = false ∧
          loadsAlways w input_path input_folder names t f = true ∧
          e = TEvent.missing t f)) := by
  simp only [avgEvents, List.mem_flatMap, List.mem_range, mem_avgFileEvents]

theorem mem_dsFileEvents {D : Type} (w : TimingWorld D) (nAlgs : Nat)
    (input_path input_folder : Str) (names : List Str) (t f : Nat) (flag : Bool)
    (e : TEvent) :
    e ∈ dsFileEvents w nAlgs input_path input_folder names t f flag ↔
      e = TEvent.load t f ∨
      (loads w input_path input_folder names t f = true ∧
        (e = TEvent.null t f ∨ ∃ i, i < nAlgs ∧ e = TEvent.run t f i)) ∨
      (loads w input_path input_folder names t f = false ∧ flag = true ∧
        e = TEvent.missing t f) := by
  unfold dsFileEvents
  cases hl : loads w input_path input_folder names t f <;> cases flag <;>
    simp [eq_comm]

theorem mem_dsEvents {D : Type} (w : TimingWorld D) (nAlgs : Nat)
    (input_path input_folder : Str) (names : List Str) (n : Nat) (e : TEvent) :
    e ∈ dsEvents w nAlgs input_path input_folder names n ↔
      ∃ t, t < n ∧ ∃ f, f < names.length ∧
        (e = TEvent.load t f ∨
        (loads w input_path input_folder names t f = true ∧
          (e = TEvent.null t f ∨ ∃ i, i < nAlgs ∧ e = TEvent.run t f i)) ∨
        (loads w input_path input_folder names t f = false ∧
          loadsAlways w input_path input_folder names t f = true ∧
          e = TEvent.missing t f)) := by
  simp only [dsEvents, List.mem_flatMap, List.mem_range, mem_dsFileEvents]

theorem avgTrials_events {D : Type} (ops : DoubleOps D) (w : TimingWorld D) (nAlgs : Nat)
    (input_path input_folder : Str) (names : List Str) (nTest : Nat) :
    RetriedEveryTrial w nAlgs input_path input_folder names nTest
      (avgTrials ops w nAlgs input_path input_folder names nTest).present
      (avgTrials ops w nAlgs input_path input_folder names nTest).trace := by
  rw [avgTrials_eq]
  refine ⟨?_, ?_, ?_, ?_⟩
  · intro t f
    simp only [mem_avgEvents]
    constructor
    · rintro ⟨t2, ht2, f2, hf2, h | ⟨_, h⟩ | ⟨_, _, h⟩⟩
      · cases h
        exact ⟨ht2, hf2⟩
      · obtain ⟨i, _, h⟩ := h
        cases h
      · cases h
    · rintro ⟨ht, hf⟩
      exact ⟨t, ht, f, hf, Or.inl rfl⟩
  · intro t f i
    simp only [mem_avgEvents]
    constructor
    · rintro ⟨t2, ht2, f2, hf2, h | ⟨hl, h⟩ | ⟨_, _, h⟩⟩
      · cases h
      · obtain ⟨i2, hi2, h⟩ := h
        cases h
        exact ⟨ht2, hf2, hi2, hl⟩
      · cases h
    · rintro ⟨ht, hf, hi, hl⟩
      exact ⟨t, ht, f, hf, Or.inr (Or.inl ⟨hl, i, hi, rfl⟩)⟩
  · intro t f
    simp only [mem_avgEvents]
    constructor
    · rintro ⟨t2, ht2, f2, hf2, h | ⟨_, h⟩ | ⟨hl, ha, h⟩⟩
      · cases h
      · obtain ⟨i, _, h⟩ := h
        cases h
      · cases h
        exact ⟨ht2, hf2, hl, (loadsAlways_iff w input_path input_folder names t f).1 ha⟩
    · rintro ⟨ht, hf, hl, ha⟩
      exact ⟨t, ht, f, hf, Or.inr (Or.inr
        ⟨hl, (loadsAlways_iff w input_path input_folder names t f).2 ha, rfl⟩)⟩
  · intro f hf
    simp only [hf, if_true]
    exact loadsAlways_iff w input_path input_folder names nTest f

theorem dsTrials_events {D : Type} (ops : DoubleOps D) (w : TimingWorld D) (nAlgs : Nat)
    (input_path input_folder : Str) (names : List Str) (nTest : Nat) :
    RetriedEveryTrial w nAlgs input_path input_folder names nTest
      (dsTrials ops w nAlgs input_path input_folder names nTest).present
      (dsTrials ops w nAlgs input_path input_folder names nTest).trace := by
  rw [dsTrials_eq]
  refine ⟨?_, ?_, ?_, ?_⟩
  · intro t f
    simp only [mem_dsEvents]
    constructor
    · rintro ⟨t2, ht2, f2, hf2, h | ⟨_, h⟩ | ⟨_, _, h⟩⟩
      · cases h
        exact ⟨ht2, hf2⟩
      · rcases h with h | ⟨i, _, h⟩
        · cases h
        · cases h
      · cases h
    · rintro ⟨ht, hf⟩
      exact ⟨t, ht, f, hf, Or.inl rfl⟩
  · intro t f i
    simp only [mem_dsEvents]
    constructor
    · rintro ⟨t2, ht2, f2, hf2, h | ⟨hl, h⟩ | ⟨_, _, h⟩⟩
      · cases h
      · rcases h with h | ⟨i2, hi2, h⟩
        · cases h
        · cases h
          exact ⟨ht2, hf2, hi2, hl⟩
      · cases h
    · rintro ⟨ht, hf, hi, hl⟩
      exact ⟨t, ht, f, hf, Or.inr (Or.inl ⟨hl, Or.inr ⟨i, hi, rfl⟩⟩)⟩
  · intro t f
    simp only [mem_dsEvents]
    constructor
    · rintro ⟨t2, ht2, f2, hf2, h | ⟨_, h⟩ | ⟨hl, ha, h⟩⟩
      · cases h
      · rcases h with h | ⟨i, _, h⟩
        · cases h
        · cases h
      · cases h
        exact ⟨ht2, hf2, hl, (loadsAlways_iff w input_path input_folder names t f).1 ha⟩
    · rintro ⟨ht, hf, hl, ha⟩
      exact ⟨t, ht, f, hf, Or.inr (Or.inr
        ⟨hl, (loadsAlways_iff w input_path input_folder names t f).2 ha, rfl⟩)⟩
  · intro f hf
    simp only [hf, if_true]
    exact loadsAlways_iff w input_path input_folder names nTest f

/-- The null labeling is run on a file in exactly the trials in which its load
succeeds. -/
theorem dsTrials_null_events {D : Type} (ops : DoubleOps D) (w : TimingWorld D)
    (nAlgs : Nat) (input_path input_folder : Str) (names : List Str) (nTest : Nat)
    (t f : Nat) :
    TEvent.null t f ∈ (dsTrials ops w nAlgs input_path input_folder names nTest).trace ↔
      t < nTest ∧ f < names.length ∧ loads w input_path input_folder names t f = true := by
  rw [dsTrials_eq]
  simp only [mem_dsEvents]
  constructor
  · rintro ⟨t2, ht2, f2, hf2, h | ⟨hl, h⟩ | ⟨_, _, h⟩⟩
    · cases h
    · rcases h with h | ⟨i, _, h⟩
      · cases h
        exact ⟨ht2, hf2, hl⟩
      · cases h
    · cases h
  · rintro ⟨ht, hf, hl⟩
    exact ⟨t, ht, f, hf, Or.inr (Or.inl ⟨hl, Or.inl rfl⟩)⟩

/-- C12, as stated, fails: in the example run `zz.png` (file 2) does not load in the first
trial, yet its load is attempted again in the second; `late.png` (file 1) does not load in
the first trial either, its load is attempted again in the second and, as it succeeds, the
algorithms are run on it; so in `averages_test` and in `density_size_test`. -/
theorem trials_retry_every_trial_counterexample :
    loads demoTiming "in".toList "d".toList demoNames 0 2 = false ∧
    TEvent.load 1 2 ∈
      (avgTrials microOps demoTiming 2 "in".toList "d".toList demoNames 2).trace ∧
    TEvent.load 1 2 ∈
      (dsTrials microOps demoTiming 2 "in".toList "d".toList demoNames 2).trace ∧
    loads demoTiming "in".toList "d".toList demoNames 0 1 = false ∧
    TEvent.load 1 1 ∈
      (avgTrials microOps demoTiming 2 "in".toList "d".toList demoNames 2).trace ∧
    TEvent.run 1 1 0 ∈
      (avgTrials microOps demoTiming 2 "in".toList "d".toList demoNames 2).trace ∧
    TEvent.load 1 1 ∈
      (dsTrials microOps demoTiming 2 "in".toList "d".toList demoNames 2).trace ∧
    TEvent.run 1 1 0 ∈
      (dsTrials microOps demoTiming 2 "in".toList "d".toList demoNames 2).trace := by
  decide

/-- C12, amended: in the trial loops of `averages_test` and `density_size_test` the load
of every file is attempted in every trial, whether or not it failed before; the
algorithms (and in `density_size_test` the null labeling) are run on a file in exactly
the trials in which its load succeeds; the message that the file does not exist is
printed in the first trial in which the load fails and in no later one; and the present
flag of a file is still set after the trials exactly when all its loads succeeded. -/
theorem trials_retry_every_trial {D : Type} (ops : DoubleOps D) (w : TimingWorld D)
    (nAlgs : Nat) (input_path input_folder : Str) (names : List Str) (nTest : Nat) :
    RetriedEveryTrial w nAlgs input_path input_folder names nTest
      (avgTrials ops w nAlgs input_path input_folder names nTest).present
      (avgTrials ops w nAlgs input_path input_folder names nTest).trace ∧
    RetriedEveryTrial w nAlgs input_path input_folder names nTest
      (dsTrials ops w nAlgs input_path input_folder names nTest).present
      (dsTrials ops w nAlgs input_path input_folder names nTest).trace ∧
    ∀ t f, TEvent.null t f ∈
        (dsTrials ops w nAlgs input_path input_folder names nTest).trace ↔
      t < nTest ∧ f < names.length ∧ loads w input_path input_folder names t f = true :=
  ⟨avgTrials_events ops w nAlgs input_path input_folder names nTest,
   dsTrials_events ops w nAlgs input_path input_folder names nTest,
   dsTrials_null_events ops w nAlgs input_path input_folder names nTest⟩

/-! ## The averages of `averages_test` -/

theorem suppRow_eq {D : Type} [DecidableEq D] (ops : DoubleOps D) (M : Nat → Nat → D)
    (r : Nat) (supp : Nat → D × Nat) : ∀ (cols : Nat),
    (List.range cols).foldl (fun s c => setAt s c (addCell ops (M r c) (s c))) supp =
      fun c => if c < cols then addCell ops (M r c) (supp c) else supp c
  | 0 => by simp
  | n + 1 => by
    rw [foldl_range_succ, suppRow_eq ops M r supp n]
    funext c
    simp only [setAt]
    by_cases hc : c = n
    · subst hc
      simp
    · have h1 : (c < n + 1) ↔ (c < n) := by omega
      simp [hc, h1]

theorem suppAverages_eq {D : Type} [DecidableEq D] (ops : DoubleOps D) (M : Nat → Nat → D)
    (cols : Nat) : ∀ (rows : Nat),
    suppAverages ops M rows cols =
      fun c => if c < cols then
          (List.range rows).foldl (fun s r => addCell ops (M r c) s) (ops.zero, 0)
        else (ops.zero, 0)
  | 0 => by simp [suppAverages]
  | n + 1 => by
    have ih := suppAverages_eq ops M cols n
    simp only [suppAverages] at ih ⊢
    rw [foldl_range_succ, ih, suppRow_eq]
    funext c
    by_cases hc : c < cols
    · simp [hc, foldl_range_succ]
    · simp [hc]

theorem colFold_eq {D : Type} [DecidableEq D] (ops : DoubleOps D) (M : Nat → Nat → D)
    (c : Nat) : ∀ (rows : Nat),
    (List.range rows).foldl (fun s r => addCell ops (M r c) s) (ops.zero, 0) =
      (sumOfRows ops M c (availableRows ops M rows c),
        (availableRows ops M rows c).length % 65536)
  | 0 => by simp [sumOfRows, availableRows]
  | n + 1 => by
    rw [foldl_range_succ, colFold_eq ops M c n]
    by_cases h : M n c = ops.dblMax
    · simp [addCell, availableRows, List.range_succ, List.filter_append, h]
    · simp [addCell, availableRows, sumOfRows, List.range_succ, List.filter_append, h,
        List.foldl_append]

theorem setCell_fold_eq {D : Type} (a0 : Nat → Nat → D) (p : Nat) (g : Nat → D) :
    ∀ (n : Nat), (List.range n).foldl (fun a i => setCell a p i (g i)) a0 =
      fun r c => if r = p ∧ c < n then g c else a0 r c
  | 0 => by simp
  | n + 1 => by
    rw [foldl_range_succ, setCell_fold_eq a0 p g n]
    funext r c
    simp only [setCell]
    by_cases hc : c = n
    · subst hc
      by_cases hr : r = p <;> simp [hr]
    · have h1 : (c < n + 1) ↔ (c < n) := by omega
      simp [hc, h1]

/-- The matrix `all_res` after `averages_test` stored its averages: row `alg_pos` holds,
for each algorithm, the sum of the available cells of its column divided by their number
modulo 2^16; the other cells are unchanged. -/
theorem storeAverages_eq {D : Type} [DecidableEq D] (ops : DoubleOps D)
    (all_res : Nat → Nat → D) (alg_pos : Nat) (M : Nat → Nat → D) (rows nAlgs : Nat) :
    storeAverages ops all_res alg_pos M rows nAlgs =
      fun r c => if r = alg_pos ∧ c < nAlgs then
          ops.div (sumOfRows ops M c (availableRows ops M rows c))
            (ops.ofCount ((availableRows ops M rows c).length % 65536))
        else all_res r c := by
  simp only [storeAverages]
  rw [setCell_fold_eq]
  funext r c
  by_cases h : r = alg_pos ∧ c < nAlgs
  · simp only [h, and_self, if_true, suppAverages_eq, averageOf, colFold_eq]
  · simp only [h, if_false]

/-- C13, evidence of the divergence: in a run of two trials on the list `late.png`, the
load of the file fails in the first trial and its present flag is cleared, yet its cell
is counted: the accumulator of the algorithm holds its time and the count 1, and the
average stored in `all_res` is that time. -/
theorem averages_test_counts_unflagged_file :
    loads demoTiming "in".toList "d".toList ["late.png".toList] 0 0 = false ∧
    (avgTrials microOps demoTiming 1 "in".toList "d".toList ["late.png".toList] 2).present 0
      = false ∧
    suppAverages microOps
      (avgTrials microOps demoTiming 1 "in".toList "d".toList
        ["late.png".toList] 2).min_res 1 1 0 = (some 42, 1) ∧
    averages_test microOps demoTiming [(demoGood, "good".toList)] (fun _ _ => some 0) 0
      "in".toList "d".toList "late.png\n".toList 2 0 0 = some 42 := by
  decide

theorem sumOfRows_const (M : Nat → Nat → Option Nat) (c v : Nat) :
    ∀ (rs : List Nat) (a : Nat), (∀ r ∈ rs, M r c = some v) →
      rs.foldl (fun a r => microOps.add a (M r c)) (some a) = some (a + v * rs.length)
  | [], a, _ => by simp
  | r :: rs, a, h => by
    have h1 : M r c = some v := h r (List.mem_cons_self r rs)
    have h2 : microOps.add (some a) (some v) = some (a + v) := rfl
    rw [List.foldl_cons, h1, h2,
      sumOfRows_const M c v rs (a + v) (fun x hx => h x (List.mem_cons_of_mem r hx))]
    simp only [List.length_cons, Nat.mul_succ]
    congr 1
    omega

theorem demo_loads_a :
    (getBinaryImage (demoTiming.imread 0)
      (pathOf "in".toList "d".toList "a.png".toList)).isSome = true := by
  decide

/-- The minimum times of a run of one trial of one algorithm on a list that names
`a.png` 65537 times: 50 in every row. -/
theorem demo_many_rows (r : Nat) (hr : r < 65537) :
    (avgTrials microOps demoTiming 1 "in".toList "d".toList
      (List.replicate 65537 "a.png".toList) 1).min_res r 0 = some 50 := by
  have hl : loads demoTiming "in".toList "d".toList
      (List.replicate 65537 "a.png".toList) 0 r = true := by
    simp only [loads, loadOf, List.getD_eq_getElem?_getD, List.getElem?_replicate, hr,
      if_true, Option.getD_some]
    exact demo_loads_a
  rw [avgTrials_eq]
  simp only [List.length_replicate, hr, Nat.lt_one_iff, and_self, if_true,
    minOverTrials_succ, hl]
  rfl

/-- C14, as stated, fails: the count is a `uint16_t`.  On a list that names `a.png` 65537
times, with one algorithm that takes 50 microseconds and one trial, all the 65537 cells
are available and their sum is 3276850, but the value stored is 3276850, the sum divided
by the wrapped count 1, and not 50, the sum divided by the number of available rows. -/
theorem averages_sum_over_count_counterexample :
    (availableRows microOps
      (avgTrials microOps demoTiming 1 "in".toList "d".toList
        (List.replicate 65537 "a.png".toList) 1).min_res 65537 0).length = 65537 ∧
    sumOfRows microOps
      (avgTrials microOps demoTiming 1 "in".toList "d".toList
        (List.replicate 65537 "a.png".toList) 1).min_res 0
      (availableRows microOps
        (avgTrials microOps demoTiming 1 "in".toList "d".toList
          (List.replicate 65537 "a.png".toList) 1).min_res 65537 0) = some 3276850 ∧
    storeAverages microOps (fun _ _ => some 0) 0
      (avgTrials microOps demoTiming 1 "in".toList "d".toList
        (List.replicate 65537 "a.png".toList) 1).min_res 65537 1 0 0 = some 3276850 ∧
    microOps.div (some 3276850) (microOps.ofCount 65537) = some 50 := by
  have hav : availableRows microOps
      (avgTrials microOps demoTiming 1 "in".toList "d".toList
        (List.replicate 65537 "a.png".toList) 1).min_res 65537 0 = List.range 65537 := by
    unfold availableRows
    rw [List.filter_eq_self]
    intro r hr
    rw [demo_many_rows r (List.mem_range.1 hr)]
    rfl
  have hsum : sumOfRows microOps
      (avgTrials microOps demoTiming 1 "in".toList "d".toList
        (List.replicate 65537 "a.png".toList) 1).min_res 0 (List.range 65537)
      = some 3276850 := by
    have h := sumOfRows_const
      (avgTrials microOps demoTiming 1 "in".toList "d".toList
        (List.replicate 65537 "a.png".toList) 1).min_res 0 50 (List.range 65537) 0
      (fun r hr => demo_many_rows r (List.mem_range.1 hr))
    rw [List.length_range] at h
    exact h
  refine ⟨?_, ?_, ?_, ?_⟩
  · rw [hav, List.length_range]
  · rw [hav, hsum]
  · rw [storeAverages_eq]
    simp only [hav, hsum, List.length_range, and_self, Nat.lt_one_iff, if_true]
    rfl
  · rfl

/-- C14, amended: in `averages_test`, for every configured algorithm `c`, the value stored
in `all_res(alg_pos, c)` is the sum of `min_res(r, c)` over the rows whose cell is
available, added in the order of the rows, divided by the number of such rows modulo
2^16, hence by their number when there are fewer than 65536 of them; the cells that are
not available are in neither; column `c` of `min_res` holds the running minima of the
times of the `c`-th algorithm; and the other cells of `all_res` are left as they were. -/
theorem averages_sum_over_count {D : Type} [DecidableEq D] (ops : DoubleOps D)
    (w : TimingWorld D) (CCLAlgorithms : List (CCLPointer × Str))
    (all_res : Nat → Nat → D) (alg_pos : Nat) (input_path input_folder content : Str)
    (nTest c : Nat) (hc : c < CCLAlgorithms.length) :
    (averages_test ops w CCLAlgorithms all_res alg_pos input_path input_folder content nTest
        alg_pos c =
      ops.div
        (sumOfRows ops
          (avgTrials ops w CCLAlgorithms.length input_path input_folder
            (readFileNames content) nTest).min_res c
          (availableRows ops
            (avgTrials ops w CCLAlgorithms.length input_path input_folder
              (readFileNames content) nTest).min_res (readFileNames content).length c))
        (ops.ofCount ((availableRows ops
          (avgTrials ops w CCLAlgorithms.length input_path input_folder
            (readFileNames content) nTest).min_res (readFileNames content).length c).length
          % 65536))) ∧
    ((availableRows ops
        (avgTrials ops w CCLAlgorithms.length input_path input_folder
          (readFileNames content) nTest).min_res (readFileNames content).length c).length
        < 65536 →
      averages_test ops w CCLAlgorithms all_res alg_pos input_path input_folder content nTest
          alg_pos c =
        ops.div
          (sumOfRows ops
            (avgTrials ops w CCLAlgorithms.length input_path input_folder
              (readFileNames content) nTest).min_res c
            (availableRows ops
              (avgTrials ops w CCLAlgorithms.length input_path input_folder
                (readFileNames content) nTest).min_res (readFileNames content).length c))
          (ops.ofCount (availableRows ops
            (avgTrials ops w CCLAlgorithms.length input_path input_folder
              (readFileNames content) nTest).min_res
            (readFileNames content).length c).length)) ∧
    (∀ r, r ∈ availableRows ops
        (avgTrials ops w CCLAlgorithms.length input_path input_folder
          (readFileNames content) nTest).min_res (readFileNames content).length c ↔
      r < (readFileNames content).length ∧
        (avgTrials ops w CCLAlgorithms.length input_path input_folder
          (readFileNames content) nTest).min_res r c ≠ ops.dblMax) ∧
    (∀ f, f < (readFileNames content).length →
      (avgTrials ops w CCLAlgorithms.length input_path input_folder
          (readFileNames content) nTest).min_res f c =
        minOverTrials ops
          (fun t => loads w input_path input_folder (readFileNames content) t f)
          (fun t => w.perfLast t f c) nTest) ∧
    (∀ r c2, ¬ (r = alg_pos ∧ c2 < CCLAlgorithms.length) →
      averages_test ops w CCLAlgorithms all_res alg_pos input_path input_folder content nTest
        r c2 = all_res r c2) := by
  have hstore : averages_test ops w CCLAlgorithms all_res alg_pos input_path input_folder
      content nTest =
      storeAverages ops all_res alg_pos
        (avgTrials ops w CCLAlgorithms.length input_path input_folder
          (readFileNames content) nTest).min_res
        (readFileNames content).length CCLAlgorithms.length := rfl
  rw [hstore, storeAverages_eq]
  refine ⟨?_, ?_, ?_, ?_, ?_⟩
  · simp only [hc, and_self, if_true]
  · intro hlt
    simp only [hc, and_self, if_true, Nat.mod_eq_of_lt hlt]
  · intro r
    simp [availableRows, List.mem_filter, List.mem_range]
  · intro f hf
    rw [avgTrials_eq]
    simp only [hf, hc, and_self, if_true]
  · intro r c2 h
    simp only [h, if_false]

/-- Witness for C14: in the example run of three trials on four files and two algorithms,
three cells of the first column are available, each with minimum 42; their sum is 126 and
the average stored is 42. -/
theorem averages_sum_over_count_witness :
    averages_test microOps demoTiming demoAlgs (fun _ _ => some 0) 0 "in".toList "d".toList
      "a.png\nlate.png\nzz.png\n012.png\n".toList 3 0 0 = some 42 ∧
    averages_test microOps demoTiming demoAlgs (fun _ _ => some 0) 0 "in".toList "d".toList
        "a.png\nlate.png\nzz.png\n012.png\n".toList 3 0 0 =
      microOps.div
        (sumOfRows microOps
          (avgTrials microOps demoTiming demoAlgs.length "in".toList "d".toList
            (readFileNames "a.png\nlate.png\nzz.png\n012.png\n".toList) 3).min_res 0
          (availableRows microOps
            (avgTrials microOps demoTiming demoAlgs.length "in".toList "d".toList
              (readFileNames "a.png\nlate.png\nzz.png\n012.png\n".toList) 3).min_res
            (readFileNames "a.png\nlate.png\nzz.png\n012.png\n".toList).length 0))
        (microOps.ofCount (availableRows microOps
          (avgTrials microOps demoTiming demoAlgs.length "in".toList "d".toList
            (readFileNames "a.png\nlate.png\nzz.png\n012.png\n".toList) 3).min_res
          (readFileNames "a.png\nlate.png\nzz.png\n012.png\n".toList).length 0).length) :=
  ⟨by decide,
   (averages_sum_over_count microOps demoTiming demoAlgs (fun _ _ => some 0) 0 "in".toList
      "d".toList "a.png\nlate.png\nzz.png\n012.png\n".toList 3 0 (by decide)).2.1
      (by decide)⟩

/-- C15, evidence of the divergence: with an empty list of images, and with a list whose
only file never loads, the count of every algorithm is zero and the value stored in
`all_res` is the quotient `0.0 / 0`, which is not a number, and not 0: line 449 divides
without testing the count. -/
theorem averages_test_divides_by_zero_count :
    suppAverages microOps
      (avgTrials microOps demoTiming 2 "in".toList "d".toList [] 3).min_res 0 2 0
      = (some 0, 0) ∧
    averages_test microOps demoTiming demoAlgs (fun _ _ => some 0) 0 "in".toList "d".toList
      [] 3 0 0 = microOps.div (some 0) (microOps.ofCount 0) ∧
    averages_test microOps demoTiming demoAlgs (fun _ _ => some 0) 0 "in".toList "d".toList
      [] 3 0 0 = none ∧
    suppAverages microOps
      (avgTrials microOps demoTiming 2 "in".toList "d".toList
        ["zz.png".toList] 3).min_res 1 2 0 = (some 0, 0) ∧
    averages_test microOps demoTiming demoAlgs (fun _ _ => some 0) 0 "in".toList "d".toList
      "zz.png\n".toList 3 0 0 = none ∧
    microOps.zero ≠ none := by
  decide

/-! ## The buckets of `density_size_test` -/

theorem buckets_eq {D : Type} {a b : Buckets D} (h1 : a.supp_density = b.supp_density)
    (h2 : a.supp_normalized_density = b.supp_normalized_density)
    (h3 : a.supp_size = b.supp_size) : a = b := by
  cases a
  cases b
  simp only at h1 h2 h3
  subst h1 h2 h3
  rfl

theorem foldlM_range_succ {α : Type} (g : α → Nat → Option α) (a : α) (n : Nat) :
    (List.range (n + 1)).foldlM g a = ((List.range n).foldlM g a).bind (fun x => g x n) := by
  rw [List.range_succ, List.foldlM_append]
  cases (List.range n).foldlM g a <;> simp [bind, pure]

/-- One cell of the loop of lines 758-779, when the indices are in range. -/
theorem bucketCell_eq {D : Type} [DecidableEq D] (ops : DoubleOps D) (names : List Str)
    (st : TrialState D) (f c : Nat) (b : Buckets D)
    (hr : contributes ops names st f c = true →
      densityIndex names f < densityBuckets ∧ sizeIndex names f < sizeBuckets) :
    bucketCell ops names st f c b = some
      { supp_density := fun i j =>
          if i = c ∧ j = densityIndex names f ∧ contributes ops names st f c = true then
            bump ops (st.min_res f c) (b.supp_density i j)
          else b.supp_density i j
        supp_normalized_density := fun i j =>
          if i = c ∧ j = densityIndex names f ∧ contributes ops names st f c = true then
            bump ops (ops.div (st.min_res f c) (st.NULL_labeling f))
              (b.supp_normalized_density i j)
          else b.supp_normalized_density i j
        supp_size := fun i j =>
          if i = c ∧ j = sizeIndex names f ∧ contributes ops names st f c = true then
            bump ops (st.min_res f c) (b.supp_size i j)
          else b.supp_size i j } := by
  unfold contributes at hr ⊢
  unfold bucketCell
  by_cases h1 : (threeDigits (names.getD f []) && st.present f) = true
  · by_cases h2 : st.min_res f c = ops.dblMax
    · simp only [h1, if_true, h2, ne_eq, not_true_eq_false, if_false, decide_False,
        Bool.and_false, Bool.false_eq_true, and_false]
    · obtain ⟨hd, hs⟩ := hr (by simp only [h1, h2, ne_eq, not_false_eq_true, decide_True,
        Bool.and_self])
      unfold densityIndex at hd
      unfold sizeIndex at hs
      simp only [h1, if_true, ne_eq, h2, not_false_eq_true, hd, hs, Bool.true_and,
        decide_True, and_true, Option.some.injEq]
      apply buckets_eq
      · funext i j
        simp only [setCell, densityIndex]
        by_cases hi : i = c ∧ j = ctoi (charAt (names.getD f []) 1)
        · obtain ⟨hi1, hi2⟩ := hi
          subst hi1 hi2
          simp
        · simp only [hi, if_false]
      · funext i j
        simp only [setCell, densityIndex]
        by_cases hi : i = c ∧ j = ctoi (charAt (names.getD f []) 1)
        · obtain ⟨hi1, hi2⟩ := hi
          subst hi1 hi2
          simp
        · simp only [hi, if_false]
      · funext i j
        simp only [setCell, sizeIndex]
        by_cases hi : i = c ∧ j = ctoi (charAt (names.getD f []) 0)
        · obtain ⟨hi1, hi2⟩ := hi
          subst hi1 hi2
          simp
        · simp only [hi, if_false]
  · have h3 : (threeDigits (names.getD f []) && st.present f) = false := by
      simpa using h1
    simp only [h1, if_false, h3, Bool.false_and, Bool.false_eq_true, and_false]

/-- One cell of the loop of lines 758-779, when the file contributes and one of its
indices is out of range: a bucket vector is accessed outside its bounds. -/
theorem bucketCell_none {D : Type} [DecidableEq D] (ops : DoubleOps D) (names : List Str)
    (st : TrialState D) (f c : Nat) (b : Buckets D)
    (hc : contributes ops names st f c = true)
    (hr : ¬ (densityIndex names f < densityBuckets ∧ sizeIndex names f < sizeBuckets)) :
    bucketCell ops names st f c b = none := by
  unfold contributes at hc
  unfold densityIndex sizeIndex at hr
  unfold bucketCell
  simp only [Bool.and_eq_true, decide_eq_true_eq] at hc
  obtain ⟨⟨h1, h2⟩, h3⟩ := hc
  by_cases hd : ctoi (charAt (names.getD f []) 1) < densityBuckets
  · have hs : ¬ ctoi (charAt (names.getD f []) 0) < sizeBuckets := fun h => hr ⟨hd, h⟩
    simp only [h1, h2, Bool.and_self, if_true, ne_eq, h3, not_false_eq_true, hd, hs,
      if_false]
  · simp only [h1, h2, Bool.and_self, if_true, ne_eq, h3, not_false_eq_true, hd, if_false]

/-- The loop over the columns for one file, when the indices are in range. -/
theorem bucketFile_eq {D : Type} [DecidableEq D] (ops : DoubleOps D) (names : List Str)
    (st : TrialState D) (f : Nat) (b : Buckets D) :
    ∀ (cols : Nat), IndicesInRange ops names st cols f →
      bucketFile ops names st cols f b = some (bucketsAfterFile ops names st cols f b)
  | 0, _ => by
    simp only [bucketFile, List.range_zero, List.foldlM_nil, pure, bucketsAfterFile,
      Nat.not_lt_zero, false_and, if_false]
  | n + 1, hr => by
    have ih := bucketFile_eq ops names st f b n
      (fun c hc => hr c (Nat.lt_succ_of_lt hc))
    simp only [bucketFile] at ih ⊢
    rw [foldlM_range_succ, ih, Option.some_bind,
      bucketCell_eq ops names st f n _ (hr n (Nat.lt_succ_self n))]
    simp only [bucketsAfterFile, Option.some.injEq]
    apply buckets_eq
    · funext i j
      simp only
      by_cases hi : i = n
      · subst hi
        simp
      · have h1 : (i < n + 1) ↔ (i < n) := by omega
        simp [hi, h1]
    · funext i j
      simp only
      by_cases hi : i = n
      · subst hi
        simp
      · have h1 : (i < n + 1) ↔ (i < n) := by omega
        simp [hi, h1]
    · funext i j
      simp only
      by_cases hi : i = n
      · subst hi
        simp
      · have h1 : (i < n + 1) ↔ (i < n) := by omega
        simp [hi, h1]

/-- The loop over the columns for one file, when an index is out of range for a
contributing cell: a bucket vector is accessed outside its bounds. -/
theorem bucketFile_none {D : Type} [DecidableEq D] (ops : DoubleOps D) (names : List Str)
    (st : TrialState D) (f : Nat) (b : Buckets D) :
    ∀ (cols : Nat), ¬ IndicesInRange ops names st cols f →
      bucketFile ops names st cols f b = none
  | 0, hr => by
    exact absurd (fun c hc => absurd hc (Nat.not_lt_zero c)) hr
  | n + 1, hr => by
    simp only [bucketFile]
    rw [foldlM_range_succ]
    by_cases hn : IndicesInRange ops names st n f
    · have h1 := bucketFile_eq ops names st f b n hn
      simp only [bucketFile] at h1
      rw [h1, Option.some_bind]
      by_cases hc : contributes ops names st f n = true
      · apply bucketCell_none ops names st f n _ hc
        intro hrange
        apply hr
        intro c hc2 hcon
        by_cases hcn : c = n
        · exact hrange
        · exact hn c (by omega) hcon
      · exfalso
        apply hr
        intro c hc2 hcon
        by_cases hcn : c = n
        · subst hcn
          exact absurd hcon hc
        · exact hn c (by omega) hcon
    · have h1 := bucketFile_none ops names st f b n hn
      simp only [bucketFile] at h1
      rw [h1]
      rfl

theorem minOverTrials_congr {D : Type} (ops : DoubleOps D) (l1 l2 : Nat → Bool)
    (time : Nat → D) : ∀ (n : Nat), (∀ t, t < n → l1 t = l2 t) →
    minOverTrials ops l1 time n = minOverTrials ops l2 time n
  | 0, _ => rfl
  | n + 1, h => by
    rw [minOverTrials_succ, minOverTrials_succ, h n (Nat.lt_succ_self n),
      minOverTrials_congr ops l1 l2 time n (fun t ht => h t (Nat.lt_succ_of_lt ht))]

/-- A file whose present flag is set after the trials of `density_size_test` loaded in
every trial; its minimum cells and its null reference are running minima over all the
trials. -/
theorem dsTrials_present {D : Type} (ops : DoubleOps D) (w : TimingWorld D) (nAlgs : Nat)
    (input_path input_folder : Str) (names : List Str) (nTest f : Nat)
    (hf : f < names.length)
    (hp : (dsTrials ops w nAlgs input_path input_folder names nTest).present f = true) :
    (∀ t, t < nTest → loads w input_path input_folder names t f = true) ∧
    (∀ c, c < nAlgs →
      (dsTrials ops w nAlgs input_path input_folder names nTest).min_res f c =
        minOverTrials ops (fun _ => true) (fun t => w.perfLast t f c) nTest) ∧
    (dsTrials ops w nAlgs input_path input_folder names nTest).NULL_labeling f =
      minOverTrials ops (fun _ => true) (fun t => w.nullLast t f) nTest := by
  rw [dsTrials_eq] at hp ⊢
  simp only [hf, if_true] at hp ⊢
  have hl := (loadsAlways_iff w input_path input_folder names nTest f).1 hp
  refine ⟨hl, ?_, ?_⟩
  · intro c hc
    simp only [hc, and_self, if_true]
    exact minOverTrials_congr ops _ _ _ nTest hl
  · exact minOverTrials_congr ops _ _ _ nTest hl

/-- C16: in `density_size_test`, for a file `f` of the list whose digits, if it
contributes, index existing buckets: the loop of lines 760-778 returns accumulators
in which, for each algorithm `c`, the density bucket of index the value of character 1
and the size bucket of index the value of character 0 have received `min_res(f, c)` once,
with their counts increased by one, exactly when the first three characters of the name
are digits, the present flag is still set and the minimum cell is available; every
other accumulator, and so every accumulator for any other file, is unchanged.  The value
`min_res(f, c)` of a file whose flag is set is the running minimum of the times of all
the trials: one of the times, with none below it. -/
theorem bucket_contribution {D : Type} [DecidableEq D] (ops : DoubleOps D)
    (w : TimingWorld D) (nAlgs : Nat) (input_path input_folder : Str) (names : List Str)
    (nTest f : Nat) (b : Buckets D) (st : TrialState D)
    (hst : st = dsTrials ops w nAlgs input_path input_folder names nTest)
    (hf : f < names.length) (hr : IndicesInRange ops names st nAlgs f) :
    (∃ b2, bucketFile ops names st nAlgs f b = some b2 ∧
      (∀ c j, b2.supp_density c j =
        if c < nAlgs ∧ j = densityIndex names f ∧ contributes ops names st f c = true then
          (ops.add (b.supp_density c j).1 (st.min_res f c),
            ((b.supp_density c j).2 + 1) % 65536)
        else b.supp_density c j) ∧
      (∀ c j, b2.supp_size c j =
        if c < nAlgs ∧ j = sizeIndex names f ∧ contributes ops names st f c = true then
          (ops.add (b.supp_size c j).1 (st.min_res f c),
            ((b.supp_size c j).2 + 1) % 65536)
        else b.supp_size c j) ∧
      (∀ c j, b2.supp_normalized_density c j =
        if c < nAlgs ∧ j = densityIndex names f ∧ contributes ops names st f c = true then
          (ops.add (b.supp_normalized_density c j).1
              (ops.div (st.min_res f c) (st.NULL_labeling f)),
            ((b.supp_normalized_density c j).2 + 1) % 65536)
        else b.supp_normalized_density c j)) ∧
    (∀ c, contributes ops names st f c = true ↔
      threeDigits (names.getD f []) = true ∧ st.present f = true ∧
        st.min_res f c ≠ ops.dblMax) ∧
    ((∀ c, c < nAlgs → contributes ops names st f c = false) →
      bucketFile ops names st nAlgs f b = some b) ∧
    (∀ c, c < nAlgs → st.present f = true →
      st.min_res f c =
        minOverTrials ops (fun _ => true) (fun t => w.perfLast t f c) nTest ∧
      (StrictOrder ops →
        (∀ t, t < nTest → ops.lt (w.perfLast t f c) ops.dblMax = true) → 0 < nTest →
        (∃ t, t < nTest ∧ st.min_res f c = w.perfLast t f c) ∧
        ∀ t, t < nTest → ops.lt (w.perfLast t f c) (st.min_res f c) = false)) := by
  refine ⟨⟨bucketsAfterFile ops names st nAlgs f b, bucketFile_eq ops names st f b nAlgs hr,
    fun c j => rfl, fun c j => rfl, fun c j => rfl⟩, ?_, ?_, ?_⟩
  · intro c
    simp [contributes, Bool.and_eq_true, and_assoc]
  · intro hno
    rw [bucketFile_eq ops names st f b nAlgs hr]
    congr 1
    apply buckets_eq
    · funext i j
      simp only [bucketsAfterFile]
      by_cases hi : i < nAlgs
      · simp [hno i hi]
      · simp [hi]
    · funext i j
      simp only [bucketsAfterFile]
      by_cases hi : i < nAlgs
      · simp [hno i hi]
      · simp [hi]
    · funext i j
      simp only [bucketsAfterFile]
      by_cases hi : i < nAlgs
      · simp [hno i hi]
      · simp [hi]
  · intro c hc hp
    subst hst
    obtain ⟨_, hmin, _⟩ :=
      dsTrials_present ops w nAlgs input_path input_folder names nTest f hf hp
    refine ⟨hmin c hc, ?_⟩
    intro hord hbelow hn
    rw [hmin c hc]
    have h := running_min_facts ops hord (fun _ => true) (fun t => w.perfLast t f c) nTest
      (fun _ _ => rfl) hbelow
    refine ⟨h.1 hn, ?_⟩
    intro t ht
    have h2 := (h.2 t ht).2
    rw [(h.2 t ht).1] at h2
    exact h2

/-- Witness for C16: in the example run of three trials the first algorithm takes 50, 42
and 48 microseconds on `012.png`; the accumulators of density bucket 1 and of size
bucket 0 receive 42, the minimum, once, and the normalized accumulator 42 / 5. -/
theorem bucket_contribution_witness :
    (bucketFile microOps demoNames
        (dsTrials microOps demoTiming 2 "in".toList "d".toList demoNames 3) 2 3
        (initBuckets microOps)).map
      (fun b2 => (b2.supp_density 0 1, b2.supp_size 0 0, b2.supp_normalized_density 0 1,
        b2.supp_density 0 0))
      = some ((some 42, 1), (some 42, 1), (some 8, 1), (some 0, 0)) ∧
    (dsTrials microOps demoTiming 2 "in".toList "d".toList demoNames 3).min_res 3 0 =
      minOverTrials microOps (fun _ => true) (fun t => demoTiming.perfLast t 3 0) 3 :=
  ⟨by decide,
   ((bucket_contribution microOps demoTiming 2 "in".toList "d".toList demoNames 3 3
      (initBuckets microOps)
      (dsTrials microOps demoTiming 2 "in".toList "d".toList demoNames 3) rfl
      (by decide) (fun _ _ _ => ⟨by decide, by decide⟩)).2.2.2 0 (by decide) (by decide)).1⟩

/-! ## The counts of the buckets -/

theorem foldlM_range_inv {α : Type} (g : α → Nat → Option α) (P : α → Prop)
    (hstep : ∀ a k a2, P a → g a k = some a2 → P a2) :
    ∀ (n : Nat) (a a2 : α), P a → (List.range n).foldlM g a = some a2 → P a2
  | 0, a, a2, hP, h => by
    simp only [List.range_zero, List.foldlM_nil, pure, Option.some.injEq] at h
    subst h
    exact hP
  | n + 1, a, a2, hP, h => by
    rw [foldlM_range_succ] at h
    cases h1 : (List.range n).foldlM g a with
    | none =>
      rw [h1] at h
      cases h
    | some a1 =>
      rw [h1, Option.some_bind] at h
      exact hstep a1 n a2 (foldlM_range_inv g P hstep n a a1 hP h1) h

/-- After the trials of `density_size_test`, the times being below the marker, a cell of
a file whose flag is set is available exactly when there was a trial. -/
theorem dsTrials_available {D : Type} (ops : DoubleOps D) (w : TimingWorld D) (nAlgs : Nat)
    (input_path input_folder : Str) (names : List Str) (nTest f c : Nat)
    (hord : StrictOrder ops)
    (hbelow : ∀ t g i, t < nTest → g < names.length → i < nAlgs →
      ops.lt (w.perfLast t g i) ops.dblMax = true)
    (hf : f < names.length) (hc : c < nAlgs)
    (hp : (dsTrials ops w nAlgs input_path input_folder names nTest).present f = true) :
    (dsTrials ops w nAlgs input_path input_folder names nTest).min_res f c ≠ ops.dblMax ↔
      0 < nTest := by
  obtain ⟨_, hmin, _⟩ :=
    dsTrials_present ops w nAlgs input_path input_folder names nTest f hf hp
  rw [hmin c hc]
  constructor
  · intro h
    by_contra h0
    have h1 : nTest = 0 := by omega
    subst h1
    exact h rfl
  · intro hn
    obtain ⟨t, ht, htime⟩ := (running_min_facts ops hord (fun _ => true)
      (fun t => w.perfLast t f c) nTest (fun _ _ => rfl)
      (fun t ht => hbelow t f c ht hf hc)).1 hn
    rw [htime]
    intro heq
    have h1 := hbelow t f c ht hf hc
    rw [heq, hord.1] at h1
    exact absurd h1 (by simp)

/-- After the trials of `density_size_test`, the times being below the marker, whether a
file contributes does not depend on the algorithm. -/
theorem contributes_uniform {D : Type} [DecidableEq D] (ops : DoubleOps D)
    (w : TimingWorld D) (nAlgs : Nat) (input_path input_folder : Str) (names : List Str)
    (nTest f c : Nat) (hord : StrictOrder ops)
    (hbelow : ∀ t g i, t < nTest → g < names.length → i < nAlgs →
      ops.lt (w.perfLast t g i) ops.dblMax = true)
    (hc : c < nAlgs) :
    contributes ops names (dsTrials ops w nAlgs input_path input_folder names nTest) f c =
      contributes ops names (dsTrials ops w nAlgs input_path input_folder names nTest) f 0 := by
  have h0 : 0 < nAlgs := by omega
  unfold contributes
  by_cases hf : f < names.length
  · cases hp : (dsTrials ops w nAlgs input_path input_folder names nTest).present f
    · simp
    · have h1 := dsTrials_available ops w nAlgs input_path input_folder names nTest f c hord
        hbelow hf hc hp
      have h2 := dsTrials_available ops w nAlgs input_path input_folder names nTest f 0 hord
        hbelow hf h0 hp
      have h3 : decide ((dsTrials ops w nAlgs input_path input_folder names nTest).min_res f c
          ≠ ops.dblMax) = decide
          ((dsTrials ops w nAlgs input_path input_folder names nTest).min_res f 0
            ≠ ops.dblMax) := by
        apply decide_eq_decide.2
        rw [h1, h2]
      rw [h3]
  · have h1 : ∀ i, (dsTrials ops w nAlgs input_path input_folder names nTest).min_res f i
        = ops.dblMax := by
      intro i
      rw [dsTrials_eq]
      simp only [hf, false_and, if_false]
    simp only [h1]

theorem countsAgree_init {D : Type} (ops : DoubleOps D) (nAlgs : Nat) :
    CountsAgree nAlgs (initBuckets ops) :=
  ⟨fun _ _ _ => rfl, fun _ _ _ => rfl, fun _ _ => rfl⟩

theorem countsAgree_after {D : Type} [DecidableEq D] (ops : DoubleOps D) (names : List Str)
    (st : TrialState D) (nAlgs f : Nat) (b : Buckets D)
    (hu : ∀ c, c < nAlgs → contributes ops names st f c = contributes ops names st f 0)
    (hb : CountsAgree nAlgs b) :
    CountsAgree nAlgs (bucketsAfterFile ops names st nAlgs f b) := by
  obtain ⟨h1, h2, h3⟩ := hb
  refine ⟨?_, ?_, ?_⟩
  · intro i j hi
    have h0 : 0 < nAlgs := by omega
    simp only [bucketsAfterFile, hi, h0, true_and, hu i hi]
    by_cases hc : j = densityIndex names f ∧ contributes ops names st f 0 = true
    · simp only [hc, and_self, if_true, bump]
      rw [h1 i _ hi]
    · simp only [hc, if_false, h1 i j hi]
  · intro i j hi
    have h0 : 0 < nAlgs := by omega
    simp only [bucketsAfterFile, hi, h0, true_and, hu i hi]
    by_cases hc : j = sizeIndex names f ∧ contributes ops names st f 0 = true
    · simp only [hc, and_self, if_true, bump]
      rw [h2 i _ hi]
    · simp only [hc, if_false, h2 i j hi]
  · intro i j
    simp only [bucketsAfterFile]
    by_cases hc : i < nAlgs ∧ j = densityIndex names f ∧ contributes ops names st f i = true
    · simp only [hc, and_self, if_true, bump]
      rw [h3 i _]
    · simp only [hc, if_false, h3 i j]

/-- After `density_size_test`, the times being below the marker, the counts of the
accumulators do not depend on the algorithm. -/
theorem density_size_test_countsAgree {D : Type} [DecidableEq D] (ops : DoubleOps D)
    (w : TimingWorld D) (CCLAlgorithms : List (CCLPointer × Str))
    (input_path input_folder content : Str) (nTest : Nat) (b : Buckets D)
    (hord : StrictOrder ops)
    (hbelow : ∀ t g i, t < nTest → g < (readFileNames content).length →
      i < CCLAlgorithms.length → ops.lt (w.perfLast t g i) ops.dblMax = true)
    (hrun : density_size_test ops w CCLAlgorithms input_path input_folder content nTest
      = some b) :
    CountsAgree CCLAlgorithms.length b := by
  simp only [density_size_test, bucketAll] at hrun
  refine foldlM_range_inv _ (CountsAgree CCLAlgorithms.length) ?_ _ _ _
    (countsAgree_init ops CCLAlgorithms.length) hrun
  intro a f a2 ha hstep
  by_cases hr : IndicesInRange ops (readFileNames content)
      (dsTrials ops w CCLAlgorithms.length input_path input_folder
        (readFileNames content) nTest) CCLAlgorithms.length f
  · rw [bucketFile_eq _ _ _ _ _ _ hr] at hstep
    simp only [Option.some.injEq] at hstep
    subst hstep
    exact countsAgree_after ops _ _ _ f a
      (fun c hc => contributes_uniform ops w CCLAlgorithms.length input_path input_folder
        (readFileNames content) nTest f c hord hbelow hc) ha
  · rw [bucketFile_none _ _ _ _ _ _ hr] at hstep
    cases hstep

/-! ## Claims on the buckets of `density_size_test` -/

/-- C17, evidence of the divergence: the three first characters of `990.png` are digits,
`ctoi` gives the size index 9 and the density index 9, and there are 8 size buckets and 9
density buckets; on the lists `990.png`, `800.png` (size index 8) and `090.png` (density
index 9), the file loading, the loop of lines 758-779 accesses a bucket vector outside
its bounds, whereas on `780.png`, with the greatest indices in range, it does not. -/
theorem ctoi_index_out_of_bounds :
    threeDigits "990.png".toList = true ∧
    ctoi (charAt "990.png".toList 0) = 9 ∧ ctoi (charAt "990.png".toList 1) = 9 ∧
    sizeBuckets = 8 ∧ densityBuckets = 9 ∧
    (density_size_test microOps demoAll [(demoGood, "good".toList)] "in".toList "d".toList
      "990.png\n".toList 1).isSome = false ∧
    (density_size_test microOps demoAll [(demoGood, "good".toList)] "in".toList "d".toList
      "800.png\n".toList 1).isSome = false ∧
    (density_size_test microOps demoAll [(demoGood, "good".toList)] "in".toList "d".toList
      "090.png\n".toList 1).isSome = false ∧
    (density_size_test microOps demoAll [(demoGood, "good".toList)] "in".toList "d".toList
      "780.png\n".toList 1).isSome = true := by
  decide

/-- C18: in `density_size_test`, for a file `f` of the list that contributes to the
buckets of algorithm `c`, its indices being in range: the value added to the normalized
density accumulator of `c` is the running minimum over all the trials of the times of
`c` on `f` divided by the running minimum over the same trials of the times of the null
labeling on `f`; the divisor is `NULL_labeling[f]`, which is indexed by the file alone;
for every file of the list it is the running minimum of the null times over the trials
in which the file loaded: no null time of such a trial is below it, and for `f`, the
null times being below the marker, it is the null time of one of the trials. -/
theorem normalized_contribution {D : Type} [DecidableEq D] (ops : DoubleOps D)
    (w : TimingWorld D) (nAlgs : Nat) (input_path input_folder : Str) (names : List Str)
    (nTest f c : Nat) (b : Buckets D) (st : TrialState D)
    (hst : st = dsTrials ops w nAlgs input_path input_folder names nTest)
    (hf : f < names.length) (hc : c < nAlgs)
    (hr : IndicesInRange ops names st nAlgs f)
    (hcon : contributes ops names st f c = true) :
    (∃ b2, bucketFile ops names st nAlgs f b = some b2 ∧
      b2.supp_normalized_density c (densityIndex names f) =
        (ops.add (b.supp_normalized_density c (densityIndex names f)).1
            (ops.div (st.min_res f c) (st.NULL_labeling f)),
          ((b.supp_normalized_density c (densityIndex names f)).2 + 1) % 65536)) ∧
    st.min_res f c =
      minOverTrials ops (fun _ => true) (fun t => w.perfLast t f c) nTest ∧
    st.NULL_labeling f =
      minOverTrials ops (fun _ => true) (fun t => w.nullLast t f) nTest ∧
    (∀ g, g < names.length →
      st.NULL_labeling g =
        minOverTrials ops (fun t => loads w input_path input_folder names t g)
          (fun t => w.nullLast t g) nTest) ∧
    (StrictOrder ops →
      (∀ g t, g < names.length → t < nTest →
        loads w input_path input_folder names t g = true →
        ops.lt (w.nullLast t g) (st.NULL_labeling g) = false) ∧
      ((∀ t, t < nTest → ops.lt (w.nullLast t f) ops.dblMax = true) → 0 < nTest →
        ∃ t, t < nTest ∧ st.NULL_labeling f = w.nullLast t f)) := by
  subst hst
  have hp : (dsTrials ops w nAlgs input_path input_folder names nTest).present f = true := by
    unfold contributes at hcon
    simp only [Bool.and_eq_true] at hcon
    exact hcon.1.2
  obtain ⟨_, hmin, hnull⟩ :=
    dsTrials_present ops w nAlgs input_path input_folder names nTest f hf hp
  have hall : ∀ g, g < names.length →
      (dsTrials ops w nAlgs input_path input_folder names nTest).NULL_labeling g =
        minOverTrials ops (fun t => loads w input_path input_folder names t g)
          (fun t => w.nullLast t g) nTest := by
    intro g hg
    rw [dsTrials_eq]
    simp only [hg, if_true]
  refine ⟨⟨bucketsAfterFile ops names _ nAlgs f b, bucketFile_eq ops names _ f b nAlgs hr, ?_⟩,
    hmin c hc, hnull, hall, ?_⟩
  · simp only [bucketsAfterFile, hc, hcon, and_self, if_true, bump]
  · intro hord
    refine ⟨?_, ?_⟩
    · intro g t hg ht hl
      rw [hall g hg]
      exact minOverTrials_not_lt ops hord
        (fun t => loads w input_path input_folder names t g) (fun t => w.nullLast t g)
        nTest t ht hl
    · intro hbelow hn
      rw [hnull]
      exact (running_min_facts ops hord (fun _ => true) (fun t => w.nullLast t f) nTest
        (fun _ _ => rfl) hbelow).1 hn

/-- Witness for C18: in the example run of three trials the second algorithm takes 51, 43
and 49 microseconds on `012.png` and the null labeling 7, 5 and 5: the normalized
accumulator receives 43 / 5, and the divisor is 5. -/
theorem normalized_contribution_witness :
    (bucketFile microOps demoNames
        (dsTrials microOps demoTiming 2 "in".toList "d".toList demoNames 3) 2 3
        (initBuckets microOps)).map (fun b2 => b2.supp_normalized_density 1 1)
      = some (some 8, 1) ∧
    (dsTrials microOps demoTiming 2 "in".toList "d".toList demoNames 3).NULL_labeling 3
      = some 5 ∧
    (dsTrials microOps demoTiming 2 "in".toList "d".toList demoNames 3).NULL_labeling 3 =
      minOverTrials microOps (fun _ => true) (fun t => demoTiming.nullLast t 3) 3 :=
  ⟨by decide, by decide,
   (normalized_contribution microOps demoTiming 2 "in".toList "d".toList demoNames 3 3 1
      (initBuckets microOps)
      (dsTrials microOps demoTiming 2 "in".toList "d".toList demoNames 3) rfl
      (by decide) (by decide) (fun _ _ _ => ⟨by decide, by decide⟩) (by decide)).2.2.1⟩

theorem eq_some_getD {α : Type} (o : Option α) (d : α) (h : o.isSome = true) :
    o = some (o.getD d) := by
  cases o with
  | none => cases h
  | some a => rfl

/-- C19: in `density_size_test`, the times being below the marker and the accumulation
staying within the bucket vectors: every density, normalized density and size bucket of a
configured algorithm whose count is zero gets the average `0.0`, whatever the division
would return, and the row of its density, or of its size, is written with the mark `#`. -/
theorem zero_count_average_and_flag {D : Type} [DecidableEq D] (ops : DoubleOps D)
    (w : TimingWorld D) (CCLAlgorithms : List (CCLPointer × Str))
    (input_path input_folder content : Str) (nTest : Nat) (b : Buckets D)
    (i j : Nat) (div2 : D → D → D)
    (hord : StrictOrder ops)
    (hbelow : ∀ t, t < nTest → ∀ g, g < (readFileNames content).length →
      ∀ c, c < CCLAlgorithms.length → ops.lt (w.perfLast t g c) ops.dblMax = true)
    (hrun : density_size_test ops w CCLAlgorithms input_path input_folder content nTest
      = some b)
    (hi : i < CCLAlgorithms.length) :
    ((b.supp_density i j).2 = 0 →
      densityAverage ops b i j = ops.zero ∧
      densityAverage { ops with div := div2 } b i j = ops.zero ∧
      densityFlag ops b CCLAlgorithms.length j = some true) ∧
    ((b.supp_normalized_density i j).2 = 0 →
      densityNormalizedAverage ops b i j = ops.zero ∧
      densityNormalizedAverage { ops with div := div2 } b i j = ops.zero ∧
      densityFlag ops b CCLAlgorithms.length j = some true) ∧
    ((b.supp_size i j).2 = 0 →
      sizeAverage ops b i j = ops.zero ∧
      sizeAverage { ops with div := div2 } b i j = ops.zero ∧
      sizeFlag ops b CCLAlgorithms.length j = some true) := by
  obtain ⟨h1, h2, h3⟩ := density_size_test_countsAgree ops w CCLAlgorithms input_path
    input_folder content nTest b hord (fun t g c ht hg hc => hbelow t ht g hg c hc) hrun
  have h0 : 0 < CCLAlgorithms.length := by omega
  refine ⟨?_, ?_, ?_⟩
  · intro hz
    have hz0 : (b.supp_density 0 j).2 = 0 := by rw [← h1 i j hi, hz]
    simp [densityAverage, densityFlag, hz, hz0, h0]
  · intro hz
    have hz1 : (b.supp_density i j).2 = 0 := by rw [← h3 i j, hz]
    have hz0 : (b.supp_density 0 j).2 = 0 := by rw [← h1 i j hi, hz1]
    simp [densityNormalizedAverage, densityAverage, densityFlag, hz1, hz0, h0]
  · intro hz
    have hz0 : (b.supp_size 0 j).2 = 0 := by rw [← h2 i j hi, hz]
    simp [sizeAverage, sizeFlag, hz, hz0, h0]

/-- Witness for C19: in the example run no file has density index 0; the bucket of
density 0 of the second algorithm has count zero, its average is 0 and the row is
marked. -/
theorem zero_count_average_and_flag_witness :
    ∃ b, density_size_test microOps demoTiming demoAlgs "in".toList "d".toList
        "a.png\nlate.png\nzz.png\n012.png\n".toList 3 = some b ∧
      (b.supp_density 1 0).2 = 0 ∧
      densityAverage microOps b 1 0 = microOps.zero ∧
      densityFlag microOps b demoAlgs.length 0 = some true :=
  ⟨Option.getD (density_size_test microOps demoTiming demoAlgs "in".toList "d".toList
      "a.png\nlate.png\nzz.png\n012.png\n".toList 3) (initBuckets microOps),
   eq_some_getD _ _ (by decide), by decide,
   (((zero_count_average_and_flag microOps demoTiming demoAlgs "in".toList "d".toList
      "a.png\nlate.png\nzz.png\n012.png\n".toList 3
      (Option.getD (density_size_test microOps demoTiming demoAlgs "in".toList "d".toList
        "a.png\nlate.png\nzz.png\n012.png\n".toList 3) (initBuckets microOps))
      1 0 microOps.div microOps_strictOrder (by decide) (eq_some_getD _ _ (by decide))
      (by decide)).1
      (by decide)).1),
   (((zero_count_average_and_flag microOps demoTiming demoAlgs "in".toList "d".toList
      "a.png\nlate.png\nzz.png\n012.png\n".toList 3
      (Option.getD (density_size_test microOps demoTiming demoAlgs "in".toList "d".toList
        "a.png\nlate.png\nzz.png\n012.png\n".toList 3) (initBuckets microOps))
      1 0 microOps.div microOps_strictOrder (by decide) (eq_some_getD _ _ (by decide))
      (by decide)).1
      (by decide)).2.2)⟩

/-- C20, evidence of the divergence: on the list `012.png`, with one algorithm and one
trial in which the stopwatch returns `0.0`, the density bucket 1 and the size bucket 0
have count 1 and average `0.0`, and their rows are written with the mark `#`: the tests
of lines 813 and 835 read the average, not the count. -/
theorem flag_on_zero_average :
    (density_size_test microOps demoZero [(demoGood, "good".toList)] "in".toList "d".toList
        "012.png\n".toList 1).map (fun b => (b.supp_density 0 1).2) = some 1 ∧
    (density_size_test microOps demoZero [(demoGood, "good".toList)] "in".toList "d".toList
        "012.png\n".toList 1).map (fun b => densityAverage microOps b 0 1)
      = some (some 0) ∧
    (density_size_test microOps demoZero [(demoGood, "good".toList)] "in".toList "d".toList
        "012.png\n".toList 1).map (fun b => densityFlag microOps b 1 1)
      = some (some true) ∧
    (density_size_test microOps demoZero [(demoGood, "good".toList)] "in".toList "d".toList
        "012.png\n".toList 1).map (fun b => (b.supp_size 0 0).2) = some 1 ∧
    (density_size_test microOps demoZero [(demoGood, "good".toList)] "in".toList "d".toList
        "012.png\n".toList 1).map (fun b => sizeAverage microOps b 0 0)
      = some (some 0) ∧
    (density_size_test microOps demoZero [(demoGood, "good".toList)] "in".toList "d".toList
        "012.png\n".toList 1).map (fun b => sizeFlag microOps b 1 0)
      = some (some true) := by
  decide

/-! ## Frame properties -/

/-- C28: `normalizeLabels` preserves the foreground mask: for every label map the
number of rows and the length of every row are unchanged, every pixel whose value is not
positive keeps its value, and every pixel whose value is positive has a positive value
afterwards. -/
theorem normalizeLabels_preserves_mask (L : Mat1i) :
    dims (normalizeLabels L) = dims L ∧
    (normalizeLabels L).length = L.length ∧
    ∀ r c a, pixel L r c = some a →
      (¬ 0 < a → pixel (normalizeLabels L) r c = some a) ∧
      (0 < a → ∃ b, pixel (normalizeLabels L) r c = some b ∧ 0 < b) := by
  refine ⟨dims_normalizeLabels L, ?_, ?_⟩
  · rw [normalizeLabels_eq_rankRelabel, List.length_map]
  · intro r c a ha
    rw [normalizeLabels_eq_rankRelabel, pixel_map, ha]
    constructor
    · intro hneg
      simp [rankRelabel, hneg]
    · intro hpos
      exact ⟨rankRelabel L.flatten a, rfl, (rankRelabel_pos_iff (pixel_mem ha)).2 hpos⟩

/-! ## The divisor of the progress display -/

/-- C25, evidence of the divergence: the list file `a.png`, one line without a newline at
its end, holds no newline character, so `fileNumber` is 0, while `getline` yields the
line; the progress display divides by zero on it and the run of `checkAlgorithms` ends
there. -/
theorem progress_divisor_zero :
    fileNumberOf "a.png".toList = 0 ∧
    getlines "a.png".toList = ["a.png".toList] ∧
    progressChanged 0 (fileNumberOf "a.png".toList) = none ∧
    (checkAlgorithms demoNoNewline demoAlgs ["d".toList] "in".toList
      "files.txt".toList).aborted = true ∧
    checkReport demoNoNewline demoAlgs ["d".toList] "in".toList "files.txt".toList
      = Report.aborted := by
  decide

/-! ## Invariants of the counts of the buckets -/

theorem bucketCell_normalized_count {D : Type} [DecidableEq D] (ops : DoubleOps D)
    (names : List Str) (st : TrialState D) (f c : Nat) (b b2 : Buckets D)
    (hb : ∀ i j, (b.supp_normalized_density i j).2 = (b.supp_density i j).2)
    (h : bucketCell ops names st f c b = some b2) :
    ∀ i j, (b2.supp_normalized_density i j).2 = (b2.supp_density i j).2 := by
  by_cases hr : contributes ops names st f c = true →
      densityIndex names f < densityBuckets ∧ sizeIndex names f < sizeBuckets
  · rw [bucketCell_eq ops names st f c b hr] at h
    simp only [Option.some.injEq] at h
    subst h
    intro i j
    simp only
    by_cases hc : i = c ∧ j = densityIndex names f ∧ contributes ops names st f c = true
    · simp only [hc, and_self, if_true, bump]
      rw [hb]
    · simp only [hc, if_false, hb i j]
  · have hcon : contributes ops names st f c = true := by
      by_contra hcon
      exact hr (fun h2 => absurd h2 hcon)
    rw [bucketCell_none ops names st f c b hcon (fun h2 => hr (fun _ => h2))] at h
    cases h

theorem bucketFile_normalized_count {D : Type} [DecidableEq D] (ops : DoubleOps D)
    (names : List Str) (st : TrialState D) (cols f : Nat) (b b2 : Buckets D)
    (hb : ∀ i j, (b.supp_normalized_density i j).2 = (b.supp_density i j).2)
    (h : bucketFile ops names st cols f b = some b2) :
    ∀ i j, (b2.supp_normalized_density i j).2 = (b2.supp_density i j).2 :=
  foldlM_range_inv (fun acc c => bucketCell ops names st f c acc)
    (fun x => ∀ i j, (x.supp_normalized_density i j).2 = (x.supp_density i j).2)
    (fun a k a2 ha hstep => bucketCell_normalized_count ops names st f k a a2 ha hstep)
    cols b b2 hb h

theorem bucketPoint_normalized_count {D : Type} [DecidableEq D] (ops : DoubleOps D)
    (names : List Str) (st : TrialState D) (cols k c : Nat) (b : Buckets D)
    (h : bucketPoint ops names st cols k c = some b) :
    ∀ i j, (b.supp_normalized_density i j).2 = (b.supp_density i j).2 := by
  unfold bucketPoint at h
  cases h1 : (List.range k).foldlM (fun acc files => bucketFile ops names st cols files acc)
      (initBuckets ops) with
  | none =>
    rw [h1] at h
    cases h
  | some b1 =>
    rw [h1, Option.some_bind] at h
    have hb1 : ∀ i j, (b1.supp_normalized_density i j).2 = (b1.supp_density i j).2 :=
      foldlM_range_inv (fun acc files => bucketFile ops names st cols files acc)
        (fun x => ∀ i j, (x.supp_normalized_density i j).2 = (x.supp_density i j).2)
        (fun a f a2 ha hstep => bucketFile_normalized_count ops names st cols f a a2 ha hstep)
        k (initBuckets ops) b1 (fun _ _ => rfl) h1
    exact foldlM_range_inv (fun acc col => bucketCell ops names st k col acc)
      (fun x => ∀ i j, (x.supp_normalized_density i j).2 = (x.supp_density i j).2)
      (fun a col a2 ha hstep => bucketCell_normalized_count ops names st k col a a2 ha hstep)
      c b1 b hb1 h

theorem bucketPoint_end {D : Type} [DecidableEq D] (ops : DoubleOps D)
    (names : List Str) (st : TrialState D) (cols : Nat) :
    bucketPoint ops names st cols names.length 0 = bucketAll ops names st cols := by
  unfold bucketPoint bucketAll
  cases (List.range names.length).foldlM
    (fun acc files => bucketFile ops names st cols files acc) (initBuckets ops) <;> rfl

/-- C26: in `density_size_test`, the times being below the marker and the accumulation
staying within the bucket vectors, the count of every density, normalized density and
size bucket is the same for every configured algorithm; so a bucket is empty for the
first algorithm if and only if it is empty for all of them. -/
theorem bucket_counts_same_for_all_algorithms {D : Type} [DecidableEq D]
    (ops : DoubleOps D) (w : TimingWorld D) (CCLAlgorithms : List (CCLPointer × Str))
    (input_path input_folder content : Str) (nTest : Nat) (b : Buckets D) (i j : Nat)
    (hord : StrictOrder ops)
    (hbelow : ∀ t, t < nTest → ∀ g, g < (readFileNames content).length →
      ∀ c, c < CCLAlgorithms.length → ops.lt (w.perfLast t g c) ops.dblMax = true)
    (hrun : density_size_test ops w CCLAlgorithms input_path input_folder content nTest
      = some b)
    (hi : i < CCLAlgorithms.length) :
    (b.supp_density i j).2 = (b.supp_density 0 j).2 ∧
    (b.supp_normalized_density i j).2 = (b.supp_normalized_density 0 j).2 ∧
    (b.supp_size i j).2 = (b.supp_size 0 j).2 ∧
    ((b.supp_density 0 j).2 = 0 ↔
      ∀ k, k < CCLAlgorithms.length → (b.supp_density k j).2 = 0) ∧
    ((b.supp_size 0 j).2 = 0 ↔
      ∀ k, k < CCLAlgorithms.length → (b.supp_size k j).2 = 0) := by
  obtain ⟨h1, h2, h3⟩ := density_size_test_countsAgree ops w CCLAlgorithms input_path
    input_folder content nTest b hord (fun t g c ht hg hc => hbelow t ht g hg c hc) hrun
  have h0 : 0 < CCLAlgorithms.length := by omega
  refine ⟨h1 i j hi, ?_, h2 i j hi, ?_, ?_⟩
  · rw [h3 i j, h3 0 j, h1 i j hi]
  · constructor
    · intro hz k hk
      rw [h1 k j hk, hz]
    · intro hall
      exact hall 0 h0
  · constructor
    · intro hz k hk
      rw [h2 k j hk, hz]
    · intro hall
      exact hall 0 h0

/-- Witness for C26: in the example run the density bucket 1 has count 1 for the second
algorithm as for the first. -/
theorem bucket_counts_same_for_all_algorithms_witness :
    ∃ b, density_size_test microOps demoTiming demoAlgs "in".toList "d".toList
        "a.png\nlate.png\nzz.png\n012.png\n".toList 3 = some b ∧
      (b.supp_density 0 1).2 = 1 ∧
      (b.supp_density 1 1).2 = (b.supp_density 0 1).2 :=
  ⟨Option.getD (density_size_test microOps demoTiming demoAlgs "in".toList "d".toList
      "a.png\nlate.png\nzz.png\n012.png\n".toList 3) (initBuckets microOps),
   eq_some_getD _ _ (by decide), by decide,
   (bucket_counts_same_for_all_algorithms microOps demoTiming demoAlgs "in".toList
      "d".toList "a.png\nlate.png\nzz.png\n012.png\n".toList 3
      (Option.getD (density_size_test microOps demoTiming demoAlgs "in".toList "d".toList
        "a.png\nlate.png\nzz.png\n012.png\n".toList 3) (initBuckets microOps))
      1 1 microOps_strictOrder (by decide) (eq_some_getD _ _ (by decide))
      (by decide)).1⟩

/-- C27: in `density_size_test`, at every point of the accumulation of lines 758-779
(after any number of files and any number of columns of the next file) the count of the
normalized density accumulator of every algorithm and density index equals the count of
the plain density accumulator; so at the end, where the plain count is not zero, the
count by which the normalized average is divided is not zero either. -/
theorem normalized_count_equals_density_count {D : Type} [DecidableEq D]
    (ops : DoubleOps D) (w : TimingWorld D) (CCLAlgorithms : List (CCLPointer × Str))
    (input_path input_folder content : Str) (nTest : Nat) (b : Buckets D)
    (hrun : density_size_test ops w CCLAlgorithms input_path input_folder content nTest
      = some b) :
    (∀ k c p, bucketPoint ops (readFileNames content)
        (dsTrials ops w CCLAlgorithms.length input_path input_folder
          (readFileNames content) nTest) CCLAlgorithms.length k c = some p →
      ∀ i j, (p.supp_normalized_density i j).2 = (p.supp_density i j).2) ∧
    (∀ i j, (b.supp_normalized_density i j).2 = (b.supp_density i j).2) ∧
    (∀ i j, (b.supp_density i j).2 ≠ 0 →
      (b.supp_normalized_density i j).2 ≠ 0 ∧
      densityNormalizedAverage ops b i j =
        ops.div (b.supp_normalized_density i j).1
          (ops.ofCount (b.supp_normalized_density i j).2)) := by
  have hend : ∀ i j, (b.supp_normalized_density i j).2 = (b.supp_density i j).2 := by
    apply bucketPoint_normalized_count ops (readFileNames content)
      (dsTrials ops w CCLAlgorithms.length input_path input_folder
        (readFileNames content) nTest) CCLAlgorithms.length (readFileNames content).length 0
    rw [bucketPoint_end]
    exact hrun
  refine ⟨?_, hend, ?_⟩
  · intro k c p hp
    exact bucketPoint_normalized_count ops _ _ _ k c p hp
  · intro i j hne
    refine ⟨by rw [hend]; exact hne, ?_⟩
    simp only [densityNormalizedAverage, hne, ne_eq, not_false_eq_true, if_true]

/-- Witness for C27: in the example run the normalized accumulator of the second
algorithm for density index 1 has count 1, as the plain one. -/
theorem normalized_count_equals_density_count_witness :
    ∃ b, density_size_test microOps demoTiming demoAlgs "in".toList "d".toList
        "a.png\nlate.png\nzz.png\n012.png\n".toList 3 = some b ∧
      (b.supp_density 1 1).2 = 1 ∧
      (b.supp_normalized_density 1 1).2 = (b.supp_density 1 1).2 :=
  ⟨Option.getD (density_size_test microOps demoTiming demoAlgs "in".toList "d".toList
      "a.png\nlate.png\nzz.png\n012.png\n".toList 3) (initBuckets microOps),
   eq_some_getD _ _ (by decide), by decide,
   (normalized_count_equals_density_count microOps demoTiming demoAlgs "in".toList
      "d".toList "a.png\nlate.png\nzz.png\n012.png\n".toList 3
      (Option.getD (density_size_test microOps demoTiming demoAlgs "in".toList "d".toList
        "a.png\nlate.png\nzz.png\n012.png\n".toList 3) (initBuckets microOps))
      (eq_some_getD _ _ (by decide))).2.1 1 1⟩

/-! ## The size values -/

/-- C21: in `density_size_test`, for every size bucket `i` in `0 .. 7`, the label of the
bucket is the edge length `32 * 2^i` and the size value written is its square
`(2^(i+5))^2 = 4^(i+5)`, between 1024 and 16777216; both conversions to `int` are
defined, the values being below `2^31`. -/
theorem size_value_is_squared_edge (i : Nat) (hi : i < sizeBuckets) :
    sizeLabel i = some (32 * 2 ^ i) ∧
    sizeValue i = some (((2 ^ (i + 5)) ^ 2 : Nat) : Int) ∧
    (2 ^ (i + 5)) ^ 2 = 4 ^ (i + 5) ∧
    1024 ≤ (2 ^ (i + 5)) ^ 2 ∧ (2 ^ (i + 5)) ^ 2 ≤ 16777216 ∧
    (2 ^ (i + 5)) ^ 2 < 2 ^ 31 := by
  unfold sizeBuckets at hi
  interval_cases i <;> decide

/-- Witness for C21: the first size value is 1024 and the last 16777216. -/
theorem size_value_is_squared_edge_witness :
    sizeValue 0 = some 1024 ∧ sizeValue 7 = some 16777216 ∧
    sizeValue 7 = some (((2 ^ (7 + 5)) ^ 2 : Nat) : Int) :=
  ⟨by decide, by decide, (size_value_is_squared_edge 7 (by decide)).2.1⟩

/-! ## The abort of `main` on the lists of algorithms -/

theorem selectAlgorithms_events {α : Type} (table : Str → Option α) (algName : List Str) :
    ∀ (l : List Str) (i : Nat) (acc r : List (α × Str) × List MainEvent),
      selectAlgorithms table algName l i acc = some r →
      ∀ e ∈ r.2, e ∈ acc.2 ∨ ∃ n, e = MainEvent.notFound n
  | [], _, acc, r, h => by
    simp only [selectAlgorithms, Option.some.injEq] at h
    subst h
    intro e he
    exact Or.inl he
  | f :: rest, i, acc, r, h => by
    simp only [selectAlgorithms] at h
    cases ht : table f with
    | none =>
      rw [ht] at h
      intro e he
      rcases selectAlgorithms_events table algName rest (i + 1) _ r h e he with h1 | h1
      · simp only [List.mem_append, List.mem_singleton] at h1
        rcases h1 with h1 | h1
        · exact Or.inl h1
        · exact Or.inr ⟨f, h1⟩
      · exact Or.inr h1
    | some p =>
      rw [ht] at h
      cases hn : algName[i]? with
      | none =>
        rw [hn] at h
        cases h
      | some name =>
        rw [hn] at h
        intro e he
        exact selectAlgorithms_events table algName rest (i + 1) _ r h e he

theorem main_no_algorithmsMessage (cfg : Config) (w : MainWorld)
    (hok : ¬ (cfg.funcName.length ≠ cfg.algName.length ∨ cfg.funcName.length = 0))
    (r : Nat × List MainEvent) (h : main cfg w = some r) :
    MainEvent.algorithmsMessage ∉ r.2 := by
  unfold main at h
  rw [if_neg hok] at h
  cases h1 : selectAlgorithms w.CCLAlgorithmsMap cfg.algName cfg.funcName 0 ([], []) with
  | none =>
    rw [h1] at h
    cases h
  | some p1 =>
    obtain ⟨CCLAlgorithms, ev1⟩ := p1
    rw [h1] at h
    have hev1 : MainEvent.algorithmsMessage ∉ ev1 := by
      intro hm
      rcases selectAlgorithms_events _ _ _ _ _ _ h1 _ hm with h2 | ⟨n, h2⟩
      · cases h2
      · cases h2
    simp only at h
    split at h
    · simp only [Option.some.injEq] at h
      subst h
      simp [hev1]
    · cases h3 : selectAlgorithms w.CCLMemAlgorithmsMap cfg.algoMemName cfg.funcMemName 0
          ([], ev1) with
      | none =>
        rw [h3] at h
        cases h
      | some p2 =>
        obtain ⟨CCLMemAlgorithms, ev2⟩ := p2
        rw [h3] at h
        have hev2 : MainEvent.algorithmsMessage ∉ ev2 := by
          intro hm
          rcases selectAlgorithms_events _ _ _ _ _ _ h3 _ hm with h2 | ⟨n, h2⟩
          · exact hev1 h2
          · cases h2
        simp only at h
        split at h
        · simp only [Option.some.injEq] at h
          subst h
          exact hev2
        · simp only [Option.some.injEq] at h
          subst h
          simp only [List.mem_append, not_or]
          refine ⟨⟨⟨⟨hev2, ?_⟩, ?_⟩, ?_⟩, ?_⟩
          · unfold mainCheck
            split <;> simp
          · unfold mainAverages
            split
            · split <;> simp
            · simp
          · unfold mainDensitySize
            split
            · split <;> simp
            · simp
          · unfold mainMemory
            split
            · simp
            · simp [List.mem_flatMap]

/-- C24: `main` returns 1 with no other step than its message, hence before the checker
or any test is run, if and only if the list of function identifiers is empty or its
length differs from that of the list of display names; with lists of equal length that
are not empty, a run never prints that message, whatever else happens. -/
theorem main_aborts_on_algorithm_lists (cfg : Config) (w : MainWorld) :
    (main cfg w = some (1, [MainEvent.algorithmsMessage]) ↔
      (cfg.funcName.length = 0 ∨ cfg.funcName.length ≠ cfg.algName.length)) ∧
    ((cfg.funcName.length = 0 ∨ cfg.funcName.length ≠ cfg.algName.length) →
      ∃ r, main cfg w = some r ∧ r.1 = 1 ∧ ∀ e ∈ r.2, isTestEvent e = false) ∧
    (¬ (cfg.funcName.length = 0 ∨ cfg.funcName.length ≠ cfg.algName.length) →
      ∀ r, main cfg w = some r → MainEvent.algorithmsMessage ∉ r.2) := by
  have habort : (cfg.funcName.length = 0 ∨ cfg.funcName.length ≠ cfg.algName.length) →
      main cfg w = some (1, [MainEvent.algorithmsMessage]) := by
    intro h
    unfold main
    rw [if_pos (Or.symm h)]
  have hrun : ¬ (cfg.funcName.length = 0 ∨ cfg.funcName.length ≠ cfg.algName.length) →
      ∀ r, main cfg w = some r → MainEvent.algorithmsMessage ∉ r.2 := by
    intro h r hr
    exact main_no_algorithmsMessage cfg w (fun h2 => h (Or.symm h2)) r hr
  refine ⟨⟨?_, habort⟩, ?_, hrun⟩
  · intro hm
    by_contra hne
    exact hrun hne _ hm (List.mem_singleton.2 rfl)
  · intro h
    refine ⟨_, habort h, rfl, ?_⟩
    intro e he
    simp only [List.mem_singleton] at he
    subst he
    rfl

/-- Witness for C24: with two function identifiers and one display name `main` returns 1
after its message alone; with two of each it runs the checker. -/
theorem main_aborts_on_algorithm_lists_witness :
    main { demoConfig with algName := ["F".toList] } demoMainWorld
      = some (1, [MainEvent.algorithmsMessage]) ∧
    (main demoConfig demoMainWorld).map (fun r => (r.1, r.2.take 2))
      = some (0, [MainEvent.notFound "g".toList, MainEvent.checkAlgorithms ["F".toList]]) :=
  ⟨(main_aborts_on_algorithm_lists { demoConfig with algName := ["F".toList] }
      demoMainWorld).1.2 (Or.inr (by decide)),
   by decide⟩

/-! ## The counts are 16-bit -/

theorem bumpFold_eq {D : Type} (ops : DoubleOps D) (p : Nat → Bool) (v : Nat → D) :
    ∀ (n : Nat),
    (List.range n).foldl (fun s f => if p f = true then bump ops (v f) s else s)
        (ops.zero, 0) =
      (sumOver ops v ((List.range n).filter p), ((List.range n).filter p).length % 65536)
  | 0 => by simp [sumOver]
  | n + 1 => by
    rw [foldl_range_succ, bumpFold_eq ops p v n]
    cases h : p n
    · simp [List.range_succ, List.filter_append, h]
    · simp [List.range_succ, List.filter_append, h, bump, sumOver, List.foldl_append]

theorem foldlM_range_eq_foldl {α : Type} (g : α → Nat → Option α) (h : α → Nat → α)
    (hstep : ∀ a k a2, g a k = some a2 → a2 = h a k) :
    ∀ (n : Nat) (a a2 : α), (List.range n).foldlM g a = some a2 →
      a2 = (List.range n).foldl h a
  | 0, a, a2, hr => by
    simp only [List.range_zero, List.foldlM_nil, pure, Option.some.injEq] at hr
    simp only [List.range_zero, List.foldl_nil]
    exact hr.symm
  | n + 1, a, a2, hr => by
    rw [foldlM_range_succ] at hr
    cases h1 : (List.range n).foldlM g a with
    | none =>
      rw [h1] at hr
      cases hr
    | some a1 =>
      rw [h1, Option.some_bind] at hr
      rw [foldl_range_succ, ← foldlM_range_eq_foldl g h hstep n a a1 h1]
      exact hstep a1 n a2 hr

theorem bucketFile_some {D : Type} [DecidableEq D] (ops : DoubleOps D) (names : List Str)
    (st : TrialState D) (cols f : Nat) (b b2 : Buckets D)
    (h : bucketFile ops names st cols f b = some b2) :
    b2 = bucketsAfterFile ops names st cols f b := by
  by_cases hr : IndicesInRange ops names st cols f
  · rw [bucketFile_eq ops names st f b cols hr] at h
    simp only [Option.some.injEq] at h
    exact h.symm
  · rw [bucketFile_none ops names st f b cols hr] at h
    cases h

/-- The accumulators after the first `n` files, cell by cell. -/
theorem bucketsAfterFiles_cell {D : Type} [DecidableEq D] (ops : DoubleOps D)
    (names : List Str) (st : TrialState D) (cols i j : Nat) (hi : i < cols) :
    ∀ (n : Nat),
    ((List.range n).foldl (fun b f => bucketsAfterFile ops names st cols f b)
        (initBuckets ops)).supp_density i j =
      (List.range n).foldl
        (fun s f =>
          if (contributes ops names st f i && decide (densityIndex names f = j)) = true then
            bump ops (st.min_res f i) s else s) (ops.zero, 0) ∧
    ((List.range n).foldl (fun b f => bucketsAfterFile ops names st cols f b)
        (initBuckets ops)).supp_normalized_density i j =
      (List.range n).foldl
        (fun s f =>
          if (contributes ops names st f i && decide (densityIndex names f = j)) = true then
            bump ops (ops.div (st.min_res f i) (st.NULL_labeling f)) s else s)
        (ops.zero, 0) ∧
    ((List.range n).foldl (fun b f => bucketsAfterFile ops names st cols f b)
        (initBuckets ops)).supp_size i j =
      (List.range n).foldl
        (fun s f =>
          if (contributes ops names st f i && decide (sizeIndex names f = j)) = true then
            bump ops (st.min_res f i) s else s) (ops.zero, 0)
  | 0 => by
    simp [initBuckets]
  | n + 1 => by
    obtain ⟨h1, h2, h3⟩ := bucketsAfterFiles_cell ops names st cols i j hi n
    simp only [foldl_range_succ]
    rw [← h1, ← h2, ← h3]
    simp only [bucketsAfterFile, hi, true_and, Bool.and_eq_true, decide_eq_true_eq]
    refine ⟨?_, ?_, ?_⟩
    · by_cases hc : j = densityIndex names n ∧ contributes ops names st n i = true
      · rw [if_pos hc, if_pos ⟨hc.2, hc.1.symm⟩]
      · rw [if_neg hc, if_neg (fun h => hc ⟨h.2.symm, h.1⟩)]
    · by_cases hc : j = densityIndex names n ∧ contributes ops names st n i = true
      · rw [if_pos hc, if_pos ⟨hc.2, hc.1.symm⟩]
      · rw [if_neg hc, if_neg (fun h => hc ⟨h.2.symm, h.1⟩)]
    · by_cases hc : j = sizeIndex names n ∧ contributes ops names st n i = true
      · rw [if_pos hc, if_pos ⟨hc.2, hc.1.symm⟩]
      · rw [if_neg hc, if_neg (fun h => hc ⟨h.2.symm, h.1⟩)]

/-- The accumulators at the end of the loop of lines 758-779: each is the sum over its
contributing files, in order, with their number modulo 2^16. -/
theorem bucketAll_eq {D : Type} [DecidableEq D] (ops : DoubleOps D) (names : List Str)
    (st : TrialState D) (cols i j : Nat) (b : Buckets D) (hi : i < cols)
    (h : bucketAll ops names st cols = some b) :
    b.supp_density i j =
      (sumOver ops (fun f => st.min_res f i) (densityContributors ops names st i j),
        (densityContributors ops names st i j).length % 65536) ∧
    b.supp_normalized_density i j =
      (sumOver ops (fun f => ops.div (st.min_res f i) (st.NULL_labeling f))
          (densityContributors ops names st i j),
        (densityContributors ops names st i j).length % 65536) ∧
    b.supp_size i j =
      (sumOver ops (fun f => st.min_res f i) (sizeContributors ops names st i j),
        (sizeContributors ops names st i j).length % 65536) := by
  unfold bucketAll at h
  have hb := foldlM_range_eq_foldl
    (fun acc files => bucketFile ops names st cols files acc)
    (fun b f => bucketsAfterFile ops names st cols f b)
    (fun a k a2 hk => bucketFile_some ops names st cols k a a2 hk)
    names.length (initBuckets ops) b h
  obtain ⟨h1, h2, h3⟩ := bucketsAfterFiles_cell ops names st cols i j hi names.length
  rw [hb, h1, h2, h3, bumpFold_eq, bumpFold_eq, bumpFold_eq]
  exact ⟨rfl, rfl, rfl⟩

/-- C29: the counts of the accumulators are 16-bit.  In `averages_test` the count stored
for algorithm `i` is the number of available rows of its column modulo 65536, and the
average stored is the sum divided by that number when it is below 65536.  In
`density_size_test`, the accumulation staying within the bucket vectors, the counts
stored for a density bucket (plain and normalized) and for a size bucket of algorithm `i`
are the numbers of files that contribute to the bucket modulo 65536, and each average is
the sum over these files divided by their number when there is at least one and fewer
than 65536 of them. -/
theorem counts_are_sixteen_bit {D : Type} [DecidableEq D] (ops : DoubleOps D)
    (w : TimingWorld D) (CCLAlgorithms : List (CCLPointer × Str))
    (all_res : Nat → Nat → D) (alg_pos : Nat) (input_path input_folder content : Str)
    (nTest i j : Nat) (b : Buckets D) (stA stD : TrialState D)
    (hA : stA = avgTrials ops w CCLAlgorithms.length input_path input_folder
      (readFileNames content) nTest)
    (hD : stD = dsTrials ops w CCLAlgorithms.length input_path input_folder
      (readFileNames content) nTest)
    (hi : i < CCLAlgorithms.length)
    (hrun : density_size_test ops w CCLAlgorithms input_path input_folder content nTest
      = some b) :
    ((suppAverages ops stA.min_res (readFileNames content).length CCLAlgorithms.length i).2
        = (availableRows ops stA.min_res (readFileNames content).length i).length % 65536 ∧
      ((availableRows ops stA.min_res (readFileNames content).length i).length < 65536 →
        averages_test ops w CCLAlgorithms all_res alg_pos input_path input_folder content
            nTest alg_pos i =
          ops.div
            (sumOfRows ops stA.min_res i
              (availableRows ops stA.min_res (readFileNames content).length i))
            (ops.ofCount
              (availableRows ops stA.min_res (readFileNames content).length i).length))) ∧
    ((b.supp_density i j).2
        = (densityContributors ops (readFileNames content) stD i j).length % 65536 ∧
      (b.supp_normalized_density i j).2
        = (densityContributors ops (readFileNames content) stD i j).length % 65536 ∧
      (b.supp_size i j).2
        = (sizeContributors ops (readFileNames content) stD i j).length % 65536) ∧
    (0 < (densityContributors ops (readFileNames content) stD i j).length →
      (densityContributors ops (readFileNames content) stD i j).length < 65536 →
      densityAverage ops b i j =
        ops.div
          (sumOver ops (fun f => stD.min_res f i)
            (densityContributors ops (readFileNames content) stD i j))
          (ops.ofCount (densityContributors ops (readFileNames content) stD i j).length) ∧
      densityNormalizedAverage ops b i j =
        ops.div
          (sumOver ops (fun f => ops.div (stD.min_res f i) (stD.NULL_labeling f))
            (densityContributors ops (readFileNames content) stD i j))
          (ops.ofCount (densityContributors ops (readFileNames content) stD i j).length)) ∧
    (0 < (sizeContributors ops (readFileNames content) stD i j).length →
      (sizeContributors ops (readFileNames content) stD i j).length < 65536 →
      sizeAverage ops b i j =
        ops.div
          (sumOver ops (fun f => stD.min_res f i)
            (sizeContributors ops (readFileNames content) stD i j))
          (ops.ofCount (sizeContributors ops (readFileNames content) stD i j).length)) := by
  subst hA hD
  simp only [density_size_test] at hrun
  obtain ⟨h1, h2, h3⟩ := bucketAll_eq ops (readFileNames content) _ CCLAlgorithms.length i j b
    hi hrun
  refine ⟨⟨?_, ?_⟩, ⟨?_, ?_, ?_⟩, ?_, ?_⟩
  · rw [suppAverages_eq]
    simp only [hi, if_true, colFold_eq]
  · intro hlt
    have hstore : averages_test ops w CCLAlgorithms all_res alg_pos input_path input_folder
        content nTest =
        storeAverages ops all_res alg_pos
          (avgTrials ops w CCLAlgorithms.length input_path input_folder
            (readFileNames content) nTest).min_res
          (readFileNames content).length CCLAlgorithms.length := rfl
    rw [hstore, storeAverages_eq]
    simp only [hi, and_self, if_true, Nat.mod_eq_of_lt hlt]
  · rw [h1]
  · rw [h2]
  · rw [h3]
  · intro hpos hlt
    have hne : (densityContributors ops (readFileNames content)
        (dsTrials ops w CCLAlgorithms.length input_path input_folder
          (readFileNames content) nTest) i j).length ≠ 0 := by
      omega
    simp only [densityAverage, densityNormalizedAverage, h1, h2, Nat.mod_eq_of_lt hlt,
      ne_eq, hne, not_false_eq_true, if_true, and_self]
  · intro hpos hlt
    have hne : (sizeContributors ops (readFileNames content)
        (dsTrials ops w CCLAlgorithms.length input_path input_folder
          (readFileNames content) nTest) i j).length ≠ 0 := by
      omega
    simp only [sizeAverage, h3, Nat.mod_eq_of_lt hlt, ne_eq, hne, not_false_eq_true,
      if_true]

/-- Witness for C29: in the example run one file, `012.png`, contributes to the density
bucket 1 of the first algorithm: the count stored is 1 and the average is the sum 42
divided by 1. -/
theorem counts_are_sixteen_bit_witness :
    ∃ b, density_size_test microOps demoTiming demoAlgs "in".toList "d".toList
        "a.png\nlate.png\nzz.png\n012.png\n".toList 3 = some b ∧
      densityContributors microOps (readFileNames "a.png\nlate.png\nzz.png\n012.png\n".toList)
        (dsTrials microOps demoTiming demoAlgs.length "in".toList "d".toList
          (readFileNames "a.png\nlate.png\nzz.png\n012.png\n".toList) 3) 0 1 = [3] ∧
      densityAverage microOps b 0 1 = some 42 ∧
      (b.supp_density 0 1).2 =
        (densityContributors microOps
          (readFileNames "a.png\nlate.png\nzz.png\n012.png\n".toList)
          (dsTrials microOps demoTiming demoAlgs.length "in".toList "d".toList
            (readFileNames "a.png\nlate.png\nzz.png\n012.png\n".toList) 3) 0 1).length
          % 65536 :=
  ⟨Option.getD (density_size_test microOps demoTiming demoAlgs "in".toList "d".toList
      "a.png\nlate.png\nzz.png\n012.png\n".toList 3) (initBuckets microOps),
   eq_some_getD _ _ (by decide), by decide, by decide,
   (counts_are_sixteen_bit microOps demoTiming demoAlgs (fun _ _ => some 0) 0 "in".toList
      "d".toList "a.png\nlate.png\nzz.png\n012.png\n".toList 3 0 1
      (Option.getD (density_size_test microOps demoTiming demoAlgs "in".toList "d".toList
        "a.png\nlate.png\nzz.png\n012.png\n".toList 3) (initBuckets microOps))
      (avgTrials microOps demoTiming demoAlgs.length "in".toList "d".toList
        (readFileNames "a.png\nlate.png\nzz.png\n012.png\n".toList) 3)
      (dsTrials microOps demoTiming demoAlgs.length "in".toList "d".toList
        (readFileNames "a.png\nlate.png\nzz.png\n012.png\n".toList) 3)
      rfl rfl (by decide) (eq_some_getD _ _ (by decide))).2.1.1⟩

/-! ## `eraseDoubleEscape` -/

theorem charAt_append_self (pre : Str) (c : Char) (t : Str) :
    charAt (pre ++ c :: t) pre.length = c := by
  unfold charAt
  rw [List.getD_eq_getElem?_getD, List.getElem?_append_right (le_refl _)]
  simp

theorem charAt_append_succ (pre : Str) (c d : Char) (t : Str) :
    charAt (pre ++ c :: d :: t) (pre.length + 1) = d := by
  unfold charAt
  rw [List.getD_eq_getElem?_getD, List.getElem?_append_right (Nat.le_succ _)]
  simp

theorem eraseIdx_append_self (pre : Str) (c : Char) (t : Str) :
    (pre ++ c :: t).eraseIdx pre.length = pre ++ t := by
  rw [List.eraseIdx_append_of_length_le (le_refl _)]
  simp

theorem collapsePairs_pair (c d : Char) (rest : Str) (hp : c = d ∧ c = '\\') :
    collapsePairs (c :: d :: rest) = d :: collapsePairs rest := by
  rw [collapsePairs, if_pos hp]

theorem collapsePairs_nopair (c d : Char) (rest : Str) (hp : ¬ (c = d ∧ c = '\\')) :
    collapsePairs (c :: d :: rest) = c :: collapsePairs (d :: rest) := by
  rw [collapsePairs, if_neg hp]

/-- The loop of `eraseDoubleEscape` when it has kept `pre` and is about to read `suf`:
it returns `pre` followed by `suf` with its pairs collapsed. -/
theorem eraseLoop_spec : ∀ (fuel : Nat) (pre suf : Str),
    0 < (pre ++ suf).length → (pre ++ suf).length ≤ 2 ^ 32 → suf.length < fuel →
    eraseLoop fuel (pre ++ suf) pre.length = Erased.returned (pre ++ collapsePairs suf)
  | 0, _, suf, _, _, hf => absurd hf (Nat.not_lt_zero suf.length)
  | fuel + 1, pre, [], hpos, hlen, _ => by
    simp only [List.append_nil, List.length_append, List.length_nil, Nat.add_zero] at hpos hlen ⊢
    have hc : ¬ pre.length < (pre.length + 2 ^ 64 - 1) % 2 ^ 64 := by omega
    simp only [eraseLoop, hc, if_false, collapsePairs, List.append_nil]
  | fuel + 1, pre, [c], hpos, hlen, _ => by
    simp only [List.length_append, List.length_singleton] at hpos hlen
    have hc : ¬ pre.length < ((pre ++ [c]).length + 2 ^ 64 - 1) % 2 ^ 64 := by
      simp only [List.length_append, List.length_singleton]
      omega
    simp only [eraseLoop, hc, if_false, collapsePairs]
  | fuel + 1, pre, c :: d :: rest, hpos, hlen, hf => by
    simp only [List.length_append, List.length_cons] at hpos hlen hf
    have hc : pre.length < ((pre ++ c :: d :: rest).length + 2 ^ 64 - 1) % 2 ^ 64 := by
      simp only [List.length_append, List.length_cons]
      omega
    have hi : (pre.length + 1) % 2 ^ 32 = pre.length + 1 := by omega
    have hin : ¬ ((pre ++ c :: d :: rest).length < pre.length ∨
        (pre ++ c :: d :: rest).length < (pre.length + 1) % 2 ^ 32) := by
      simp only [List.length_append, List.length_cons]
      omega
    rw [eraseLoop, if_pos hc, if_neg hin, hi, charAt_append_self, charAt_append_succ]
    by_cases hp : c = d ∧ c = '\\'
    · rw [if_pos hp, eraseIdx_append_self, collapsePairs_pair c d rest hp]
      have h1 : pre ++ d :: rest = (pre ++ [d]) ++ rest := by simp
      have h2 : pre.length + 1 = (pre ++ [d]).length := by simp
      have h3 : pre ++ d :: collapsePairs rest = (pre ++ [d]) ++ collapsePairs rest := by simp
      have hl : ((pre ++ [d]) ++ rest).length ≤ 2 ^ 32 := by
        simp only [List.length_append, List.length_singleton]
        omega
      rw [h1, h2, h3]
      exact eraseLoop_spec fuel (pre ++ [d]) rest (by simp) hl (by omega)
    · rw [if_neg hp, collapsePairs_nopair c d rest hp]
      have h1 : pre ++ c :: d :: rest = (pre ++ [c]) ++ d :: rest := by simp
      have h2 : pre.length + 1 = (pre ++ [c]).length := by simp
      have h3 : pre ++ c :: collapsePairs (d :: rest)
          = (pre ++ [c]) ++ collapsePairs (d :: rest) := by simp
      have hl : ((pre ++ [c]) ++ d :: rest).length ≤ 2 ^ 32 := by
        simp only [List.length_append, List.length_cons, List.length_nil]
        omega
      have hfu : (d :: rest).length < fuel := by
        simp only [List.length_cons]
        omega
      rw [h1, h2, h3]
      exact eraseLoop_spec fuel (pre ++ [c]) (d :: rest) (by simp) hl hfu

theorem collapsePairs_cons_other (c : Char) (t : Str) (hc : c ≠ '\\') :
    collapsePairs (c :: t) = c :: collapsePairs t := by
  cases t with
  | nil => rfl
  | cons d rest => exact collapsePairs_nopair c d rest (fun h => hc h.2)

/-- A run of `k` backslashes followed by something else collapses to `⌈k / 2⌉`. -/
theorem collapsePairs_replicate (t : Str) (ht : ∀ d rest, t = d :: rest → d ≠ '\\') :
    ∀ (k : Nat), collapsePairs (List.replicate k '\\' ++ t) =
      List.replicate ((k + 1) / 2) '\\' ++ collapsePairs t
  | 0 => by simp
  | 1 => by
    cases t with
    | nil => rfl
    | cons d rest =>
      exact collapsePairs_nopair '\\' d rest (fun h => ht d rest rfl h.1.symm)
  | k + 2 => by
    have h1 : List.replicate (k + 2) '\\' ++ t = '\\' :: '\\' :: (List.replicate k '\\' ++ t) := by
      simp [List.replicate_succ]
    have h2 : (k + 2 + 1) / 2 = (k + 1) / 2 + 1 := by omega
    rw [h1, h2, List.replicate_succ, collapsePairs_pair '\\' '\\' _ ⟨rfl, rfl⟩,
      collapsePairs_replicate t ht k]
    rfl

theorem collapseRunsAux_cons_backslash (k : Nat) (t : Str) :
    collapseRunsAux k ('\\' :: t) = collapseRunsAux (k + 1) t := by
  rw [collapseRunsAux, if_pos rfl]

theorem collapseRunsAux_cons_other (k : Nat) (c : Char) (t : Str) (hc : c ≠ '\\') :
    collapseRunsAux k (c :: t) =
      List.replicate ((k + 1) / 2) '\\' ++ c :: collapseRunsAux 0 t := by
  rw [collapseRunsAux, if_neg hc]

theorem collapseRunsAux_zero_nil : collapseRunsAux 0 [] = [] := rfl

theorem collapsePairs_eq_aux : ∀ (s : Str) (k : Nat),
    collapsePairs (List.replicate k '\\' ++ s) = collapseRunsAux k s
  | [], k => by
    rw [collapsePairs_replicate [] (fun d rest h => by cases h) k]
    simp [collapseRunsAux, collapsePairs]
  | c :: t, k => by
    by_cases hc : c = '\\'
    · subst hc
      have h1 : List.replicate k '\\' ++ '\\' :: t = List.replicate (k + 1) '\\' ++ t := by
        rw [List.replicate_succ']
        simp
      rw [h1, collapsePairs_eq_aux t (k + 1), collapseRunsAux_cons_backslash]
    · rw [collapsePairs_replicate (c :: t) (fun d rest h => by cases h; exact hc) k,
        collapsePairs_cons_other c t hc, collapseRunsAux_cons_other k c t hc]
      have h0 := collapsePairs_eq_aux t 0
      simp only [List.replicate_zero, List.nil_append] at h0
      rw [h0]

theorem collapsePairs_eq (s : Str) : collapsePairs s = collapseRuns s := by
  have h := collapsePairs_eq_aux s 0
  simpa [collapseRuns] using h

/-- A part that ends with a character other than the backslash is collapsed on its own. -/
theorem collapseRunsAux_append (rest : Str) : ∀ (pre : Str) (k : Nat),
    pre ≠ [] → (∀ p c, pre = p ++ [c] → c ≠ '\\') →
    collapseRunsAux k (pre ++ rest) = collapseRunsAux k pre ++ collapseRunsAux 0 rest
  | [], _, hne, _ => absurd rfl hne
  | [c], k, _, hlast => by
    have hc : c ≠ '\\' := hlast [] c rfl
    have e : [c] ++ rest = c :: rest := rfl
    rw [e, collapseRunsAux_cons_other k c rest hc, collapseRunsAux_cons_other k c [] hc,
      collapseRunsAux_zero_nil]
    simp
  | c :: c2 :: t, k, _, hlast => by
    have hl : ∀ p x, c2 :: t = p ++ [x] → x ≠ '\\' := by
      intro p x hp
      exact hlast (c :: p) x (by rw [hp]; rfl)
    have ih := collapseRunsAux_append rest (c2 :: t)
    have e : c :: c2 :: t ++ rest = c :: (c2 :: t ++ rest) := rfl
    rw [e]
    by_cases hc : c = '\\'
    · subst hc
      rw [collapseRunsAux_cons_backslash, collapseRunsAux_cons_backslash]
      exact ih (k + 1) (by simp) hl
    · rw [collapseRunsAux_cons_other k c _ hc, collapseRunsAux_cons_other k c _ hc,
        ih 0 (by simp) hl]
      simp

/-- Every maximal run of `k` backslashes becomes a run of `⌈k / 2⌉`, whatever precedes
and follows it. -/
theorem collapseRuns_run (pre post : Str) (k : Nat)
    (hpre : ∀ p c, pre = p ++ [c] → c ≠ '\\')
    (hpost : ∀ d rest, post = d :: rest → d ≠ '\\') :
    collapseRuns (pre ++ List.replicate k '\\' ++ post) =
      collapseRuns pre ++ List.replicate ((k + 1) / 2) '\\' ++ collapseRuns post := by
  have hmid : collapseRunsAux 0 (List.replicate k '\\' ++ post) =
      List.replicate ((k + 1) / 2) '\\' ++ collapseRunsAux 0 post := by
    have h1 := collapsePairs_eq_aux (List.replicate k '\\' ++ post) 0
    have h2 := collapsePairs_eq_aux post 0
    simp only [List.replicate_zero, List.nil_append] at h1 h2
    rw [← h1, collapsePairs_replicate post hpost k, h2]
  unfold collapseRuns
  by_cases hne : pre = []
  · subst hne
    rw [List.nil_append, hmid, collapseRunsAux_zero_nil, List.nil_append]
  · rw [List.append_assoc, collapseRunsAux_append _ pre 0 hne hpre, hmid, List.append_assoc]

theorem filter_replicate_backslash (n : Nat) :
    (List.replicate n '\\').filter (fun c => c != '\\') = [] := by
  rw [List.filter_eq_nil_iff]
  intro a ha
  rw [List.eq_of_mem_replicate ha]
  decide

/-- The characters other than the backslash are kept, in order. -/
theorem collapseRunsAux_filter : ∀ (s : Str) (k : Nat),
    (collapseRunsAux k s).filter (fun c => c != '\\') = s.filter (fun c => c != '\\')
  | [], k => by
    rw [collapseRunsAux, filter_replicate_backslash]
    rfl
  | c :: t, k => by
    by_cases hc : c = '\\'
    · subst hc
      rw [collapseRunsAux_cons_backslash, collapseRunsAux_filter t (k + 1)]
      rfl
    · have hb : (c != '\\') = true := by simpa using hc
      rw [collapseRunsAux_cons_other k c t hc, List.filter_append,
        filter_replicate_backslash, List.nil_append]
      simp only [List.filter_cons, hb, if_true, collapseRunsAux_filter t 0]

theorem collapsePairs_of_noAdjacent : ∀ (s : Str), noAdjacentBackslashes s = true →
    collapsePairs s = s
  | [], _ => rfl
  | [_], _ => rfl
  | c :: d :: rest, h => by
    simp only [noAdjacentBackslashes, Bool.and_eq_true, Bool.not_eq_true',
      Bool.and_eq_false_iff, decide_eq_false_iff_not] at h
    have hp : ¬ (c = d ∧ c = '\\') := by
      rintro ⟨h1, h2⟩
      rcases h.1 with h3 | h3
      · exact h3 h2
      · exact h3 (h1 ▸ h2)
    rw [collapsePairs_nopair c d rest hp, collapsePairs_of_noAdjacent (d :: rest) h.2]

/-- The function `eraseDoubleEscape` on a string that is not empty, with enough fuel:
it returns the string with its pairs collapsed. -/
theorem eraseDoubleEscape_eq (str : Str) (fuel : Nat) (hne : str ≠ [])
    (hlen : str.length ≤ 2 ^ 32) (hfuel : str.length < fuel) :
    eraseDoubleEscape fuel str = Erased.returned (collapsePairs str) := by
  have hpos : 0 < ([] ++ str).length := by
    cases str with
    | nil => exact absurd rfl hne
    | cons c t => simp
  have h := eraseLoop_spec fuel [] str hpos (by simpa using hlen) hfuel
  simpa [eraseDoubleEscape] using h

/-- A string that is not empty and has no two adjacent backslashes is returned
unchanged. -/
theorem eraseDoubleEscape_unchanged (str : Str) (fuel : Nat) (hne : str ≠ [])
    (hlen : str.length ≤ 2 ^ 32) (hfuel : str.length < fuel)
    (hno : noAdjacentBackslashes str = true) :
    eraseDoubleEscape fuel str = Erased.returned str := by
  rw [eraseDoubleEscape_eq str fuel hne hlen hfuel, collapsePairs_of_noAdjacent str hno]

/-- C23: for every string that is not empty (and whose length fits the `uint` index of
the loop), `eraseDoubleEscape`, given enough iterations, returns the string in which
every maximal run of `k` consecutive backslashes has become a run of `⌈k / 2⌉`
backslashes: whenever the string is `pre`, a run of `k` backslashes and `post`, with
`pre` not ending and `post` not starting with a backslash, the result is the result for
`pre`, `⌈k / 2⌉` backslashes and the result for `post`; the other characters are kept,
in the same order. -/
theorem eraseDoubleEscape_collapses_runs (str : Str) (fuel : Nat) (hne : str ≠ [])
    (hlen : str.length ≤ 2 ^ 32) (hfuel : str.length < fuel) :
    eraseDoubleEscape fuel str = Erased.returned (collapseRuns str) ∧
    (∀ pre post k, str = pre ++ List.replicate k '\\' ++ post →
      (∀ p c, pre = p ++ [c] → c ≠ '\\') → (∀ d rest, post = d :: rest → d ≠ '\\') →
      collapseRuns str =
        collapseRuns pre ++ List.replicate ((k + 1) / 2) '\\' ++ collapseRuns post) ∧
    (collapseRuns str).filter (fun c => c != '\\') = str.filter (fun c => c != '\\') := by
  refine ⟨?_, ?_, ?_⟩
  · rw [eraseDoubleEscape_eq str fuel hne hlen hfuel, collapsePairs_eq]
  · intro pre post k hs hpre hpost
    rw [hs]
    exact collapseRuns_run pre post k hpre hpost
  · exact collapseRunsAux_filter str 0

/-- Witness for C23: in `a\\\b` the run of three backslashes becomes a run of two. -/
theorem eraseDoubleEscape_collapses_runs_witness :
    eraseDoubleEscape 6 ['a', '\\', '\\', '\\', 'b'] =
      Erased.returned ['a', '\\', '\\', 'b'] ∧
    eraseDoubleEscape 6 ['a', '\\', '\\', '\\', 'b'] =
      Erased.returned (collapseRuns ['a', '\\', '\\', '\\', 'b']) :=
  ⟨by decide,
   (eraseDoubleEscape_collapses_runs ['a', '\\', '\\', '\\', 'b'] 6 (by decide)
      (by decide) (by decide)).1⟩

/-- C30, evidence of the divergence: on the empty string the bound `str.size() - 1`
wraps to `2^64 - 1`, the condition of the loop holds for `i = 0`, and the body reads
`str[1]`, outside the string; whatever the number of iterations allowed, the run does
not return the string. -/
theorem eraseDoubleEscape_empty_out_of_range :
    noAdjacentBackslashes [] = true ∧
    (([] : Str).length + 2 ^ 64 - 1) % 2 ^ 64 = 18446744073709551615 ∧
    eraseDoubleEscape 0 [] = Erased.running ∧
    ∀ fuel, eraseDoubleEscape (fuel + 1) [] = Erased.outOfRange := by
  refine ⟨rfl, by decide, rfl, ?_⟩
  intro fuel
  simp [eraseDoubleEscape, eraseLoop]

/-! ## `memory_test` -/

theorem memState_eq {D : Type} {a b : MemState D}
    (h1 : a.algo_averages_accesses = b.algo_averages_accesses)
    (h2 : a.totTest = b.totTest) (h3 : a.present = b.present) : a = b := by
  cases a
  cases b
  simp only at h1 h2 h3
  subst h1 h2 h3
  rfl

/-- The counters of one algorithm added to its row, when they fit the matrix. -/
theorem addAccesses_eq {D : Type} (ops : DoubleOps D) (MD_SIZE i : Nat)
    (accessesVal : List Nat) (M : Nat → Nat → D) (hfit : accessesVal.length ≤ MD_SIZE) :
    addAccesses ops MD_SIZE i accessesVal M = some
      (fun r c => if r = i ∧ c < accessesVal.length then
          ops.add (M r c) (ops.ofCount (accessesVal.getD c 0))
        else M r c) := by
  have key : ∀ n, n ≤ accessesVal.length →
      (List.range n).foldlM
        (fun acc a =>
          if a < MD_SIZE then
            some (setCell acc i a (ops.add (acc i a) (ops.ofCount (accessesVal.getD a 0))))
          else none) M = some
        (fun r c => if r = i ∧ c < n then
            ops.add (M r c) (ops.ofCount (accessesVal.getD c 0))
          else M r c) := by
    intro n
    induction n with
    | zero =>
      intro _
      simp [pure]
    | succ n ih =>
      intro hn
      have hlt : n < MD_SIZE := by omega
      rw [foldlM_range_succ, ih (by omega), Option.some_bind, if_pos hlt]
      congr 1
      funext r c
      simp only [setCell]
      by_cases hc : c = n
      · subst hc
        by_cases hr : r = i <;> simp [hr]
      · have h1 : (c < n + 1) ↔ (c < n) := by omega
        simp [hc, h1]
  exact key accessesVal.length (le_refl _)

theorem accessesOf_nil (CCLMemAlgorithms : List (CCLMemPointer × Str)) (i : Nat)
    (binaryImg : Mat1b) (hi : ¬ i < CCLMemAlgorithms.length) :
    accessesOf CCLMemAlgorithms i binaryImg = [] := by
  unfold accessesOf
  rw [List.getElem?_eq_none (by omega)]

/-- The loop over the algorithms for one image, when the counters fit the matrix. -/
theorem memAlgorithms_eq {D : Type} (ops : DoubleOps D) (MD_SIZE : Nat)
    (CCLMemAlgorithms : List (CCLMemPointer × Str)) (binaryImg : Mat1b)
    (M : Nat → Nat → D)
    (hfit : ∀ i, i < CCLMemAlgorithms.length →
      (accessesOf CCLMemAlgorithms i binaryImg).length ≤ MD_SIZE) :
    memAlgorithms ops MD_SIZE CCLMemAlgorithms binaryImg M = some
      (fun r c =>
        match (accessesOf CCLMemAlgorithms r binaryImg)[c]? with
        | some v => ops.add (M r c) (ops.ofCount v)
        | none => M r c) := by
  have key : ∀ n, n ≤ CCLMemAlgorithms.length →
      (List.range n).foldlM
        (fun acc i =>
          addAccesses ops MD_SIZE i (accessesOf CCLMemAlgorithms i binaryImg) acc) M = some
        (fun r c => if r < n then
            (match (accessesOf CCLMemAlgorithms r binaryImg)[c]? with
              | some v => ops.add (M r c) (ops.ofCount v)
              | none => M r c)
          else M r c) := by
    intro n
    induction n with
    | zero =>
      intro _
      simp [pure]
    | succ n ih =>
      intro hn
      rw [foldlM_range_succ, ih (by omega), Option.some_bind,
        addAccesses_eq ops MD_SIZE n _ _ (hfit n (by omega))]
      congr 1
      funext r c
      by_cases hr : r = n
      · subst hr
        by_cases hc : c < (accessesOf CCLMemAlgorithms r binaryImg).length
        · simp [hc, List.getD_eq_getElem?_getD, List.getElem?_eq_getElem hc]
        · simp [hc, List.getElem?_eq_none (Nat.le_of_not_lt hc)]
      · have h1 : (r < n + 1) ↔ (r < n) := by omega
        simp [hr, h1]
  unfold memAlgorithms
  rw [key CCLMemAlgorithms.length (le_refl _)]
  congr 1
  funext r c
  by_cases hr : r < CCLMemAlgorithms.length
  · simp [hr]
  · simp [hr, accessesOf_nil CCLMemAlgorithms r binaryImg hr]

/-- One file of the loop of `memory_test`, when its counters fit the matrix. -/
theorem memFileStep_eq {D : Type} (ops : DoubleOps D) (imread : Str → Mat1b) (MD_SIZE : Nat)
    (CCLMemAlgorithms : List (CCLMemPointer × Str)) (input_path input_folder : Str)
    (names : List Str) (file : Nat) (st : MemState D)
    (hfit : ∀ i, i < CCLMemAlgorithms.length →
      (countersOf imread CCLMemAlgorithms input_path input_folder names i file).length
        ≤ MD_SIZE) :
    memFileStep ops imread MD_SIZE CCLMemAlgorithms input_path input_folder names file st =
      some
        { algo_averages_accesses := fun r c =>
            match (countersOf imread CCLMemAlgorithms input_path input_folder names r
              file)[c]? with
            | some v => ops.add (st.algo_averages_accesses r c) (ops.ofCount v)
            | none => st.algo_averages_accesses r c
          totTest :=
            if memLoads imread input_path input_folder names file = true then
              (st.totTest + 1) % 2 ^ 32
            else st.totTest
          present := fun f =>
            if f = file ∧ memLoads imread input_path input_folder names file = false then
              false
            else st.present f } := by
  unfold memFileStep memLoads
  unfold countersOf at hfit ⊢
  cases h : getBinaryImage imread (pathOf input_path input_folder (names.getD file [])) with
  | none =>
    simp only [Option.isSome_none, Bool.false_eq_true, if_false, and_true,
      Option.some.injEq]
    apply memState_eq
    · funext r c
      simp
    · rfl
    · funext f
      simp only [setAt]
  | some binaryImg =>
    rw [h] at hfit
    simp only at hfit
    dsimp only
    rw [memAlgorithms_eq ops MD_SIZE CCLMemAlgorithms binaryImg _ hfit]
    simp only [Option.map_some', Option.isSome_some, if_true, Option.some.injEq]
    apply memState_eq
    · rfl
    · rfl
    · funext f
      simp

theorem foldl_filter_noop {α β : Type} (p : β → Bool) (g : α → β → α)
    (hno : ∀ s f, p f = false → g s f = s) :
    ∀ (l : List β) (z : α), l.foldl g z = (l.filter p).foldl g z
  | [], _ => rfl
  | f :: l, z => by
    cases h : p f
    · rw [List.foldl_cons, hno z f h, List.filter_cons_of_neg (by simp [h])]
      exact foldl_filter_noop p g hno l z
    · rw [List.foldl_cons, List.filter_cons_of_pos h, List.foldl_cons]
      exact foldl_filter_noop p g hno l (g z f)

theorem countersOf_unloaded (imread : Str → Mat1b)
    (CCLMemAlgorithms : List (CCLMemPointer × Str)) (input_path input_folder : Str)
    (names : List Str) (i f : Nat)
    (h : memLoads imread input_path input_folder names f = false) :
    countersOf imread CCLMemAlgorithms input_path input_folder names i f = [] := by
  unfold memLoads at h
  unfold countersOf
  cases hg : getBinaryImage imread (pathOf input_path input_folder (names.getD f [])) with
  | none => rfl
  | some img =>
    rw [hg] at h
    cases h

/-- The loop over the files of `memory_test`, when the counters fit the matrix: every
cell is the sum of its counter over the files that load, and `totTest` their number
modulo 2^32. -/
theorem memFiles_eq {D : Type} (ops : DoubleOps D) (imread : Str → Mat1b) (MD_SIZE : Nat)
    (CCLMemAlgorithms : List (CCLMemPointer × Str)) (input_path input_folder : Str)
    (names : List Str)
    (hfit : CountersFit imread MD_SIZE CCLMemAlgorithms input_path input_folder names) :
    memFiles ops imread MD_SIZE CCLMemAlgorithms input_path input_folder names = some
      { algo_averages_accesses := fun r c =>
          sumOfCounters ops imread CCLMemAlgorithms input_path input_folder names r c
            (loadedFiles imread input_path input_folder names)
        totTest := (loadedFiles imread input_path input_folder names).length % 2 ^ 32
        present := fun f =>
          if f < names.length ∧ memLoads imread input_path input_folder names f = false then
            false
          else true } := by
  have key : ∀ n, n ≤ names.length →
      (List.range n).foldlM
        (fun s file => memFileStep ops imread MD_SIZE CCLMemAlgorithms input_path
          input_folder names file s) (initMemState ops) = some
        { algo_averages_accesses := fun r c =>
            (List.range n).foldl
              (fun s f =>
                match (countersOf imread CCLMemAlgorithms input_path input_folder names r
                  f)[c]? with
                | some v => ops.add s (ops.ofCount v)
                | none => s) ops.zero
          totTest := ((List.range n).filter
            (fun f => memLoads imread input_path input_folder names f)).length % 2 ^ 32
          present := fun f =>
            if f < n ∧ memLoads imread input_path input_folder names f = false then false
            else true } := by
    intro n
    induction n with
    | zero =>
      intro _
      simp [pure, initMemState]
    | succ n ih =>
      intro hn
      rw [foldlM_range_succ, ih (by omega), Option.some_bind,
        memFileStep_eq ops imread MD_SIZE CCLMemAlgorithms input_path input_folder names n _
          (fun i hi => hfit n (by omega) i hi)]
      congr 1
      apply memState_eq
      · funext r c
        simp only [foldl_range_succ]
      · simp only [List.range_succ, List.filter_append, List.length_append]
        cases hl : memLoads imread input_path input_folder names n
        · simp only [List.filter_cons, List.filter_nil, hl, Bool.false_eq_true, if_false,
            List.length_nil, Nat.add_zero]
        · simp only [List.filter_cons, List.filter_nil, hl, if_true, List.length_cons,
            List.length_nil]
          omega
      · funext f
        simp only
        by_cases hf : f = n
        · subst hf
          cases hl : memLoads imread input_path input_folder names f <;> simp
        · have h1 : (f < n + 1) ↔ (f < n) := by omega
          simp [hf, h1]
  unfold memFiles
  rw [key names.length (le_refl _)]
  congr 1
  apply memState_eq
  · funext r c
    simp only [sumOfCounters, loadedFiles]
    apply foldl_filter_noop
    intro s f hf
    rw [countersOf_unloaded imread CCLMemAlgorithms input_path input_folder names r f hf]
    rfl
  · rfl
  · rfl

theorem divRow_eq {D : Type} (ops : DoubleOps D) (d : D) (r : Nat) (M : Nat → Nat → D) :
    ∀ (cols : Nat),
    (List.range cols).foldl (fun acc2 c => setCell acc2 r c (ops.div (acc2 r c) d)) M =
      fun r2 c2 => if r2 = r ∧ c2 < cols then ops.div (M r2 c2) d else M r2 c2
  | 0 => by simp
  | n + 1 => by
    rw [foldl_range_succ, divRow_eq ops d r M n]
    funext r2 c2
    simp only [setCell]
    by_cases hc : c2 = n
    · subst hc
      by_cases hr : r2 = r <;> simp [hr]
    · have h1 : (c2 < n + 1) ↔ (c2 < n) := by omega
      simp [hc, h1]

/-- Lines 1103-1107, cell by cell. -/
theorem memAverages_eq {D : Type} (ops : DoubleOps D) (M : Nat → Nat → D)
    (cols totTest : Nat) : ∀ (rows : Nat),
    memAverages ops M rows cols totTest =
      fun r c => if r < rows ∧ c < cols then ops.div (M r c) (ops.ofCount totTest)
        else M r c
  | 0 => by simp [memAverages]
  | n + 1 => by
    have ih := memAverages_eq ops M cols totTest n
    simp only [memAverages] at ih ⊢
    rw [foldl_range_succ, ih, divRow_eq]
    funext r c
    by_cases hr : r = n
    · subst hr
      simp
    · have h1 : (r < n + 1) ↔ (r < n) := by omega
      simp [hr, h1]

/-- C22: in `memory_test`, when no algorithm returns more counters than the matrix has
columns (and the list has fewer than 2^32 files), for every algorithm `i` and every
counter slot `a` the value left in `algo_averages_accesses(i, a)` is the sum, over the
files that load, in order, of counter `a` returned by algorithm `i`, divided by the
number of files that load; the divisor does not depend on the slot nor on the
algorithm, and a file that does not load is in neither. -/
theorem memory_test_average {D : Type} (ops : DoubleOps D) (imread : Str → Mat1b)
    (MD_SIZE : Nat) (CCLMemAlgorithms : List (CCLMemPointer × Str))
    (input_path input_folder content : Str) (i a : Nat)
    (hfit : CountersFit imread MD_SIZE CCLMemAlgorithms input_path input_folder
      (readFileNames content))
    (hlen : (readFileNames content).length < 2 ^ 32)
    (hi : i < CCLMemAlgorithms.length) (ha : a < MD_SIZE) :
    (∃ R, memory_test ops imread MD_SIZE CCLMemAlgorithms input_path input_folder content
        = some R ∧
      R i a =
        ops.div
          (sumOfCounters ops imread CCLMemAlgorithms input_path input_folder
            (readFileNames content) i a
            (loadedFiles imread input_path input_folder (readFileNames content)))
          (ops.ofCount
            (loadedFiles imread input_path input_folder (readFileNames content)).length)) ∧
    (∀ f, f ∈ loadedFiles imread input_path input_folder (readFileNames content) ↔
      f < (readFileNames content).length ∧
        memLoads imread input_path input_folder (readFileNames content) f = true) ∧
    (∀ f, memLoads imread input_path input_folder (readFileNames content) f = false →
      countersOf imread CCLMemAlgorithms input_path input_folder (readFileNames content) i f
        = []) := by
  refine ⟨?_, ?_, ?_⟩
  · unfold memory_test
    rw [memFiles_eq ops imread MD_SIZE CCLMemAlgorithms input_path input_folder _ hfit]
    simp only [Option.map_some']
    refine ⟨_, rfl, ?_⟩
    rw [memAverages_eq]
    have hle : (loadedFiles imread input_path input_folder (readFileNames content)).length
        ≤ (readFileNames content).length := by
      unfold loadedFiles
      exact le_trans (List.length_filter_le _ _) (by simp)
    have hmod : (loadedFiles imread input_path input_folder (readFileNames content)).length
        % 2 ^ 32 =
        (loadedFiles imread input_path input_folder (readFileNames content)).length :=
      Nat.mod_eq_of_lt (by omega)
    simp only [hi, ha, and_self, if_true, hmod]
  · intro f
    simp [loadedFiles, List.mem_filter, List.mem_range]
  · intro f hf
    exact countersOf_unloaded imread CCLMemAlgorithms input_path input_folder _ i f hf

/-- Witness for C22: on the list `a.png`, `zz.png`, of which the second does not load,
the second counter of the first algorithm is 4 and the average is 4 / 1; on the list
`a.png`, `b.png` the sum is 4 + 6 and the average 10 / 2. -/
theorem memory_test_average_witness :
    loadedFiles demoImread "in".toList "d".toList (readFileNames "a.png\nzz.png\n".toList)
      = [0] ∧
    (memory_test microOps demoImread 4 [(demoMem, "m".toList), (demoMem2, "n".toList)]
      "in".toList "d".toList "a.png\nzz.png\n".toList).map (fun R => R 0 1)
      = some (some 4) ∧
    (memory_test microOps demoImread 4 [(demoMem, "m".toList), (demoMem2, "n".toList)]
      "in".toList "d".toList "a.png\nb.png\n".toList).map (fun R => R 0 1)
      = some (some 5) ∧
    ∃ R, memory_test microOps demoImread 4 [(demoMem, "m".toList), (demoMem2, "n".toList)]
        "in".toList "d".toList "a.png\nzz.png\n".toList = some R ∧
      R 0 1 =
        microOps.div
          (sumOfCounters microOps demoImread [(demoMem, "m".toList), (demoMem2, "n".toList)]
            "in".toList "d".toList (readFileNames "a.png\nzz.png\n".toList) 0 1
            (loadedFiles demoImread "in".toList "d".toList
              (readFileNames "a.png\nzz.png\n".toList)))
          (microOps.ofCount
            (loadedFiles demoImread "in".toList "d".toList
              (readFileNames "a.png\nzz.png\n".toList)).length) :=
  ⟨by decide, by decide, by decide,
   (memory_test_average microOps demoImread 4 [(demoMem, "m".toList), (demoMem2, "n".toList)]
      "in".toList "d".toList "a.png\nzz.png\n".toList 0 1
      (by unfold CountersFit; decide) (by decide) (by decide) (by decide)).1⟩

end YACCLAB
